import Mathlib

/-!
# Objective-C metadata decoder of go-macho (objc.go)

A shallow embedding of `objc.go`.  The decoder reads through one shared reader
`f.sr`; its cursor is passed explicitly: every operation that touches the
reader takes the cursor before the call and returns the cursor after it,
together with the Go pair (value, error) as an `Except`.

The address resolver (`GetOffset`, `GetVMAddress`, `convertToVMAddr`), the
C-string reader (`GetCString`), the record layouts of package `objc` and the
two header methods `IsSmall` and `EntSize` are declared outside `objc.go`;
they are fields of `File` and of `ObjcTypes`, so the general theorems hold for
each of them.  The recursion of `GetObjCClass` on the superclass is bounded by
a fuel argument; the result `none` stands for a call that does not return.
-/

namespace Macho

/-! ## Machine integers and byte order -/

/-- Value of a Go `int64` conversion: the representative of `x` modulo `2^64`
in the signed 64-bit range. -/
def toInt64 (x : Int) : Int :=
  (x + 9223372036854775808) % 18446744073709551616 - 9223372036854775808

/-- Value of a Go `uint64` conversion: the representative of `x` modulo `2^64`
in the unsigned 64-bit range. -/
def toUint64 (x : Int) : Nat :=
  (x % 18446744073709551616).toNat

/-- Value of a Go `int32` read from an unsigned 32-bit pattern. -/
def toInt32 (n : Nat) : Int :=
  if n % 4294967296 < 2147483648 then ((n % 4294967296 : Nat) : Int)
  else ((n % 4294967296 : Nat) : Int) - 4294967296

/-- The byte order of the image (`f.ByteOrder`). -/
inductive ByteOrder where
  | LittleEndian
  | BigEndian
deriving DecidableEq, Repr

/-- Little-endian value of a byte string. -/
def leNat : List Nat → Nat
  | [] => 0
  | b :: bs => b % 256 + 256 * leNat bs

/-- Unsigned integer stored in `bs` under byte order `o`. -/
def decodeUint (o : ByteOrder) (bs : List Nat) : Nat :=
  match o with
  | .LittleEndian => leNat bs
  | .BigEndian => leNat bs.reverse

/-! ## Errors and outcomes -/

/-- The error returns of `objc.go`, one tag per `fmt.Errorf` site (the text of
the wrapped cause is not kept). -/
inductive Err where
  | eof
  | unexpectedEOF
  | convertVMAddr
  | readClassRO
  | readClass
  | classInfo
  | cstring
  | methodsAt
  | ivarsAt
  | readMethodList
  | readMethodSmall
  | readNameAddr
  | convertOffset
  | readMethodBig
  | readIvarList
  | readPropertyList
  | readProperty
  | readSection
  | readPointers
  | readProtocol
  | readExtendedMethodTypes
  | readDemangledName
  | classAt
  | noSection
deriving DecidableEq, Repr

/-- Outcome of a call that uses the reader: the Go result and the cursor of
`f.sr` after the call. -/
abbrev Out (α : Type) := Except Err α × Nat

/-! ## Records of package objc -/

/-- A fixed-size record layout: its byte size and its decoder
(`binary.Read` into a value of the record type). -/
structure Codec (α : Type) where
  size : Nat
  decode : ByteOrder → List Nat → α

/-- Header of a method list: `objc.MethodList`. -/
structure MethodList where
  EntSizeAndFlags : Nat
  Count : Nat
deriving DecidableEq, Repr

/-- Entry of a small method list, three signed 32-bit offsets:
`objc.MethodSmallT`. -/
structure MethodSmallT where
  NameOffset : Int
  TypesOffset : Int
  ImpOffset : Int
deriving DecidableEq, Repr

/-- Entry of a big method list, three 64-bit addresses: `objc.MethodT`. -/
structure MethodT where
  NameVMAddr : Nat
  TypesVMAddr : Nat
  ImpVMAddr : Nat
deriving DecidableEq, Repr

/-- A file location: `types.FilePointer`. -/
structure FilePointer where
  VMAdder : Nat
  Offset : Int
deriving DecidableEq, Repr

/-- A decoded method: `objc.Method`. -/
structure Method where
  NameVMAddr : Nat
  TypesVMAddr : Nat
  ImpVMAddr : Nat
  Name : String
  Types : String
  Pointer : FilePointer
deriving DecidableEq, Repr

/-- The fields of `objc.SwiftClassMetadata64` that `objc.go` reads. -/
structure SwiftClassMetadata64 where
  IsaVMAddr : Nat
  SuperclassVMAddr : Nat
  MethodCacheBuckets : Nat
  MethodCacheProperties : Nat
  DataVMAddrAndFastFlags : Nat
deriving DecidableEq, Repr

/-- The fields of `objc.ClassRO64` that `objc.go` reads. -/
structure ClassRO64 where
  NameVMAddr : Nat
  BaseMethodsVMAddr : Nat
  IvarsVMAddr : Nat
deriving DecidableEq, Repr

/-- Header of an ivar list: `objc.IvarList`. -/
structure IvarList where
  EntSize : Nat
  Count : Nat
deriving DecidableEq, Repr

/-- Entry of an ivar list: `objc.IvarT`. -/
structure IvarT where
  Offset : Nat
  NameVMAddr : Nat
  TypesVMAddr : Nat
  Alignment : Nat
  Size : Nat
deriving DecidableEq, Repr

/-- A decoded instance variable: `objc.Ivar` (`TypeEnc` is its field `Type`). -/
structure Ivar where
  Name : String
  TypeEnc : String
  IvarT : IvarT
deriving DecidableEq, Repr

/-- Header of a property list: `objc.PropertyList`. -/
structure PropertyList where
  EntSize : Nat
  Count : Nat
deriving DecidableEq, Repr

/-- Entry of a property list: `objc.PropertyT`. -/
structure PropertyT where
  NameVMAddr : Nat
  AttributesVMAddr : Nat
deriving DecidableEq, Repr

/-- A decoded property: `objc.Property`. -/
structure Property where
  PropertyT : PropertyT
  Name : String
  Attributes : String
deriving DecidableEq, Repr

/-- The fields of `objc.ProtocolT` that `objc.go` reads. -/
structure ProtocolT where
  NameVMAddr : Nat
  InstanceMethodsVMAddr : Nat
  ClassMethodsVMAddr : Nat
  OptionalInstanceMethodsVMAddr : Nat
  OptionalClassMethodsVMAddr : Nat
  InstancePropertiesVMAddr : Nat
  ExtendedMethodTypesVMAddr : Nat
  DemangledNameVMAddr : Nat
deriving DecidableEq, Repr

/-- A decoded protocol: `objc.Protocol`. -/
structure Protocol where
  Name : String
  InstanceMethods : List Method
  ClassMethods : List Method
  OptionalInstanceMethods : List Method
  OptionalClassMethods : List Method
  InstanceProperties : List Property
  ExtendedMethodTypes : String
  DemangledName : String
  ProtocolT : ProtocolT
deriving DecidableEq, Repr

/-- A decoded class: `objc.Class`.  `SuperClass` is the Go pointer
`*objc.Class`, `none` for nil. -/
inductive Class where
  | mk (Name : String) (SuperClass : Option Class) (InstanceMethods : List Method)
      (Ivars : List Ivar) (ClassPtr : FilePointer) (IsaVMAddr : Nat)
      (SuperclassVMAddr : Nat) (MethodCacheBuckets : Nat) (MethodCacheProperties : Nat)
      (DataVMAddr : Nat) (IsSwiftLegacy : Bool) (IsSwiftStable : Bool)
      (ReadOnlyData : ClassRO64)

/-- Field `Name` of a class. -/
def Class.Name : Class → String
  | .mk n _ _ _ _ _ _ _ _ _ _ _ _ => n

/-- Field `SuperClass` of a class. -/
def Class.SuperClass : Class → Option Class
  | .mk _ s _ _ _ _ _ _ _ _ _ _ _ => s

/-- Field `InstanceMethods` of a class. -/
def Class.InstanceMethods : Class → List Method
  | .mk _ _ m _ _ _ _ _ _ _ _ _ _ => m

/-- Field `Ivars` of a class. -/
def Class.Ivars : Class → List Ivar
  | .mk _ _ _ i _ _ _ _ _ _ _ _ _ => i

/-- Field `ClassPtr` of a class. -/
def Class.ClassPtr : Class → FilePointer
  | .mk _ _ _ _ p _ _ _ _ _ _ _ _ => p

/-- Field `DataVMAddr` of a class. -/
def Class.DataVMAddr : Class → Nat
  | .mk _ _ _ _ _ _ _ _ _ d _ _ _ => d

/-- Field `IsSwiftLegacy` of a class. -/
def Class.IsSwiftLegacy : Class → Bool
  | .mk _ _ _ _ _ _ _ _ _ _ l _ _ => l

/-- Field `IsSwiftStable` of a class. -/
def Class.IsSwiftStable : Class → Bool
  | .mk _ _ _ _ _ _ _ _ _ _ _ s _ => s

/-- Field `ReadOnlyData` of a class. -/
def Class.ReadOnlyData : Class → ClassRO64
  | .mk _ _ _ _ _ _ _ _ _ _ _ _ r => r

/-- Modelled from the spec: the layout of the 8-byte method-list header
(entry-size/flags field, then entry count), declared in package `objc`. -/
def methodListCodec : Codec MethodList :=
  { size := 8
    decode := fun o bs =>
      { EntSizeAndFlags := decodeUint o (bs.take 4)
        Count := decodeUint o ((bs.drop 4).take 4) } }

/-- Modelled from the spec: the layout of a small entry, three signed 32-bit
offsets (name, types, implementation), 12 bytes, declared in package `objc`. -/
def methodSmallCodec : Codec MethodSmallT :=
  { size := 12
    decode := fun o bs =>
      { NameOffset := toInt32 (decodeUint o (bs.take 4))
        TypesOffset := toInt32 (decodeUint o ((bs.drop 4).take 4))
        ImpOffset := toInt32 (decodeUint o ((bs.drop 8).take 4)) } }

/-- Modelled from the spec: the layout of a big entry, three 64-bit addresses
(name, types, implementation), 24 bytes, declared in package `objc`. -/
def methodBigCodec : Codec MethodT :=
  { size := 24
    decode := fun o bs =>
      { NameVMAddr := decodeUint o (bs.take 8)
        TypesVMAddr := decodeUint o ((bs.drop 8).take 8)
        ImpVMAddr := decodeUint o ((bs.drop 16).take 8) } }

/-- Layout of a Go `uint32`. -/
def uint32Codec : Codec Nat :=
  { size := 4, decode := decodeUint }

/-- Layout of a Go `uint64`. -/
def uint64Codec : Codec Nat :=
  { size := 8, decode := decodeUint }

/-- Modelled from the spec: the constant `objc.FAST_IS_SWIFT_LEGACY`, bit 0 of
the data-and-flags word (declared in package `objc`). -/
def FAST_IS_SWIFT_LEGACY : Nat := 1

/-- Modelled from the spec: the constant `objc.FAST_IS_SWIFT_STABLE`, bit 1 of
the data-and-flags word (declared in package `objc`). -/
def FAST_IS_SWIFT_STABLE : Nat := 2

/-- Modelled from the spec: the constant `objc.FAST_DATA_MASK64`, the fixed
bit-mask that extracts the class-read-only-data address (declared in package
`objc`). -/
def FAST_DATA_MASK64 : Nat := 0x00007ffffffffff8

/-! ## The image -/

/-- A section of the image (`types.Section`). -/
structure Section where
  Name : String
  Seg : String
  Addr : Nat
  Size : Nat
  Offset : Nat
deriving DecidableEq, Repr

/-- A segment of the image (`Segment`). -/
structure Segment where
  Name : String
  Firstsect : Nat
  Nsect : Nat
deriving DecidableEq, Repr

/-- Record layouts and header predicates declared in package `objc`, taken as
parameters. -/
structure ObjcTypes where
  classCodec : Codec SwiftClassMetadata64
  classROCodec : Codec ClassRO64
  ivarListCodec : Codec IvarList
  ivarCodec : Codec IvarT
  propertyListCodec : Codec PropertyList
  propertyCodec : Codec PropertyT
  protocolCodec : Codec ProtocolT
  IsSmall : MethodList → Bool
  EntSize : MethodList → Nat

/-- The image `*File`, as far as `objc.go` uses it.  `sr` is the byte store
behind the reader `f.sr`.  `GetOffset`, `GetVMAddress`, `convertToVMAddr` and
`GetCString` are the methods of `File` declared outside `objc.go`;
`GetOffset` gives the file offset as the signed 64-bit value that
`f.sr.Seek` receives; `GetCStringCursor a c` is the cursor `GetCString a`
leaves when called at cursor `c`. -/
structure File where
  CPU : Nat
  ByteOrder : ByteOrder
  Segs : List Segment
  Sections : List Section
  sr : List Nat
  pointerSize : Nat
  GetOffset : Nat → Option Int
  GetVMAddress : Nat → Option Nat
  convertToVMAddr : Nat → Nat
  GetCString : Nat → Option String
  GetCStringCursor : Nat → Nat → Nat
  objc : ObjcTypes

/-! ## The reader -/

/-- Modelled from the spec: `f.sr.Seek(offset, io.SeekStart)` with its error
ignored; a negative offset is refused and leaves the cursor where it was. -/
def seek (cur : Nat) (offset : Int) : Nat :=
  if offset < 0 then cur else offset.toNat

/-- Modelled from the spec: a full read of `size` bytes at the cursor
(`io.ReadFull` on `f.sr`); the cursor moves over the bytes that were there. -/
def File.read (f : File) (size cur : Nat) : Out (List Nat) :=
  if ((f.sr.drop cur).take size).length = size then
    (.ok ((f.sr.drop cur).take size), cur + size)
  else
    (.error .eof, cur + ((f.sr.drop cur).take size).length)

/-- Cut `n` records of `size` bytes out of a byte string. -/
def chunks (size : Nat) : Nat → List Nat → List (List Nat)
  | 0, _ => []
  | n + 1, bs => bs.take size :: chunks size n (bs.drop size)

/-- Reads one record: `binary.Read(f.sr, f.ByteOrder, &x)`. -/
def File.binaryRead {α : Type} (f : File) (c : Codec α) (cur : Nat) : Out α :=
  match f.read c.size cur with
  | (.ok bs, cur1) => (.ok (c.decode f.ByteOrder bs), cur1)
  | (.error e, cur1) => (.error e, cur1)

/-- Reads a slice of `n` records: `binary.Read(f.sr, f.ByteOrder, &xs)` with
`xs := make([]T, n)`. -/
def File.binaryReadSlice {α : Type} (f : File) (c : Codec α) (n cur : Nat) : Out (List α) :=
  match f.read (n * c.size) cur with
  | (.ok bs, cur1) => (.ok ((chunks c.size n bs).map (c.decode f.ByteOrder)), cur1)
  | (.error e, cur1) => (.error e, cur1)

/-! ## Method lists -/

/-- Body of the loop of `readSmallMethods`: decodes the entry `method` whose
slot is at `currOffset`. -/
def smallEntry (f : File) (currOffset : Int) (cur : Nat) (method : MethodSmallT) : Out Method :=
  match f.binaryRead uint32Codec (seek cur (toInt64 (method.NameOffset + currOffset))) with
  | (.error _, cur1) => (.error .readNameAddr, cur1)
  | (.ok nameAddr, cur1) =>
    match f.GetCString nameAddr with
    | none => (.error .cstring, f.GetCStringCursor nameAddr cur1)
    | some n =>
      match f.GetVMAddress
          ((toUint64 method.TypesOffset + toUint64 (toInt64 (currOffset + 4))) %
            18446744073709551616) with
      | none => (.error .convertOffset, f.GetCStringCursor nameAddr cur1)
      | some typesVMAddr =>
        match f.GetCString typesVMAddr with
        | none =>
          (.error .cstring,
            f.GetCStringCursor typesVMAddr (f.GetCStringCursor nameAddr cur1))
        | some t =>
          match f.GetVMAddress
              ((toUint64 method.ImpOffset + toUint64 (toInt64 (currOffset + 8))) %
                18446744073709551616) with
          | none =>
            (.error .convertOffset,
              f.GetCStringCursor typesVMAddr (f.GetCStringCursor nameAddr cur1))
          | some impVMAddr =>
            (.ok
              { NameVMAddr := nameAddr
                TypesVMAddr := typesVMAddr
                ImpVMAddr := impVMAddr
                Name := n
                Types := t
                Pointer := { VMAdder := impVMAddr, Offset := method.ImpOffset } },
              f.GetCStringCursor typesVMAddr (f.GetCStringCursor nameAddr cur1))

/-- The loop `for _, method := range methods` of `readSmallMethods`;
`currOffset` advances by `methodList.EntSize()` after each entry. -/
def smallLoop (f : File) (methodList : MethodList) :
    List MethodSmallT → Int → Nat → List Method → Out (List Method)
  | [], _, cur, objcMethods => (.ok objcMethods, cur)
  | method :: rest, currOffset, cur, objcMethods =>
    match smallEntry f currOffset cur method with
    | (.error e, cur1) => (.error e, cur1)
    | (.ok m, cur1) =>
      smallLoop f methodList rest (toInt64 (currOffset + f.objc.EntSize methodList))
        cur1 (objcMethods ++ [m])

/-- Method `readSmallMethods` of `File`, called with the reader at `cur`. -/
def readSmallMethods (f : File) (methodList : MethodList) (cur : Nat) : Out (List Method) :=
  match f.binaryReadSlice methodSmallCodec methodList.Count cur with
  | (.error _, cur1) => (.error .readMethodSmall, cur1)
  | (.ok methods, cur1) => smallLoop f methodList methods (cur : Int) cur1 []

/-- Body of the loop of `readBigMethods`. -/
def bigEntry (f : File) (cur : Nat) (method : MethodT) : Out Method :=
  match f.GetCString (f.convertToVMAddr method.NameVMAddr) with
  | none => (.error .cstring, f.GetCStringCursor (f.convertToVMAddr method.NameVMAddr) cur)
  | some n =>
    match f.GetCString (f.convertToVMAddr method.TypesVMAddr) with
    | none =>
      (.error .cstring,
        f.GetCStringCursor (f.convertToVMAddr method.TypesVMAddr)
          (f.GetCStringCursor (f.convertToVMAddr method.NameVMAddr) cur))
    | some t =>
      match f.GetOffset (f.convertToVMAddr method.ImpVMAddr) with
      | none =>
        (.error .convertVMAddr,
          f.GetCStringCursor (f.convertToVMAddr method.TypesVMAddr)
            (f.GetCStringCursor (f.convertToVMAddr method.NameVMAddr) cur))
      | some impOff =>
        (.ok
          { NameVMAddr := method.NameVMAddr
            TypesVMAddr := method.TypesVMAddr
            ImpVMAddr := method.ImpVMAddr
            Name := n
            Types := t
            Pointer := { VMAdder := method.ImpVMAddr, Offset := impOff } },
          f.GetCStringCursor (f.convertToVMAddr method.TypesVMAddr)
            (f.GetCStringCursor (f.convertToVMAddr method.NameVMAddr) cur))

/-- The loop `for _, method := range methods` of `readBigMethods`. -/
def bigLoop (f : File) : List MethodT → Nat → List Method → Out (List Method)
  | [], cur, objcMethods => (.ok objcMethods, cur)
  | method :: rest, cur, objcMethods =>
    match bigEntry f cur method with
    | (.error e, cur1) => (.error e, cur1)
    | (.ok m, cur1) => bigLoop f rest cur1 (objcMethods ++ [m])

/-- Method `readBigMethods` of `File`, called with the reader at `cur`. -/
def readBigMethods (f : File) (methodList : MethodList) (cur : Nat) : Out (List Method) :=
  match f.binaryReadSlice methodBigCodec methodList.Count cur with
  | (.error _, cur1) => (.error .readMethodBig, cur1)
  | (.ok methods, cur1) => bigLoop f methods cur1 []

/-- Method `GetObjCMethods` of `File`. -/
def GetObjCMethods (f : File) (cur vmAddr : Nat) : Out (List Method) :=
  match f.GetOffset vmAddr with
  | none => (.error .convertVMAddr, cur)
  | some off =>
    match f.binaryRead methodListCodec (seek cur off) with
    | (.error _, cur1) => (.error .readMethodList, cur1)
    | (.ok methodList, cur1) =>
      if f.objc.IsSmall methodList then readSmallMethods f methodList cur1
      else readBigMethods f methodList cur1

/-! ## Ivars and properties -/

/-- Body of the loop of `GetObjCIvars`. -/
def ivarEntry (f : File) (cur : Nat) (ivar : IvarT) : Out Ivar :=
  match f.GetCString (f.convertToVMAddr ivar.NameVMAddr) with
  | none => (.error .cstring, f.GetCStringCursor (f.convertToVMAddr ivar.NameVMAddr) cur)
  | some n =>
    match f.GetCString (f.convertToVMAddr ivar.TypesVMAddr) with
    | none =>
      (.error .cstring,
        f.GetCStringCursor (f.convertToVMAddr ivar.TypesVMAddr)
          (f.GetCStringCursor (f.convertToVMAddr ivar.NameVMAddr) cur))
    | some t =>
      (.ok { Name := n, TypeEnc := t, IvarT := ivar },
        f.GetCStringCursor (f.convertToVMAddr ivar.TypesVMAddr)
          (f.GetCStringCursor (f.convertToVMAddr ivar.NameVMAddr) cur))

/-- The loop `for _, ivar := range ivs` of `GetObjCIvars`. -/
def ivarLoop (f : File) : List IvarT → Nat → List Ivar → Out (List Ivar)
  | [], cur, ivars => (.ok ivars, cur)
  | ivar :: rest, cur, ivars =>
    match ivarEntry f cur ivar with
    | (.error e, cur1) => (.error e, cur1)
    | (.ok i, cur1) => ivarLoop f rest cur1 (ivars ++ [i])

/-- Method `GetObjCIvars` of `File`. -/
def GetObjCIvars (f : File) (cur vmAddr : Nat) : Out (List Ivar) :=
  match f.GetOffset vmAddr with
  | none => (.error .convertVMAddr, cur)
  | some off =>
    match f.binaryRead f.objc.ivarListCodec (seek cur off) with
    | (.error _, cur1) => (.error .readIvarList, cur1)
    | (.ok ivarsList, cur1) =>
      match f.binaryReadSlice f.objc.ivarCodec ivarsList.Count cur1 with
      | (.error _, cur2) => (.error .readIvarList, cur2)
      | (.ok ivs, cur2) => ivarLoop f ivs cur2 []

/-- Body of the loop of `GetObjCProperties`. -/
def propertyEntry (f : File) (cur : Nat) (prop : PropertyT) : Out Property :=
  match f.GetCString (f.convertToVMAddr prop.NameVMAddr) with
  | none => (.error .cstring, f.GetCStringCursor (f.convertToVMAddr prop.NameVMAddr) cur)
  | some name =>
    match f.GetCString (f.convertToVMAddr prop.AttributesVMAddr) with
    | none =>
      (.error .cstring,
        f.GetCStringCursor (f.convertToVMAddr prop.AttributesVMAddr)
          (f.GetCStringCursor (f.convertToVMAddr prop.NameVMAddr) cur))
    | some attrib =>
      (.ok { PropertyT := prop, Name := name, Attributes := attrib },
        f.GetCStringCursor (f.convertToVMAddr prop.AttributesVMAddr)
          (f.GetCStringCursor (f.convertToVMAddr prop.NameVMAddr) cur))

/-- The loop `for _, prop := range properties` of `GetObjCProperties`. -/
def propertyLoop (f : File) : List PropertyT → Nat → List Property → Out (List Property)
  | [], cur, objcProperties => (.ok objcProperties, cur)
  | prop :: rest, cur, objcProperties =>
    match propertyEntry f cur prop with
    | (.error e, cur1) => (.error e, cur1)
    | (.ok q, cur1) => propertyLoop f rest cur1 (objcProperties ++ [q])

/-- Method `GetObjCProperties` of `File`. -/
def GetObjCProperties (f : File) (cur vmAddr : Nat) : Out (List Property) :=
  match f.GetOffset vmAddr with
  | none => (.error .convertVMAddr, cur)
  | some off =>
    match f.binaryRead f.objc.propertyListCodec (seek cur off) with
    | (.error _, cur1) => (.error .readPropertyList, cur1)
    | (.ok propList, cur1) =>
      match f.binaryReadSlice f.objc.propertyCodec propList.Count cur1 with
      | (.error _, cur2) => (.error .readProperty, cur2)
      | (.ok properties, cur2) => propertyLoop f properties cur2 []

/-! ## Classes -/

/-- Method `GetObjCClassInfo` of `File`. -/
def GetObjCClassInfo (f : File) (cur vmAddr : Nat) : Out ClassRO64 :=
  match f.GetOffset vmAddr with
  | none => (.error .convertVMAddr, cur)
  | some off =>
    match f.binaryRead f.objc.classROCodec (seek cur off) with
    | (.error _, cur1) => (.error .readClassRO, cur1)
    | (.ok classData, cur1) => (.ok classData, cur1)

/-- What `GetObjCClass` has decoded when it reaches the superclass: the local
variables `off`, `classPtr`, `info`, `name`, `methods` and `ivars`. -/
structure ClassParts where
  off : Int
  classPtr : SwiftClassMetadata64
  info : ClassRO64
  name : String
  methods : List Method
  ivars : List Ivar

/-- The base methods of `GetObjCClass`: decoded only when
`info.BaseMethodsVMAddr > 0`. -/
def classMethods (f : File) (cur : Nat) (info : ClassRO64) : Out (List Method) :=
  if info.BaseMethodsVMAddr > 0 then
    match GetObjCMethods f cur (f.convertToVMAddr info.BaseMethodsVMAddr) with
    | (.error _, cur1) => (.error .methodsAt, cur1)
    | (.ok methods, cur1) => (.ok methods, cur1)
  else (.ok [], cur)

/-- The ivars of `GetObjCClass`: decoded only when `info.IvarsVMAddr > 0`. -/
def classIvars (f : File) (cur : Nat) (info : ClassRO64) : Out (List Ivar) :=
  if info.IvarsVMAddr > 0 then
    match GetObjCIvars f cur (f.convertToVMAddr info.IvarsVMAddr) with
    | (.error _, cur1) => (.error .ivarsAt, cur1)
    | (.ok ivars, cur1) => (.ok ivars, cur1)
  else (.ok [], cur)

/-- The part of `GetObjCClass` before the superclass: the class record, the
read-only data, the name, the methods and the ivars. -/
def classParts (f : File) (cur vmaddr : Nat) : Out ClassParts :=
  match f.GetOffset vmaddr with
  | none => (.error .convertVMAddr, cur)
  | some off =>
    match f.binaryRead f.objc.classCodec (seek cur off) with
    | (.error _, cur1) => (.error .readClass, cur1)
    | (.ok classPtr, cur1) =>
      match GetObjCClassInfo f cur1
          (f.convertToVMAddr classPtr.DataVMAddrAndFastFlags &&& FAST_DATA_MASK64) with
      | (.error _, cur2) => (.error .classInfo, cur2)
      | (.ok info, cur2) =>
        match f.GetCString (f.convertToVMAddr info.NameVMAddr) with
        | none => (.error .cstring, f.GetCStringCursor (f.convertToVMAddr info.NameVMAddr) cur2)
        | some name =>
          match classMethods f (f.GetCStringCursor (f.convertToVMAddr info.NameVMAddr) cur2)
              info with
          | (.error e, cur3) => (.error e, cur3)
          | (.ok methods, cur3) =>
            match classIvars f cur3 info with
            | (.error e, cur4) => (.error e, cur4)
            | (.ok ivars, cur4) =>
              (.ok
                { off := off, classPtr := classPtr, info := info, name := name
                  methods := methods, ivars := ivars },
                cur4)

/-- The value `GetObjCClass` returns, from what it decoded and the superclass
it resolved. -/
def mkClass (f : File) (vmaddr : Nat) (p : ClassParts) (superClass : Option Class) : Class :=
  Class.mk p.name superClass p.methods p.ivars
    { VMAdder := vmaddr, Offset := p.off }
    (f.convertToVMAddr p.classPtr.IsaVMAddr)
    (f.convertToVMAddr p.classPtr.SuperclassVMAddr)
    p.classPtr.MethodCacheBuckets
    p.classPtr.MethodCacheProperties
    (f.convertToVMAddr p.classPtr.DataVMAddrAndFastFlags &&& FAST_DATA_MASK64)
    (decide (p.classPtr.DataVMAddrAndFastFlags &&& FAST_IS_SWIFT_LEGACY = 1))
    (decide (p.classPtr.DataVMAddrAndFastFlags &&& FAST_IS_SWIFT_STABLE = 1))
    p.info

/-- Method `GetObjCClass` of `File`.  The recursion on the superclass is
bounded by `fuel`; `none` means the fuel ran out (the call does not return).
An error of the recursive call is dropped and leaves `superClass` nil. -/
def GetObjCClass (f : File) : Nat → Nat → Nat → Option (Out Class)
  | 0, _, _ => none
  | fuel + 1, cur, vmaddr =>
    match classParts f cur vmaddr with
    | (.error e, cur1) => some (.error e, cur1)
    | (.ok p, cur1) =>
      if p.classPtr.SuperclassVMAddr > 0 then
        match GetObjCClass f fuel cur1 (f.convertToVMAddr p.classPtr.SuperclassVMAddr) with
        | none => none
        | some (.ok superClass, cur2) => some (.ok (mkClass f vmaddr p (some superClass)), cur2)
        | some (.error _, cur2) => some (.ok (mkClass f vmaddr p none), cur2)
      else some (.ok (mkClass f vmaddr p none), cur1)

/-! ## Sections -/

/-- Go `strings.HasPrefix`. -/
def HasPrefix (s p : String) : Bool :=
  p.data.isPrefixOf s.data

/-- Modelled from the spec: `f.Section(segment, section)`, the first section of
the section table with that segment name and section name, or nil. -/
def File.Section (f : File) (segment sect : String) : Option Section :=
  f.Sections.find? (fun s => s.Seg == segment && s.Name == sect)

/-- Modelled from the spec: `sec.Data()`, the `Size` bytes of the store at the
section's file offset, or an error when the store is too short. -/
def Section.Data (f : File) (sec : Section) : Except Err (List Nat) :=
  if ((f.sr.drop sec.Offset).take sec.Size).length = sec.Size then
    .ok ((f.sr.drop sec.Offset).take sec.Size)
  else .error .eof

/-- The search that opens every section reader of `objc.go`: the section
`name` of the first segment whose name starts with `__DATA` and that has one. -/
def dataSection (f : File) (name : String) : List Segment → Option Section
  | [] => none
  | s :: rest =>
    if HasPrefix s.Name "__DATA" then
      match f.Section s.Name name with
      | some sec => some sec
      | none => dataSection f name rest
    else dataSection f name rest

/-- Reads the pointers of a section:
`binary.Read(bytes.NewReader(dat), f.ByteOrder, &ptrs)` with
`ptrs := make([]uint64, n)`. -/
def readPointers (o : ByteOrder) (dat : List Nat) (n : Nat) : Except Err (List Nat) :=
  if (dat.take (n * 8)).length = n * 8 then
    .ok ((chunks 8 n (dat.take (n * 8))).map (decodeUint o))
  else .error .eof

/-- The loop `for _, ptr := range ptrs` of `GetObjCClasses`. -/
def classesLoop (f : File) (fuel : Nat) : List Nat → Nat → List Class → Option (Out (List Class))
  | [], cur, classes => some (.ok classes, cur)
  | ptr :: rest, cur, classes =>
    match GetObjCClass f fuel cur (f.convertToVMAddr ptr) with
    | none => none
    | some (.error _, cur1) => some (.error .classAt, cur1)
    | some (.ok c, cur1) => classesLoop f fuel rest cur1 (classes ++ [c])

/-- Method `GetObjCClasses` of `File`; `none` when a class decode does not
return. -/
def GetObjCClasses (f : File) (fuel cur : Nat) : Option (Out (List Class)) :=
  match dataSection f "__objc_classlist" f.Segs with
  | none => some (.error .noSection, cur)
  | some sec =>
    match sec.Data f with
    | .error _ => some (.error .readSection, cur)
    | .ok dat =>
      match readPointers f.ByteOrder dat (sec.Size / 8) with
      | .error _ => some (.error .readPointers, cur)
      | .ok ptrs => classesLoop f fuel ptrs cur []

/-! ## Protocols -/

/-- Sequencing of two steps on the reader: the second runs when the first
returned no error. -/
def Out.andThen {α β : Type} (x : Out α) (k : α → Nat → Out β) : Out β :=
  match x with
  | (.ok a, cur) => k a cur
  | (.error e, cur) => (.error e, cur)

/-- An optional method list of a protocol: decoded only when its address is
non-zero; the error of `GetObjCMethods` is returned as it is. -/
def protocolMethods (f : File) (cur addr : Nat) : Out (List Method) :=
  if addr > 0 then GetObjCMethods f cur (f.convertToVMAddr addr) else (.ok [], cur)

/-- The optional property list of a protocol. -/
def protocolProperties (f : File) (cur addr : Nat) : Out (List Property) :=
  if addr > 0 then GetObjCProperties f cur (f.convertToVMAddr addr) else (.ok [], cur)

/-- An optional string of a protocol, stored as a pointer to a pointer to the
string; `e` is the error of the pointer read. -/
def protocolString (f : File) (e : Err) (cur addr : Nat) : Out String :=
  if addr > 0 then
    match f.GetOffset (f.convertToVMAddr addr) with
    | none => (.error .convertVMAddr, cur)
    | some off =>
      match f.binaryRead uint64Codec (seek cur off) with
      | (.error _, cur1) => (.error e, cur1)
      | (.ok ptr, cur1) =>
        match f.GetCString (f.convertToVMAddr ptr) with
        | none => (.error .cstring, f.GetCStringCursor (f.convertToVMAddr ptr) cur1)
        | some s => (.ok s, f.GetCStringCursor (f.convertToVMAddr ptr) cur1)
  else (.ok "", cur)

/-- Body of the loop of `GetObjCProtocols`: decodes the protocol that the
section pointer `ptr` points to. -/
def protocolEntry (f : File) (cur ptr : Nat) : Out Protocol :=
  match f.GetOffset (f.convertToVMAddr ptr) with
  | none => (.error .convertVMAddr, cur)
  | some off =>
    match f.binaryRead f.objc.protocolCodec (seek cur off) with
    | (.error _, cur1) => (.error .readProtocol, cur1)
    | (.ok protoPtr, cur1) =>
      match f.GetCString (f.convertToVMAddr protoPtr.NameVMAddr) with
      | none =>
        (.error .cstring, f.GetCStringCursor (f.convertToVMAddr protoPtr.NameVMAddr) cur1)
      | some name =>
        (protocolMethods f (f.GetCStringCursor (f.convertToVMAddr protoPtr.NameVMAddr) cur1)
          protoPtr.InstanceMethodsVMAddr).andThen fun im c1 =>
        (protocolMethods f c1 protoPtr.ClassMethodsVMAddr).andThen fun cm c2 =>
        (protocolMethods f c2 protoPtr.OptionalInstanceMethodsVMAddr).andThen fun oim c3 =>
        (protocolMethods f c3 protoPtr.OptionalClassMethodsVMAddr).andThen fun ocm c4 =>
        (protocolProperties f c4 protoPtr.InstancePropertiesVMAddr).andThen fun ip c5 =>
        (protocolString f .readExtendedMethodTypes c5
          protoPtr.ExtendedMethodTypesVMAddr).andThen fun ext c6 =>
        (protocolString f .readDemangledName c6 protoPtr.DemangledNameVMAddr).andThen
          fun dn c7 =>
        (.ok
          { Name := name, InstanceMethods := im, ClassMethods := cm
            OptionalInstanceMethods := oim, OptionalClassMethods := ocm
            InstanceProperties := ip, ExtendedMethodTypes := ext, DemangledName := dn
            ProtocolT := protoPtr },
          c7)

/-- The loop `for _, ptr := range ptrs` of `GetObjCProtocols`. -/
def protocolsLoop (f : File) : List Nat → Nat → List Protocol → Out (List Protocol)
  | [], cur, protocols => (.ok protocols, cur)
  | ptr :: rest, cur, protocols =>
    match protocolEntry f cur ptr with
    | (.error e, cur1) => (.error e, cur1)
    | (.ok proto, cur1) => protocolsLoop f rest cur1 (protocols ++ [proto])

/-- Method `GetObjCProtocols` of `File`. -/
def GetObjCProtocols (f : File) (cur : Nat) : Out (List Protocol) :=
  match dataSection f "__objc_protolist" f.Segs with
  | none => (.error .noSection, cur)
  | some sec =>
    match sec.Data f with
    | .error _ => (.error .readSection, cur)
    | .ok dat =>
      match readPointers f.ByteOrder dat (sec.Size / 8) with
      | .error _ => (.error .readPointers, cur)
      | .ok ptrs => protocolsLoop f ptrs cur []



/-! ## Image survey -/

/-- Modelled from the spec: the constant `types.CPU386`, the CPU kind of the
historical 32-bit layout (declared in package `types`). -/
def CPU386 : Nat := 7

/-- The case folding of Go `strings.EqualFold` as far as it can meet an ASCII
letter: the upper-case ASCII letters, the Kelvin sign (for k) and the long s
(for s) fold to the lower-case ASCII letter. -/
def foldRune (c : Char) : Char :=
  if 65 ≤ c.toNat ∧ c.toNat ≤ 90 then Char.ofNat (c.toNat + 32)
  else if c.toNat = 8490 then Char.ofNat 107
  else if c.toNat = 383 then Char.ofNat 115
  else c

/-- Go `strings.EqualFold`, exact when one of the two strings is ASCII (as in
every call of `objc.go`): equality of the strings up to letter case. -/
def EqualFold (s t : String) : Bool :=
  s.data.map foldRune == t.data.map foldRune

/-- Method `HasObjC` of `File`. -/
def HasObjC (f : File) : Bool :=
  if (dataSection f "__objc_imageinfo" f.Segs).isSome then true
  else if f.CPU = CPU386 then (f.Section "__OBJC" "__image_info").isSome
  else false

/-- The loop over the segments of `HasPlusLoadMethod`. -/
def plusLoadIn (f : File) : List Segment → Bool
  | [] => false
  | s :: rest =>
    if HasPrefix s.Name "__DATA" then
      if (f.Section s.Name "__objc_nlclslist").isSome then true
      else if (f.Section s.Name "__objc_nlcatlist").isSome then true
      else plusLoadIn f rest
    else plusLoadIn f rest

/-- Method `HasPlusLoadMethod` of `File`. -/
def HasPlusLoadMethod (f : File) : Bool :=
  plusLoadIn f f.Segs

/-- The loop `for j := uint32(0); j < s.Nsect; j++` of
`HasObjCMessageReferences`, with `n` iterations left: `some true` when a
section of the range is named `__objc_msgrefs`, `some false` when the range
is exhausted, `none` when `f.FileTOC.Sections[j+s.Firstsect]` is indexed out
of range (the call panics). -/
def msgrefsIn (f : File) (s : Segment) : Nat → Nat → Option Bool
  | 0, _ => some false
  | n + 1, j =>
    match f.Sections[(j + s.Firstsect) % 4294967296]? with
    | none => none
    | some c =>
      if EqualFold "__objc_msgrefs" c.Name then some true else msgrefsIn f s n (j + 1)

/-- The loop over the segments of `HasObjCMessageReferences`. -/
def msgrefsLoop (f : File) : List Segment → Option Bool
  | [] => some false
  | s :: rest =>
    if HasPrefix s.Name "__DATA" then
      match msgrefsIn f s s.Nsect 0 with
      | none => none
      | some true => some true
      | some false => msgrefsLoop f rest
    else msgrefsLoop f rest

/-- Method `HasObjCMessageReferences` of `File`; `none` when the call panics
on an index out of range. -/
def HasObjCMessageReferences (f : File) : Option Bool :=
  msgrefsLoop f f.Segs

/-- The counts of `GetObjCInfo`: `objc.Info`. -/
structure Info where
  SelRefCount : Nat
  ClassDefCount : Nat
  ProtocolDefCount : Nat
deriving DecidableEq, Repr

/-- Body of the loop of `GetObjCInfo`; the counts are Go `uint64`.
`f.pointerSize` is 4 or 8. -/
def infoStep (f : File) (oInfo : Info) (sec : Section) : Info :=
  if HasPrefix sec.Seg "__DATA" then
    if EqualFold sec.Name "__objc_selrefs" then
      { oInfo with
        SelRefCount := (oInfo.SelRefCount + sec.Size / f.pointerSize) % 18446744073709551616 }
    else if EqualFold sec.Name "__objc_classlist" then
      { oInfo with
        ClassDefCount :=
          (oInfo.ClassDefCount + sec.Size / f.pointerSize) % 18446744073709551616 }
    else if EqualFold sec.Name "__objc_protolist" then
      { oInfo with
        ProtocolDefCount :=
          (oInfo.ProtocolDefCount + sec.Size / f.pointerSize) % 18446744073709551616 }
    else oInfo
  else if f.CPU = CPU386 ∧ EqualFold sec.Name "__OBJC" = true then
    if EqualFold sec.Name "__message_refs" then
      { oInfo with SelRefCount := (oInfo.SelRefCount + sec.Size / 4) % 18446744073709551616 }
    else if EqualFold sec.Name "__class" then
      { oInfo with
        ClassDefCount := (oInfo.ClassDefCount + sec.Size / 48) % 18446744073709551616 }
    else if EqualFold sec.Name "__protocol" then
      { oInfo with
        ProtocolDefCount := (oInfo.ProtocolDefCount + sec.Size / 20) % 18446744073709551616 }
    else oInfo
  else oInfo

/-- Method `GetObjCInfo` of `File`. -/
def GetObjCInfo (f : File) : Info :=
  f.Sections.foldl (infoStep f) { SelRefCount := 0, ClassDefCount := 0, ProtocolDefCount := 0 }

/-! ## Go maps -/

/-- Assignment `m[k] = v` of a Go map, kept as a list of entries with distinct
keys: an entry with key `k` is replaced, otherwise the entry is added. -/
def mapSet {κ ν : Type} [DecidableEq κ] : List (κ × ν) → κ → ν → List (κ × ν)
  | [], k, v => [(k, v)]
  | (k1, v1) :: rest, k, v =>
    if k1 = k then (k, v) :: rest else (k1, v1) :: mapSet rest k v

/-- Lookup `m[k]` of a Go map. -/
def mapGet {κ ν : Type} [DecidableEq κ] : List (κ × ν) → κ → Option ν
  | [], _ => none
  | (k1, v1) :: rest, k => if k1 = k then some v1 else mapGet rest k

/-! ## Selector references -/

/-- The loop `for _, sel := range selPtrs` of `GetObjCSelectorReferences`. -/
def selRefsLoop (f : File) : List Nat → Nat → List (Nat × String) → Out (List (Nat × String))
  | [], cur, selRefs => (.ok selRefs, cur)
  | sel :: rest, cur, selRefs =>
    match f.GetCString (f.convertToVMAddr sel) with
    | none => (.error .cstring, f.GetCStringCursor (f.convertToVMAddr sel) cur)
    | some selName =>
      selRefsLoop f rest (f.GetCStringCursor (f.convertToVMAddr sel) cur)
        (mapSet selRefs (f.convertToVMAddr sel) selName)

/-- Method `GetObjCSelectorReferences` of `File`. -/
def GetObjCSelectorReferences (f : File) (cur : Nat) : Out (List (Nat × String)) :=
  match dataSection f "__objc_selrefs" f.Segs with
  | none => (.error .noSection, cur)
  | some sec =>
    match sec.Data f with
    | .error _ => (.error .readSection, cur)
    | .ok dat =>
      match readPointers f.ByteOrder dat (sec.Size / 8) with
      | .error _ => (.error .readPointers, cur)
      | .ok selPtrs => selRefsLoop f selPtrs cur []

/-! ## The method-name pool -/

/-- Modelled from the spec: `f.sr.ReadAt(p, off)` with `len(p) = size`, a full
read at an absolute offset that leaves the cursor alone; a negative offset or
a store that is too short is an error. -/
def File.readAt (f : File) (size : Nat) (off : Int) : Except Err (List Nat) :=
  if off < 0 then .error .eof
  else if ((f.sr.drop off.toNat).take size).length = size then
    .ok ((f.sr.drop off.toNat).take size)
  else .error .eof

/-- Go `(*bytes.Buffer).ReadString` with delimiter NUL: the bytes up to and
including the first NUL together with the unread rest, or `none` at end of
buffer (`io.EOF`). -/
def readString : List Nat → Option (List Nat × List Nat)
  | [] => none
  | b :: bs =>
    if b = 0 then some ([0], bs)
    else
      match readString bs with
      | none => none
      | some (s, r) => some (b :: s, r)

/-- Go `strings.Trim(s, "\x00")`: `s` without its leading and trailing NUL
bytes. -/
def trimNul (s : List Nat) : List Nat :=
  (((s.dropWhile (fun b => b = 0)).reverse).dropWhile (fun b => b = 0)).reverse

/-- The loop `for` of `GetObjCMethodNames` over the unread buffer `r`, bounded
by `fuel` iterations; `none` when the fuel runs out. -/
def methodNamesLoop (sec : Section) :
    Nat → List Nat → List (List Nat × Nat) → Option (List (List Nat × Nat))
  | 0, _, _ => none
  | fuel + 1, r, meth2vmaddr =>
    match readString r with
    | none => some meth2vmaddr
    | some (s, r1) =>
      methodNamesLoop sec fuel r1
        (mapSet meth2vmaddr (trimNul s)
          ((sec.Addr + (sec.Size - (r1.length + s.length))) % 18446744073709551616))

/-- Method `GetObjCMethodNames` of `File`; keys are the byte strings of the
names.  Every iteration of the loop consumes a byte of the pool, so the fuel
`sec.Size + 1` is enough (see `methodNamesLoop_spec`). -/
def GetObjCMethodNames (f : File) : Option (Except Err (List (List Nat × Nat))) :=
  match f.Section "__TEXT" "__objc_methname" with
  | none => some (.error .noSection)
  | some sec =>
    match f.GetOffset sec.Addr with
    | none => some (.error .convertVMAddr)
    | some off =>
      match f.readAt sec.Size off with
      | .error e => some (.error e)
      | .ok stringPool =>
        (methodNamesLoop sec (sec.Size + 1) stringPool []).map (fun m => .ok m)

/-! ## The method-list section -/

/-- Modelled from the spec: `types.RoundUp(x, align)`, the least multiple of
`align` that is not below `x`. -/
def RoundUp (x align : Nat) : Nat :=
  (x + align - 1) / align * align

/-- Modelled from the spec: a full read of `size` bytes from the section
reader `mlr := io.NewSectionReader(f.sr, sec.Offset, sec.Size)` at its
position `q`: `io.EOF` when no byte is left there, `io.ErrUnexpectedEOF` when
fewer than `size` are left; the position moves over the bytes read. -/
def mlrRead (f : File) (sec : Section) (size q : Nat) : Out (List Nat) :=
  if ((((f.sr.drop sec.Offset).take sec.Size).drop q).take size).length = size then
    (.ok ((((f.sr.drop sec.Offset).take sec.Size).drop q).take size), q + size)
  else if ((((f.sr.drop sec.Offset).take sec.Size).drop q).take size).length = 0 then
    (.error .eof, q)
  else
    (.error .unexpectedEOF,
      q + ((((f.sr.drop sec.Offset).take sec.Size).drop q).take size).length)

/-- The loop `for` of `GetObjCMethodList`, bounded by `fuel` iterations (`none`
when the fuel runs out): `q` is the position of `mlr`, `cur` the cursor of
`f.sr`. -/
def methListLoop (f : File) (sec : Section) :
    Nat → Nat → Nat → List Method → Option (Out (List Method))
  | 0, _, _, _ => none
  | fuel + 1, q, cur, objcMethods =>
    match mlrRead f sec 8 q with
    | (.error .eof, _) => some (.ok objcMethods, cur)
    | (.error _, _) => some (.error .readMethodList, cur)
    | (.ok hdr, q1) =>
      match mlrRead f sec ((methodListCodec.decode f.ByteOrder hdr).Count * 12) q1 with
      | (.error _, _) => some (.error .readMethodSmall, cur)
      | (.ok bs, q2) =>
        match smallLoop f (methodListCodec.decode f.ByteOrder hdr)
            ((chunks 12 (methodListCodec.decode f.ByteOrder hdr).Count bs).map
              (methodSmallCodec.decode f.ByteOrder))
            (toInt64 ((q1 : Int) + (sec.Offset : Int))) cur objcMethods with
        | (.error e, cur1) => some (.error e, cur1)
        | (.ok ms, cur1) => methListLoop f sec fuel (RoundUp q2 8) cur1 ms

/-- Method `GetObjCMethodList` of `File`, with `fuel` iterations of its loop;
`none` when the fuel runs out. -/
def GetObjCMethodList (f : File) (fuel cur : Nat) : Option (Out (List Method)) :=
  match f.Section "__TEXT" "__objc_methlist" with
  | none => some (.error .noSection, cur)
  | some sec => methListLoop f sec fuel 0 cur []

/-! ## Positions and on-disk entries -/

/-- Value of `currOffset` in `readSmallMethods` when the loop reaches entry
`k`, for a loop that starts at `c`. -/
def currOffsetAt (f : File) (ml : MethodList) : Int → Nat → Int
  | c, 0 => c
  | c, k + 1 => currOffsetAt f ml (toInt64 (c + f.objc.EntSize ml)) k

/-- The 32-bit value stored at file position `p`. -/
def u32At (f : File) (p : Nat) : Nat :=
  decodeUint f.ByteOrder ((f.sr.drop p).take 4)

/-- The `n` small entries stored in the `n * 12` bytes that start at file
position `p`, in file order. -/
def smallEntriesAt (f : File) (p n : Nat) : List MethodSmallT :=
  (chunks 12 n ((f.sr.drop p).take (n * 12))).map (methodSmallCodec.decode f.ByteOrder)

/-- The `n` big entries stored in the `n * 24` bytes that start at file
position `p`, in file order. -/
def bigEntriesAt (f : File) (p n : Nat) : List MethodT :=
  (chunks 24 n ((f.sr.drop p).take (n * 24))).map (methodBigCodec.decode f.ByteOrder)

/-- The reading of a small list that the specification describes, for a list
of `n` entries whose header is at file offset `h` and that decodes to `ms`:
entry `i` occupies the 12-byte slot at `h + 8 + 12 * i`; its name pointer is
read at the slot position plus `NameOffset`, its type string is at the virtual
address of the position of the second field plus `TypesOffset`, its
implementation at the virtual address of the position of the third field plus
`ImpOffset`, the three offsets being signed 32-bit values. -/
def SmallSlots (f : File) (h n : Nat) (ms : List Method) : Prop :=
  ∀ (i : Nat) (e : MethodSmallT), (smallEntriesAt f (h + 8) n)[i]? = some e →
    ((-2147483648 ≤ e.NameOffset ∧ e.NameOffset < 2147483648) ∧
      (-2147483648 ≤ e.TypesOffset ∧ e.TypesOffset < 2147483648) ∧
      (-2147483648 ≤ e.ImpOffset ∧ e.ImpOffset < 2147483648)) ∧
    ∃ r, ms[i]? = some r ∧
      (0 ≤ (h : Int) + 8 + 12 * i + e.NameOffset →
        (h : Int) + 8 + 12 * i + e.NameOffset < 9223372036854775808 →
        r.NameVMAddr = u32At f ((h : Int) + 8 + 12 * i + e.NameOffset).toNat) ∧
      f.GetCString r.NameVMAddr = some r.Name ∧
      f.GetVMAddress (toUint64 ((h : Int) + 8 + 12 * i + 4 + e.TypesOffset)) =
        some r.TypesVMAddr ∧
      f.GetCString r.TypesVMAddr = some r.Types ∧
      f.GetVMAddress (toUint64 ((h : Int) + 8 + 12 * i + 8 + e.ImpOffset)) =
        some r.ImpVMAddr

/-- A small list (header at file offset `hS`, entry size `E`) and a big list
(header at file offset `hB`), both of `n` entries, denote the same triples in
the same order: for every `i`, the name pointer of small entry `i` leads to
the string of the converted name pointer of big entry `i`, the type position
of small entry `i` leads to the string of the converted type pointer of big
entry `i`, and the implementation position of small entry `i` has the
converted implementation pointer of big entry `i` as its virtual address. -/
def SameTriples (f : File) (hS E hB n : Nat) : Prop :=
  ∀ (i : Nat) (s : MethodSmallT) (b : MethodT),
    (smallEntriesAt f (hS + 8) n)[i]? = some s → (bigEntriesAt f (hB + 8) n)[i]? = some b →
      0 ≤ (hS : Int) + 8 + E * i + s.NameOffset ∧
      (hS : Int) + 8 + E * i + s.NameOffset < 9223372036854775808 ∧
      f.GetCString (u32At f ((hS : Int) + 8 + E * i + s.NameOffset).toNat) =
        f.GetCString (f.convertToVMAddr b.NameVMAddr) ∧
      (f.GetVMAddress (toUint64 ((hS : Int) + 8 + E * i + 4 + s.TypesOffset))).bind
          f.GetCString =
        f.GetCString (f.convertToVMAddr b.TypesVMAddr) ∧
      f.GetVMAddress (toUint64 ((hS : Int) + 8 + E * i + 8 + s.ImpOffset)) =
        some (f.convertToVMAddr b.ImpVMAddr)

/-- Two decoded method lists are pairwise equal in `Name`, `Types` and
`ImpVMAddr`. -/
def SameMethods (msS msB : List Method) : Prop :=
  msS.length = msB.length ∧
    ∀ (i : Nat) (s b : Method), msS[i]? = some s → msB[i]? = some b →
      s.Name = b.Name ∧ s.Types = b.Types ∧ s.ImpVMAddr = b.ImpVMAddr

/-- The classes `cs` are the decodes of the pointers `ptrs`, one by one and in
order: the reader starts at `cur`, each `GetObjCClass` call starts where the
previous one left the reader, and the last one leaves it at `cur1`. -/
def ClassesDecode (f : File) (fuel : Nat) : Nat → List Nat → List Class → Nat → Prop
  | cur, [], [], cur1 => cur1 = cur
  | cur, ptr :: ptrs, c :: cs, cur1 =>
    ∃ cur2, GetObjCClass f fuel cur (f.convertToVMAddr ptr) = some (.ok c, cur2) ∧
      ClassesDecode f fuel cur2 ptrs cs cur1
  | _, _, _, _ => False


/-- One of the reads and translations of the small entry `m` whose slot is at
`c` fails: the name pointer that stands where the code seeks to names no
readable string, or the address of the type string (the virtual address of
position `c + 4 + TypesOffset`) cannot be translated, or the type string at
that address cannot be read, or the address of the implementation (the
virtual address of position `c + 8 + ImpOffset`) cannot be translated. -/
def smallEntryFails (f : File) (c : Int) (m : MethodSmallT) : Prop :=
  (∀ cur, f.GetCString (u32At f (seek cur (toInt64 (m.NameOffset + c)))) = none) ∨
  f.GetVMAddress (toUint64 (c + 4 + m.TypesOffset)) = none ∨
  (∃ t, f.GetVMAddress (toUint64 (c + 4 + m.TypesOffset)) = some t ∧ f.GetCString t = none) ∨
  f.GetVMAddress (toUint64 (c + 8 + m.ImpOffset)) = none

/-- One of the reads and translations of the big entry `m` fails: the name
string or the type string cannot be read, or the implementation address cannot
be translated to a file offset. -/
def bigEntryFails (f : File) (m : MethodT) : Prop :=
  f.GetCString (f.convertToVMAddr m.NameVMAddr) = none ∨
  f.GetCString (f.convertToVMAddr m.TypesVMAddr) = none ∨
  f.GetOffset (f.convertToVMAddr m.ImpVMAddr) = none

/-! ## Sections counted by the survey -/

/-- The test of `GetObjCInfo` for a section counted under `name`: its segment
name starts with `__DATA` and its own name equals `name` up to letter case. -/
def isDataSection (name : String) (sec : Section) : Bool :=
  HasPrefix sec.Seg "__DATA" && EqualFold sec.Name name

/-- The sections of the table that `GetObjCInfo` counts under `name`. -/
def dataSections (f : File) (name : String) : List Section :=
  f.Sections.filter (isDataSection name)

/-- What a section adds to the count kept under `name`: its entry count
`Size / f.pointerSize` when it is counted under `name`. -/
def dataEntries (f : File) (name : String) (sec : Section) : Nat :=
  if isDataSection name sec then sec.Size / f.pointerSize else 0

/-- The 64-bit value stored at file position `p`. -/
def u64At (f : File) (p : Nat) : Nat :=
  decodeUint f.ByteOrder ((f.sr.drop p).take 8)

/-- The reading of `Pointer.Offset` that the specification describes: the
method decoded from entry `i` of a list whose header is at file offset `h` has
as `Pointer.Offset` the file offset `h + 8 + stride * i + field` of the slot
that stores its implementation pointer. -/
def SlotOffsets (h stride field : Nat) (ms : List Method) : Prop :=
  ∀ (i : Nat) (m : Method), ms[i]? = some m →
    m.Pointer.Offset = ((h + 8 + stride * i + field : Nat) : Int)

/-- The superclass chain from the class at `vmaddr` (decoded with the reader at
`cur`) has `n` links: the class and its `n` ancestors decode, each has a
non-empty name, and the last one has superclass address 0. -/
def SuperChain (f : File) : Nat → Nat → Nat → Prop
  | 0, cur, vmaddr =>
    ∃ p cur1, classParts f cur vmaddr = (.ok p, cur1) ∧ p.name ≠ "" ∧
      p.classPtr.SuperclassVMAddr = 0
  | n + 1, cur, vmaddr =>
    ∃ p cur1, classParts f cur vmaddr = (.ok p, cur1) ∧ p.name ≠ "" ∧
      p.classPtr.SuperclassVMAddr > 0 ∧
      SuperChain f n cur1 (f.convertToVMAddr p.classPtr.SuperclassVMAddr)

/-- The NUL-terminated strings of a byte string, in order, `acc` being the
bytes (last first) of the string under way; bytes after the last NUL give no
string. -/
def splitNul : List Nat → List Nat → List (List Nat)
  | [], _ => []
  | b :: bs, acc => if b = 0 then acc.reverse :: splitNul bs [] else splitNul bs (b :: acc)

/-- The NUL-terminated strings of a string pool. -/
def poolStrings (pool : List Nat) : List (List Nat) :=
  splitNul pool []

/-- Every entry of the map `m` is a string of the pool with the address of an
occurrence: the value is `sec.Addr + o` (as a `uint64`) for an offset `o` of
the pool at which the key stands, followed by a NUL byte. -/
def PoolEntries (sec : Section) (pool : List Nat) (m : List (List Nat × Nat)) : Prop :=
  ∀ k v, mapGet m k = some v →
    ∃ o, o < pool.length ∧ v = (sec.Addr + o) % 18446744073709551616 ∧
      (pool.drop o).take (k.length + 1) = k ++ [0]

/-- The bytes of a section: what a section reader over it can read. -/
def secBytes (f : File) (sec : Section) : List Nat :=
  (f.sr.drop sec.Offset).take sec.Size

/-- The method-list header that stands at position `p` of a section. -/
def hdrAt (f : File) (sec : Section) (p : Nat) : MethodList :=
  methodListCodec.decode f.ByteOrder (((secBytes f sec).drop p).take 8)

/-- The 12-byte entries that follow the header at position `p` of a section,
as many as the header counts. -/
def entriesAtSec (f : File) (sec : Section) (p : Nat) : List MethodSmallT :=
  (chunks 12 (hdrAt f sec p).Count
    (((secBytes f sec).drop (p + 8)).take ((hdrAt f sec p).Count * 12))).map
    (methodSmallCodec.decode f.ByteOrder)

/-- A section read as a contiguous stream of small method lists from position
`q` on, with the reader of the image at `cur`: each item of the stream is the
position `p` of a list header together with the methods of that list.  The
header and the entries it counts lie in the section, the entries decode (as
in `readSmallMethods`, relative to the file position behind the header) to
the methods, and the next list starts at `RoundUp (p + 8 + 12 * n) 8`; the
stream ends where no bytes remain.  `cur1` is where the reader is left. -/
def MethListStream (f : File) (sec : Section) :
    Nat → Nat → List (Nat × List Method) → Nat → Prop
  | q, cur, [], cur1 => cur1 = cur ∧ (secBytes f sec).length ≤ q
  | q, cur, (p, ms) :: rest, cur1 =>
    p = q ∧ p + 8 + 12 * (hdrAt f sec p).Count ≤ (secBytes f sec).length ∧
    ∃ cur2, smallLoop f (hdrAt f sec p) (entriesAtSec f sec p)
        (toInt64 (((p + 8 : Nat) : Int) + (sec.Offset : Int))) cur [] = (.ok ms, cur2) ∧
      MethListStream f sec (RoundUp (p + 8 + 12 * (hdrAt f sec p).Count) 8) cur2 rest cur1


/-! ## An example image

A small 64-bit image used to instantiate the theorems.  Virtual addresses are
file offsets plus 4096. -/

/-- The `k` little-endian bytes of `n`. -/
def leBytes : Nat → Nat → List Nat
  | 0, _ => []
  | k + 1, n => n % 256 :: leBytes k (n / 256)

/-- The bytes of the NUL-terminated string that starts a byte string. -/
def cstringAt : List Nat → Option (List Nat)
  | [] => none
  | b :: bs => if b = 0 then some [] else (cstringAt bs).map (fun r => b :: r)

/-- The 64-bit record layouts of the Objective-C runtime: a 72-byte class
record, a 72-byte read-only data record, 8-byte list headers, 32-byte ivar
entries, 16-byte property entries and a 96-byte protocol record.  A method
list is small when bit 31 of its first header field is set; its entry size is
that field without the flag bits (mask `0xffff0003`). -/
def objc64 : ObjcTypes :=
  { classCodec :=
      { size := 72
        decode := fun o bs =>
          { IsaVMAddr := decodeUint o (bs.take 8)
            SuperclassVMAddr := decodeUint o ((bs.drop 8).take 8)
            MethodCacheBuckets := decodeUint o ((bs.drop 16).take 8)
            MethodCacheProperties := decodeUint o ((bs.drop 24).take 8)
            DataVMAddrAndFastFlags := decodeUint o ((bs.drop 32).take 8) } }
    classROCodec :=
      { size := 72
        decode := fun o bs =>
          { NameVMAddr := decodeUint o ((bs.drop 24).take 8)
            BaseMethodsVMAddr := decodeUint o ((bs.drop 32).take 8)
            IvarsVMAddr := decodeUint o ((bs.drop 48).take 8) } }
    ivarListCodec :=
      { size := 8
        decode := fun o bs =>
          { EntSize := decodeUint o (bs.take 4), Count := decodeUint o ((bs.drop 4).take 4) } }
    ivarCodec :=
      { size := 32
        decode := fun o bs =>
          { Offset := decodeUint o (bs.take 8)
            NameVMAddr := decodeUint o ((bs.drop 8).take 8)
            TypesVMAddr := decodeUint o ((bs.drop 16).take 8)
            Alignment := decodeUint o ((bs.drop 24).take 4)
            Size := decodeUint o ((bs.drop 28).take 4) } }
    propertyListCodec :=
      { size := 8
        decode := fun o bs =>
          { EntSize := decodeUint o (bs.take 4), Count := decodeUint o ((bs.drop 4).take 4) } }
    propertyCodec :=
      { size := 16
        decode := fun o bs =>
          { NameVMAddr := decodeUint o (bs.take 8)
            AttributesVMAddr := decodeUint o ((bs.drop 8).take 8) } }
    protocolCodec :=
      { size := 96
        decode := fun o bs =>
          { NameVMAddr := decodeUint o ((bs.drop 8).take 8)
            InstanceMethodsVMAddr := decodeUint o ((bs.drop 24).take 8)
            ClassMethodsVMAddr := decodeUint o ((bs.drop 32).take 8)
            OptionalInstanceMethodsVMAddr := decodeUint o ((bs.drop 40).take 8)
            OptionalClassMethodsVMAddr := decodeUint o ((bs.drop 48).take 8)
            InstancePropertiesVMAddr := decodeUint o ((bs.drop 56).take 8)
            ExtendedMethodTypesVMAddr := decodeUint o ((bs.drop 72).take 8)
            DemangledNameVMAddr := decodeUint o ((bs.drop 80).take 8) } }
    IsSmall := fun ml => ml.EntSizeAndFlags / 2147483648 % 2 == 1
    EntSize := fun ml => ml.EntSizeAndFlags % 65536 / 4 * 4 }

/-- The bytes of the example image; each piece is preceded by its file
offset. -/
def exStore : List Nat :=
  List.flatten [
    -- 0: unused
    List.replicate 8 0,
    -- 8: the string Foo
    [70, 111, 111, 0],
    -- 12: the string bar
    [98, 97, 114, 0],
    -- 16: the string v@:
    [118, 64, 58, 0],
    -- 20: the string baz
    [98, 97, 122, 0],
    -- 24: the string _x
    [95, 120, 0],
    -- 27: the string i
    [105, 0],
    -- 29: the string P
    [80, 0],
    -- 31: the string Bar
    [66, 97, 114, 0],
    -- 35: padding
    List.replicate 5 0,
    -- 40: selector slot 0: address of bar
    leBytes 8 4108,
    -- 48: selector slot 1: address of baz
    leBytes 8 4116,
    -- 56: small list: header, entry size 12, small flag, count 2
    leBytes 4 2147483660 ++ leBytes 4 2,
    -- 64: small list: entry 0 at 64, offsets -24, -52, 664
    leBytes 4 4294967272 ++ leBytes 4 4294967244 ++ leBytes 4 664,
    -- 76: small list: entry 1 at 76, offsets -28, -64, 656
    leBytes 4 4294967268 ++ leBytes 4 4294967232 ++ leBytes 4 656,
    -- 88: small list with entry size 16: header, entry size 16, small flag, count 2
    leBytes 4 2147483664 ++ leBytes 4 2,
    -- 96: small list with entry size 16: entry 0 at 96, offsets -56, -84, 632
    leBytes 4 4294967240 ++ leBytes 4 4294967212 ++ leBytes 4 632,
    -- 108: small list with entry size 16: entry 1 at 108, offsets -64, -100, 620
    leBytes 4 4294967232 ++ leBytes 4 4294967196 ++ leBytes 4 620,
    -- 120: big list: header, entry size 24, count 2
    leBytes 4 24 ++ leBytes 4 2,
    -- 128: big list: entry 0
    leBytes 8 4108 ++ leBytes 8 4112 ++ leBytes 8 4832,
    -- 152: big list: entry 1
    leBytes 8 4116 ++ leBytes 8 4112 ++ leBytes 8 4836,
    -- 176: empty list: header, entry size 24, count 0
    leBytes 4 24 ++ leBytes 4 0,
    -- 184: small list with a dangling types offset: header, entry size 12, small flag, count 2
    leBytes 4 2147483660 ++ leBytes 4 2,
    -- 192: small list with a dangling types offset: entry 0 at 192, offsets -152, -180, 536
    leBytes 4 4294967144 ++ leBytes 4 4294967116 ++ leBytes 4 536,
    -- 204: small list with a dangling types offset: entry 1 at 204, offsets -156, 100000, 528
    leBytes 4 4294967140 ++ leBytes 4 100000 ++ leBytes 4 528,
    -- 216: big list of image-relative pointers: header, entry size 24, count 2
    leBytes 4 24 ++ leBytes 4 2,
    -- 224: big list of image-relative pointers: entry 0
    leBytes 8 12 ++ leBytes 8 16 ++ leBytes 8 736,
    -- 248: big list of image-relative pointers: entry 1
    leBytes 8 20 ++ leBytes 8 16 ++ leBytes 8 740,
    -- 272: ivar list: header, entry size 32, count 1
    leBytes 4 32 ++ leBytes 4 1,
    -- 280: ivar list: entry 0, name _x, type i, alignment 2, size 4
    leBytes 8 0 ++ leBytes 8 4120 ++ leBytes 8 4123 ++ leBytes 4 2 ++ leBytes 4 4,
    -- 312: read-only data of Foo
    leBytes 4 0 ++ leBytes 4 8 ++ leBytes 4 12 ++ leBytes 4 0 ++ leBytes 8 0 ++
      leBytes 8 4104 ++ leBytes 8 4152 ++ leBytes 8 0 ++ leBytes 8 4368 ++ leBytes 8 0 ++
      leBytes 8 0,
    -- 384: read-only data of Bar
    leBytes 4 0 ++ leBytes 4 8 ++ leBytes 4 12 ++ leBytes 4 0 ++ leBytes 8 0 ++
      leBytes 8 4127 ++ leBytes 8 0 ++ leBytes 8 0 ++ leBytes 8 0 ++ leBytes 8 0 ++
      leBytes 8 0,
    -- 456: class record of Foo: superclass 36864 (not mapped), data word without flags
    leBytes 8 0 ++ leBytes 8 36864 ++ leBytes 8 0 ++ leBytes 8 0 ++ leBytes 8 4408 ++
      List.replicate 32 0,
    -- 528: class record of Bar: no superclass, data word with bit 1 set
    leBytes 8 0 ++ leBytes 8 0 ++ leBytes 8 0 ++ leBytes 8 0 ++ leBytes 8 4482 ++
      List.replicate 32 0,
    -- 600: protocol record of P: name P, every other address 0
    leBytes 8 0 ++ leBytes 8 4125 ++ leBytes 8 0 ++ leBytes 8 0 ++ leBytes 8 0 ++
      leBytes 8 0 ++ leBytes 8 0 ++ leBytes 8 0 ++ leBytes 4 96 ++ leBytes 4 0 ++ leBytes 8 0 ++
      leBytes 8 0 ++ leBytes 8 0,
    -- 696: section __objc_classlist: Foo, Bar and 4 trailing bytes
    leBytes 8 4552 ++ leBytes 8 4624 ++ List.replicate 4 0,
    -- 716: padding
    List.replicate 4 0,
    -- 720: section __objc_protolist: P
    leBytes 8 4696,
    -- 728: padding
    List.replicate 8 0,
    -- 736: section __text
    List.replicate 8 0 ]

/-- The section `__objc_classlist` of the example image: two pointers and 4
trailing bytes. -/
def exClasslist : Section :=
  { Name := "__objc_classlist", Seg := "__DATA_CONST", Addr := 4792, Size := 20, Offset := 696 }

/-- The example image: addresses are file offsets plus 4096, stored pointers
are absolute, strings are read from the store, and `GetCString` leaves the
cursor behind the string it read. -/
def exImage : File :=
  { CPU := 16777228
    ByteOrder := .LittleEndian
    Segs :=
      [ { Name := "__TEXT", Firstsect := 0, Nsect := 1 },
        { Name := "__DATA_CONST", Firstsect := 1, Nsect := 2 },
        { Name := "__DATA", Firstsect := 3, Nsect := 1 } ]
    Sections :=
      [ { Name := "__text", Seg := "__TEXT", Addr := 4832, Size := 8, Offset := 736 },
        exClasslist,
        { Name := "__objc_protolist", Seg := "__DATA_CONST", Addr := 4816, Size := 8,
          Offset := 720 },
        { Name := "__objc_selrefs", Seg := "__DATA", Addr := 4136, Size := 16, Offset := 40 } ]
    sr := exStore
    pointerSize := 8
    GetOffset := fun a => if 4096 ≤ a ∧ a < 4096 + 744 then some ((a - 4096 : Nat) : Int) else none
    GetVMAddress := fun o => if o < 744 then some (o + 4096) else none
    convertToVMAddr := fun a => a
    GetCString := fun a =>
      if 4096 ≤ a then
        (cstringAt (exStore.drop (a - 4096))).map (fun bs => String.mk (bs.map Char.ofNat))
      else none
    GetCStringCursor := fun a c =>
      if 4096 ≤ a then
        match cstringAt (exStore.drop (a - 4096)) with
        | some bs => a - 4096 + bs.length + 1
        | none => c
      else c
    objc := objc64 }

/-- The example image read with image-relative stored pointers: the
conversion to an absolute address adds the base 4096. -/
def slidImage : File :=
  { exImage with convertToVMAddr := fun a => a + 4096 }

/-- The methods of the small list at file offset 56 of the example image. -/
def exMethods : List Method :=
  [ { NameVMAddr := 4108, TypesVMAddr := 4112, ImpVMAddr := 4832, Name := "bar", Types := "v@:"
      Pointer := { VMAdder := 4832, Offset := 664 } },
    { NameVMAddr := 4116, TypesVMAddr := 4112, ImpVMAddr := 4836, Name := "baz", Types := "v@:"
      Pointer := { VMAdder := 4836, Offset := 656 } } ]

/-- The methods of the small list at file offset 88 of the example image,
whose header gives entry size 16. -/
def exMethods16 : List Method :=
  [ { NameVMAddr := 4108, TypesVMAddr := 4112, ImpVMAddr := 4832, Name := "bar", Types := "v@:"
      Pointer := { VMAdder := 4832, Offset := 632 } },
    { NameVMAddr := 4116, TypesVMAddr := 4112, ImpVMAddr := 4836, Name := "baz", Types := "v@:"
      Pointer := { VMAdder := 4836, Offset := 620 } } ]

/-- The methods of the big list at file offset 216 of the example image, read
with image-relative pointers. -/
def relMethods : List Method :=
  [ { NameVMAddr := 12, TypesVMAddr := 16, ImpVMAddr := 736, Name := "bar", Types := "v@:"
      Pointer := { VMAdder := 736, Offset := 736 } },
    { NameVMAddr := 20, TypesVMAddr := 16, ImpVMAddr := 740, Name := "baz", Types := "v@:"
      Pointer := { VMAdder := 740, Offset := 740 } } ]

/-- What `GetObjCClass` decodes of the class Foo of the example image (class
record at file offset 456) before it turns to the superclass. -/
def exFooParts : ClassParts :=
  { off := 456
    classPtr :=
      { IsaVMAddr := 0, SuperclassVMAddr := 36864, MethodCacheBuckets := 0
        MethodCacheProperties := 0, DataVMAddrAndFastFlags := 4408 }
    info := { NameVMAddr := 4104, BaseMethodsVMAddr := 4152, IvarsVMAddr := 4368 }
    name := "Foo"
    methods := exMethods
    ivars :=
      [ { Name := "_x", TypeEnc := "i"
          IvarT :=
            { Offset := 0, NameVMAddr := 4120, TypesVMAddr := 4123, Alignment := 2, Size := 4 } } ] }

/-- What `GetObjCClass` decodes of the class Bar of the example image (class
record at file offset 528), whose data-and-flags word 4482 has bit 1 set. -/
def exBarParts : ClassParts :=
  { off := 528
    classPtr :=
      { IsaVMAddr := 0, SuperclassVMAddr := 0, MethodCacheBuckets := 0
        MethodCacheProperties := 0, DataVMAddrAndFastFlags := 4482 }
    info := { NameVMAddr := 4127, BaseMethodsVMAddr := 0, IvarsVMAddr := 0 }
    name := "Bar"
    methods := []
    ivars := [] }

/-- The protocol P of the example image (protocol record at file offset
600): only its name address is non-zero. -/
def exProtocol : Protocol :=
  { Name := "P", InstanceMethods := [], ClassMethods := [], OptionalInstanceMethods := []
    OptionalClassMethods := [], InstanceProperties := [], ExtendedMethodTypes := ""
    DemangledName := ""
    ProtocolT :=
      { NameVMAddr := 4125, InstanceMethodsVMAddr := 0, ClassMethodsVMAddr := 0
        OptionalInstanceMethodsVMAddr := 0, OptionalClassMethodsVMAddr := 0
        InstancePropertiesVMAddr := 0, ExtendedMethodTypesVMAddr := 0
        DemangledNameVMAddr := 0 } }


/-! ## Example images for the survey -/

/-- An image of the historical 32-bit layout: CPU 386, one segment `__OBJC`
with a `__class` section of 96 bytes, a `__protocol` section of 40 bytes and
a `__message_refs` section of 12 bytes. -/
def legacyImage : File :=
  { exImage with
    CPU := CPU386
    pointerSize := 4
    Segs := [ { Name := "__OBJC", Firstsect := 0, Nsect := 3 } ]
    Sections :=
      [ { Name := "__class", Seg := "__OBJC", Addr := 4096, Size := 96, Offset := 0 },
        { Name := "__protocol", Seg := "__OBJC", Addr := 4192, Size := 40, Offset := 96 },
        { Name := "__message_refs", Seg := "__OBJC", Addr := 4232, Size := 12, Offset := 136 } ] }

/-- An image whose segment `__DATA` names the section range 0, 1 (two
sections) while the section table holds one section. -/
def rangeImage : File :=
  { exImage with
    Segs := [ { Name := "__DATA", Firstsect := 0, Nsect := 2 } ]
    Sections :=
      [ { Name := "__objc_imageinfo", Seg := "__DATA", Addr := 4096, Size := 8, Offset := 0 } ] }

/-- The bytes of an image whose selector-reference section holds the same
pointer twice: the string bar at file offset 0, then two slots with its
address 4096. -/
def dupSelStore : List Nat :=
  List.flatten [
    -- 0: the string bar
    [98, 97, 114, 0],
    -- 4: padding
    List.replicate 4 0,
    -- 8: section __objc_selrefs, slot 0: address of bar
    leBytes 8 4096,
    -- 16: section __objc_selrefs, slot 1: address of bar
    leBytes 8 4096 ]

/-- The section `__objc_selrefs` of `dupSelImage`: 16 bytes, two slots. -/
def dupSelrefs : Section :=
  { Name := "__objc_selrefs", Seg := "__DATA", Addr := 4104, Size := 16, Offset := 8 }

/-- An image whose two selector references are the same pointer. -/
def dupSelImage : File :=
  { exImage with
    Segs := [ { Name := "__DATA", Firstsect := 0, Nsect := 1 } ]
    Sections := [ dupSelrefs ]
    sr := dupSelStore
    GetOffset := fun a => if 4096 ≤ a ∧ a < 4096 + 24 then some ((a - 4096 : Nat) : Int) else none
    GetVMAddress := fun o => if o < 24 then some (o + 4096) else none
    GetCString := fun a =>
      if 4096 ≤ a then
        (cstringAt (dupSelStore.drop (a - 4096))).map (fun bs => String.mk (bs.map Char.ofNat))
      else none
    GetCStringCursor := fun _ c => c }

/-- The methods of the big list at file offset 120 of the example image. -/
def exBigMethods : List Method :=
  [ { NameVMAddr := 4108, TypesVMAddr := 4112, ImpVMAddr := 4832, Name := "bar", Types := "v@:"
      Pointer := { VMAdder := 4832, Offset := 736 } },
    { NameVMAddr := 4116, TypesVMAddr := 4112, ImpVMAddr := 4836, Name := "baz", Types := "v@:"
      Pointer := { VMAdder := 4836, Offset := 740 } } ]

/-- The example image with one more class record at file offset 744: the class
Baz, whose superclass is Bar (address 4624) and whose read-only data is that
of Foo (address 4408). -/
def chainImage : File :=
  { exImage with
    sr := exStore ++
      List.flatten [leBytes 8 0, leBytes 8 4624, leBytes 8 0, leBytes 8 0, leBytes 8 4408,
        List.replicate 32 0]
    GetOffset := fun a => if 4096 ≤ a ∧ a < 4096 + 816 then some ((a - 4096 : Nat) : Int) else none
    GetVMAddress := fun o => if o < 816 then some (o + 4096) else none }

/-- The section `__TEXT.__objc_methname` of `poolImage`: the 26 bytes at file
offset 8 of the example store, the strings Foo, bar, v@:, baz, _x, i and P,
each with its NUL, and the three bytes of Bar without a NUL. -/
def exMethname : Section :=
  { Name := "__objc_methname", Seg := "__TEXT", Addr := 4104, Size := 26, Offset := 8 }

/-- The example image with a method-name pool. -/
def poolImage : File :=
  { exImage with Sections := [ exMethname ] }

/-- The section `__TEXT.__objc_methlist` of `methlistImage`. -/
def exMethlist : Section :=
  { Name := "__objc_methlist", Seg := "__TEXT", Addr := 4840, Size := 56, Offset := 744 }

/-- The example image with a method-list section at file offset 744: a small
list of one method (header at section position 0, entry at 8, four bytes of
padding at 20) and a small list of two methods (header at 24, entries at 32
and 44). -/
def methlistImage : File :=
  { exImage with
    Sections := [ exMethlist ]
    sr := exStore ++
      List.flatten [leBytes 4 2147483660, leBytes 4 1,
        leBytes 4 4294966584, leBytes 4 4294966556, leBytes 4 4294967272,
        List.replicate 4 0,
        leBytes 4 2147483660, leBytes 4 2,
        leBytes 4 4294966560, leBytes 4 4294966532, leBytes 4 4294967248,
        leBytes 4 4294966556, leBytes 4 4294966520, leBytes 4 4294967240]
    GetOffset := fun a => if 4096 ≤ a ∧ a < 4096 + 800 then some ((a - 4096 : Nat) : Int) else none
    GetVMAddress := fun o => if o < 800 then some (o + 4096) else none }

/-- The stream of lists of `methlistImage`: the header positions 0 and 24 with
the methods of the lists. -/
def exStream : List (Nat × List Method) :=
  [ (0, [ { NameVMAddr := 4108, TypesVMAddr := 4112, ImpVMAddr := 4832, Name := "bar"
            Types := "v@:", Pointer := { VMAdder := 4832, Offset := -24 } } ]),
    (24, [ { NameVMAddr := 4108, TypesVMAddr := 4112, ImpVMAddr := 4832, Name := "bar"
             Types := "v@:", Pointer := { VMAdder := 4832, Offset := -48 } },
           { NameVMAddr := 4116, TypesVMAddr := 4112, ImpVMAddr := 4836, Name := "baz"
             Types := "v@:", Pointer := { VMAdder := 4836, Offset := -56 } } ]) ]

/-- The example image with one more section, `__DATA.__OBJC_CLASSLIST` of 8
bytes: a section whose name differs from `__objc_classlist` in letter case
only. -/
def caseImage : File :=
  { exImage with
    Sections := exImage.Sections ++
      [ { Name := "__OBJC_CLASSLIST", Seg := "__DATA", Addr := 4792, Size := 8, Offset := 696 } ] }

/-- The method-name pool of `exMethname` placed 16 bytes below the top of the
64-bit address space. -/
def wrapMethname : Section :=
  { exMethname with Addr := 18446744073709551600 }

/-- The example image with the method-name pool `wrapMethname`, whose address
translates to file offset 8. -/
def wrapImage : File :=
  { exImage with
    Sections := [ wrapMethname ]
    GetOffset := fun a => if a = 18446744073709551600 then some 8 else none }


/-! ## The reader: basic facts -/

theorem chunks_length (size n : Nat) (bs : List Nat) : (chunks size n bs).length = n := by
  induction n generalizing bs with
  | zero => rfl
  | succ k ih => simp [chunks, ih]

theorem read_ok_of_le (f : File) (size cur : Nat) (h : cur + size ≤ f.sr.length) :
    f.read size cur = (.ok ((f.sr.drop cur).take size), cur + size) := by
  have hl : ((f.sr.drop cur).take size).length = size := by
    simp [List.length_take, List.length_drop]; omega
  simp [File.read, hl]

theorem read_ok_inv (f : File) (size cur : Nat) (bs : List Nat) (c : Nat)
    (h : f.read size cur = (.ok bs, c)) :
    bs = (f.sr.drop cur).take size ∧ c = cur + size := by
  unfold File.read at h
  split at h
  · simp only [Prod.mk.injEq, Except.ok.injEq] at h
    exact ⟨h.1.symm, h.2.symm⟩
  · simp at h

theorem binaryRead_ok_inv {α : Type} (f : File) (c : Codec α) (cur : Nat) (a : α) (c1 : Nat)
    (h : f.binaryRead c cur = (.ok a, c1)) :
    a = c.decode f.ByteOrder ((f.sr.drop cur).take c.size) ∧ c1 = cur + c.size := by
  unfold File.binaryRead at h
  split at h
  · rename_i bs cur1 hr
    obtain ⟨h1, h2⟩ := read_ok_inv f _ _ _ _ hr
    simp only [Prod.mk.injEq, Except.ok.injEq] at h
    subst h1 h2
    exact ⟨h.1.symm, h.2.symm⟩
  · simp at h

theorem binaryRead_ok_of_le {α : Type} (f : File) (c : Codec α) (cur : Nat)
    (h : cur + c.size ≤ f.sr.length) :
    f.binaryRead c cur =
      (.ok (c.decode f.ByteOrder ((f.sr.drop cur).take c.size)), cur + c.size) := by
  simp [File.binaryRead, read_ok_of_le f c.size cur h]

theorem binaryReadSlice_ok_inv {α : Type} (f : File) (c : Codec α) (n cur : Nat) (xs : List α)
    (c1 : Nat) (h : f.binaryReadSlice c n cur = (.ok xs, c1)) :
    xs = (chunks c.size n ((f.sr.drop cur).take (n * c.size))).map (c.decode f.ByteOrder) ∧
      c1 = cur + n * c.size := by
  unfold File.binaryReadSlice at h
  split at h
  · rename_i bs cur1 hr
    obtain ⟨h1, h2⟩ := read_ok_inv f _ _ _ _ hr
    simp only [Prod.mk.injEq, Except.ok.injEq] at h
    subst h1 h2
    exact ⟨h.1.symm, h.2.symm⟩
  · simp at h

theorem binaryReadSlice_zero {α : Type} (f : File) (c : Codec α) (cur : Nat) :
    f.binaryReadSlice c 0 cur = (.ok [], cur) := by
  simp [File.binaryReadSlice, File.read, chunks]

theorem seek_natCast (cur off : Nat) : seek cur (off : Int) = off := by
  simp [seek]


/-! ## Machine arithmetic -/

theorem toInt64_add_toInt64 (x y : Int) : toInt64 (x + toInt64 y) = toInt64 (x + y) := by
  unfold toInt64; omega

theorem toInt64_toInt64_add (x y : Int) : toInt64 (toInt64 y + x) = toInt64 (y + x) := by
  unfold toInt64; omega

theorem toUint64_toInt64 (y : Int) : toUint64 (toInt64 y) = toUint64 y := by
  unfold toInt64 toUint64; omega

theorem toUint64_add (a b : Int) :
    (toUint64 a + toUint64 b) % 18446744073709551616 = toUint64 (a + b) := by
  unfold toUint64; omega

theorem toInt64_of_range (x : Int) (h0 : -9223372036854775808 ≤ x) (h1 : x < 9223372036854775808) :
    toInt64 x = x := by
  unfold toInt64; omega

theorem currOffsetAt_add (f : File) (ml : MethodList) (c x : Int) (i : Nat) :
    toInt64 (x + currOffsetAt f ml c i) = toInt64 (x + c + f.objc.EntSize ml * i) := by
  induction i generalizing c with
  | zero => simp [currOffsetAt]
  | succ k ih =>
    simp only [currOffsetAt]
    rw [ih]
    have h1 : x + toInt64 (c + f.objc.EntSize ml) + (f.objc.EntSize ml : Int) * k =
        (x + (f.objc.EntSize ml : Int) * k) + toInt64 (c + f.objc.EntSize ml) := by ring
    rw [h1, toInt64_add_toInt64]
    congr 1
    push_cast
    ring

theorem uint64_slot (a c k : Int) :
    (toUint64 a + toUint64 (toInt64 (c + k))) % 18446744073709551616 =
      toUint64 (c + k + a) := by
  unfold toUint64 toInt64; omega

theorem toInt32_range (n : Nat) : -2147483648 ≤ toInt32 n ∧ toInt32 n < 2147483648 := by
  unfold toInt32
  split <;> omega

/-! ## Method lists: the two loops -/

theorem smallLoop_nil (f : File) (ml : MethodList) (c : Int) (cur : Nat) (acc : List Method) :
    smallLoop f ml [] c cur acc = (.ok acc, cur) :=
  rfl

theorem smallLoop_cons (f : File) (ml : MethodList) (m : MethodSmallT)
    (rest : List MethodSmallT) (c : Int) (cur : Nat) (acc : List Method) :
    smallLoop f ml (m :: rest) c cur acc =
      match smallEntry f c cur m with
      | (Except.error e, cur1) => (Except.error e, cur1)
      | (Except.ok r, cur1) =>
        smallLoop f ml rest (toInt64 (c + f.objc.EntSize ml)) cur1 (acc ++ [r]) :=
  rfl

theorem smallLoop_cons_error (f : File) (ml : MethodList) (m : MethodSmallT)
    (rest : List MethodSmallT) (c : Int) (cur : Nat) (acc : List Method) (e : Err) (cur1 : Nat)
    (h : smallEntry f c cur m = (.error e, cur1)) :
    smallLoop f ml (m :: rest) c cur acc = (.error e, cur1) := by
  rw [smallLoop_cons, h]

theorem smallLoop_cons_ok (f : File) (ml : MethodList) (m : MethodSmallT)
    (rest : List MethodSmallT) (c : Int) (cur : Nat) (acc : List Method) (r : Method)
    (cur1 : Nat) (h : smallEntry f c cur m = (.ok r, cur1)) :
    smallLoop f ml (m :: rest) c cur acc =
      smallLoop f ml rest (toInt64 (c + f.objc.EntSize ml)) cur1 (acc ++ [r]) := by
  rw [smallLoop_cons, h]

theorem bigLoop_nil (f : File) (cur : Nat) (acc : List Method) :
    bigLoop f [] cur acc = (.ok acc, cur) :=
  rfl

theorem bigLoop_cons (f : File) (m : MethodT) (rest : List MethodT) (cur : Nat)
    (acc : List Method) :
    bigLoop f (m :: rest) cur acc =
      match bigEntry f cur m with
      | (Except.error e, cur1) => (Except.error e, cur1)
      | (Except.ok r, cur1) => bigLoop f rest cur1 (acc ++ [r]) :=
  rfl

theorem bigLoop_cons_error (f : File) (m : MethodT) (rest : List MethodT) (cur : Nat)
    (acc : List Method) (e : Err) (cur1 : Nat) (h : bigEntry f cur m = (.error e, cur1)) :
    bigLoop f (m :: rest) cur acc = (.error e, cur1) := by
  rw [bigLoop_cons, h]

theorem bigLoop_cons_ok (f : File) (m : MethodT) (rest : List MethodT) (cur : Nat)
    (acc : List Method) (r : Method) (cur1 : Nat) (h : bigEntry f cur m = (.ok r, cur1)) :
    bigLoop f (m :: rest) cur acc = bigLoop f rest cur1 (acc ++ [r]) := by
  rw [bigLoop_cons, h]

theorem out_error_ne_ok {α : Type} (e : Err) (c : Nat) (a : α) (c1 : Nat) :
    ((.error e, c) : Out α) ≠ (.ok a, c1) := by
  intro h
  cases h

theorem smallLoop_ok_length (f : File) (ml : MethodList) (methods : List MethodSmallT)
    (c : Int) (cur : Nat) (acc ms : List Method) (cur1 : Nat)
    (h : smallLoop f ml methods c cur acc = (.ok ms, cur1)) :
    ms.length = acc.length + methods.length := by
  induction methods generalizing c cur acc with
  | nil =>
    rw [smallLoop_nil] at h
    cases h
    rfl
  | cons m rest ih =>
    rcases hx : smallEntry f c cur m with ⟨_ | r, cur2⟩
    · rw [smallLoop_cons_error f ml m rest c cur acc _ _ hx] at h
      cases h
    · rw [smallLoop_cons_ok f ml m rest c cur acc _ _ hx] at h
      rw [ih _ _ _ h]
      simp only [List.length_append, List.length_cons, List.length_nil]
      omega

theorem bigLoop_ok_length (f : File) (methods : List MethodT) (cur : Nat)
    (acc ms : List Method) (cur1 : Nat) (h : bigLoop f methods cur acc = (.ok ms, cur1)) :
    ms.length = acc.length + methods.length := by
  induction methods generalizing cur acc with
  | nil =>
    rw [bigLoop_nil] at h
    cases h
    rfl
  | cons m rest ih =>
    rcases hx : bigEntry f cur m with ⟨_ | r, cur2⟩
    · rw [bigLoop_cons_error f m rest cur acc _ _ hx] at h
      cases h
    · rw [bigLoop_cons_ok f m rest cur acc _ _ hx] at h
      rw [ih _ _ h]
      simp only [List.length_append, List.length_cons, List.length_nil]
      omega

theorem smallLoop_error_of_entry (f : File) (ml : MethodList) (pre : List MethodSmallT)
    (m : MethodSmallT) (post : List MethodSmallT) (c : Int) (cur : Nat) (acc : List Method)
    (h : ∀ acc1 cur3, smallLoop f ml pre c cur acc = (.ok acc1, cur3) →
      ∃ e cur4, smallEntry f (currOffsetAt f ml c pre.length) cur3 m = (.error e, cur4)) :
    ∃ e cur4, smallLoop f ml (pre ++ m :: post) c cur acc = (.error e, cur4) := by
  induction pre generalizing c cur acc with
  | nil =>
    obtain ⟨e, cur4, he⟩ := h acc cur (smallLoop_nil f ml c cur acc)
    exact ⟨e, cur4, smallLoop_cons_error f ml m post c cur acc e cur4 he⟩
  | cons x rest ih =>
    rcases hx : smallEntry f c cur x with ⟨_ | r, cur2⟩
    · exact ⟨_, _, smallLoop_cons_error f ml x (rest ++ m :: post) c cur acc _ _ hx⟩
    · rw [List.cons_append, smallLoop_cons_ok f ml x (rest ++ m :: post) c cur acc _ _ hx]
      apply ih
      intro acc1 cur3 hrun
      exact h acc1 cur3 (by rw [smallLoop_cons_ok f ml x rest c cur acc _ _ hx]; exact hrun)

theorem bigLoop_error_of_entry (f : File) (pre : List MethodT) (m : MethodT)
    (post : List MethodT) (cur : Nat) (acc : List Method)
    (h : ∀ acc1 cur3, bigLoop f pre cur acc = (.ok acc1, cur3) →
      ∃ e cur4, bigEntry f cur3 m = (.error e, cur4)) :
    ∃ e cur4, bigLoop f (pre ++ m :: post) cur acc = (.error e, cur4) := by
  induction pre generalizing cur acc with
  | nil =>
    obtain ⟨e, cur4, he⟩ := h acc cur (bigLoop_nil f cur acc)
    exact ⟨e, cur4, bigLoop_cons_error f m post cur acc e cur4 he⟩
  | cons x rest ih =>
    rcases hx : bigEntry f cur x with ⟨_ | r, cur2⟩
    · exact ⟨_, _, bigLoop_cons_error f x (rest ++ m :: post) cur acc _ _ hx⟩
    · rw [List.cons_append, bigLoop_cons_ok f x (rest ++ m :: post) cur acc _ _ hx]
      apply ih
      intro acc1 cur3 hrun
      exact h acc1 cur3 (by rw [bigLoop_cons_ok f x rest cur acc _ _ hx]; exact hrun)

/-- What a successful `smallLoop` returns: one method per entry, in order,
each the result of the loop body at the entry's slot. -/
theorem smallLoop_ok_inv (f : File) (ml : MethodList) (methods : List MethodSmallT)
    (c : Int) (cur : Nat) (acc ms : List Method) (cur1 : Nat)
    (h : smallLoop f ml methods c cur acc = (.ok ms, cur1)) :
    ∃ new, ms = acc ++ new ∧ new.length = methods.length ∧
      ∀ (i : Nat) (m : _), methods[i]? = some m → ∃ r ci cj, new[i]? = some r ∧
        smallEntry f (currOffsetAt f ml c i) ci m = (.ok r, cj) := by
  induction methods generalizing c cur acc with
  | nil =>
    rw [smallLoop_nil] at h
    cases h
    exact ⟨[], by simp, rfl, by simp⟩
  | cons x rest ih =>
    rcases hx : smallEntry f c cur x with ⟨_ | r, cur2⟩
    · rw [smallLoop_cons_error f ml x rest c cur acc _ _ hx] at h
      cases h
    · rw [smallLoop_cons_ok f ml x rest c cur acc _ _ hx] at h
      obtain ⟨new, h1, h2, h3⟩ := ih _ _ _ h
      refine ⟨r :: new, by simp [h1], by simp [h2], ?_⟩
      intro i m hi
      cases i with
      | zero =>
        simp only [List.getElem?_cons_zero, Option.some.injEq] at hi
        subst hi
        exact ⟨r, cur, cur2, by simp, hx⟩
      | succ k =>
        simp only [List.getElem?_cons_succ] at hi
        obtain ⟨r1, ci, cj, hr, hs⟩ := h3 k m hi
        exact ⟨r1, ci, cj, by simpa using hr, hs⟩

/-- What a successful `bigLoop` returns: one method per entry, in order, each
the result of the loop body on that entry. -/
theorem bigLoop_ok_inv (f : File) (methods : List MethodT) (cur : Nat)
    (acc ms : List Method) (cur1 : Nat) (h : bigLoop f methods cur acc = (.ok ms, cur1)) :
    ∃ new, ms = acc ++ new ∧ new.length = methods.length ∧
      ∀ (i : Nat) (m : _), methods[i]? = some m → ∃ r ci cj, new[i]? = some r ∧
        bigEntry f ci m = (.ok r, cj) := by
  induction methods generalizing cur acc with
  | nil =>
    rw [bigLoop_nil] at h
    cases h
    exact ⟨[], by simp, rfl, by simp⟩
  | cons x rest ih =>
    rcases hx : bigEntry f cur x with ⟨_ | r, cur2⟩
    · rw [bigLoop_cons_error f x rest cur acc _ _ hx] at h
      cases h
    · rw [bigLoop_cons_ok f x rest cur acc _ _ hx] at h
      obtain ⟨new, h1, h2, h3⟩ := ih _ _ h
      refine ⟨r :: new, by simp [h1], by simp [h2], ?_⟩
      intro i m hi
      cases i with
      | zero =>
        simp only [List.getElem?_cons_zero, Option.some.injEq] at hi
        subst hi
        exact ⟨r, cur, cur2, by simp, hx⟩
      | succ k =>
        simp only [List.getElem?_cons_succ] at hi
        obtain ⟨r1, ci, cj, hr, hs⟩ := h3 k m hi
        exact ⟨r1, ci, cj, by simpa using hr, hs⟩

/-! ## Method lists: the loop bodies -/

theorem bigEntry_ok_inv (f : File) (cur : Nat) (m : MethodT) (r : Method) (cur' : Nat)
    (h : bigEntry f cur m = (.ok r, cur')) :
    f.GetCString (f.convertToVMAddr m.NameVMAddr) = some r.Name ∧
      f.GetCString (f.convertToVMAddr m.TypesVMAddr) = some r.Types ∧
      f.GetOffset (f.convertToVMAddr m.ImpVMAddr) = some r.Pointer.Offset ∧
      r.NameVMAddr = m.NameVMAddr ∧ r.TypesVMAddr = m.TypesVMAddr ∧
      r.ImpVMAddr = m.ImpVMAddr ∧ r.Pointer.VMAdder = m.ImpVMAddr := by
  unfold bigEntry at h
  split at h
  · simp at h
  · rename_i n hn
    split at h
    · simp at h
    · rename_i t ht
      split at h
      · simp at h
      · rename_i impOff hi
        simp only [Prod.mk.injEq, Except.ok.injEq] at h
        obtain ⟨h1, _⟩ := h
        subst h1
        exact ⟨hn, ht, hi, rfl, rfl, rfl, rfl⟩

theorem smallEntry_ok_inv (f : File) (c : Int) (cur : Nat) (m : MethodSmallT) (r : Method)
    (cur' : Nat) (h : smallEntry f c cur m = (.ok r, cur')) :
    r.NameVMAddr = u32At f (seek cur (toInt64 (m.NameOffset + c))) ∧
      f.GetCString r.NameVMAddr = some r.Name ∧
      f.GetVMAddress (toUint64 (c + 4 + m.TypesOffset)) = some r.TypesVMAddr ∧
      f.GetCString r.TypesVMAddr = some r.Types ∧
      f.GetVMAddress (toUint64 (c + 8 + m.ImpOffset)) = some r.ImpVMAddr ∧
      r.Pointer = { VMAdder := r.ImpVMAddr, Offset := m.ImpOffset } := by
  unfold smallEntry at h
  split at h
  · simp at h
  · rename_i nameAddr cur1 hr
    obtain ⟨h1, _⟩ := binaryRead_ok_inv f _ _ _ _ hr
    split at h
    · simp at h
    · rename_i n hn
      split at h
      · simp at h
      · rename_i typesVMAddr hty
        split at h
        · simp at h
        · rename_i t ht
          split at h
          · simp at h
          · rename_i impVMAddr himp
            simp only [Prod.mk.injEq, Except.ok.injEq] at h
            obtain ⟨h2, _⟩ := h
            subst h2
            rw [uint64_slot] at hty himp
            exact ⟨h1, hn, hty, ht, himp, rfl⟩

theorem readSmallMethods_ok_inv (f : File) (ml : MethodList) (cur : Nat) (ms : List Method)
    (cur' : Nat) (h : readSmallMethods f ml cur = (.ok ms, cur')) :
    smallLoop f ml (smallEntriesAt f cur ml.Count) (cur : Int) (cur + ml.Count * 12) [] =
      (.ok ms, cur') := by
  unfold readSmallMethods at h
  split at h
  · simp at h
  · rename_i methods cur1 hr
    obtain ⟨h1, h2⟩ := binaryReadSlice_ok_inv f _ _ _ _ _ hr
    subst h1 h2
    exact h

theorem readBigMethods_ok_inv (f : File) (ml : MethodList) (cur : Nat) (ms : List Method)
    (cur' : Nat) (h : readBigMethods f ml cur = (.ok ms, cur')) :
    bigLoop f (bigEntriesAt f cur ml.Count) (cur + ml.Count * 24) [] = (.ok ms, cur') := by
  unfold readBigMethods at h
  split at h
  · simp at h
  · rename_i methods cur1 hr
    obtain ⟨h1, h2⟩ := binaryReadSlice_ok_inv f _ _ _ _ _ hr
    subst h1 h2
    exact h

theorem smallEntriesAt_length (f : File) (p n : Nat) : (smallEntriesAt f p n).length = n := by
  simp [smallEntriesAt, chunks_length]

theorem bigEntriesAt_length (f : File) (p n : Nat) : (bigEntriesAt f p n).length = n := by
  simp [bigEntriesAt, chunks_length]

/-- A successful `GetObjCMethods` translated the address, read the header at
the position the seek left, and ran the loop of the encoding the header
selects. -/
theorem GetObjCMethods_ok_inv (f : File) (cur vmAddr : Nat) (ms : List Method) (cur' : Nat)
    (h : GetObjCMethods f cur vmAddr = (.ok ms, cur')) :
    ∃ off ml, f.GetOffset vmAddr = some off ∧
      ml = methodListCodec.decode f.ByteOrder ((f.sr.drop (seek cur off)).take 8) ∧
      f.binaryRead methodListCodec (seek cur off) = (.ok ml, seek cur off + 8) ∧
      (f.objc.IsSmall ml = true → readSmallMethods f ml (seek cur off + 8) = (.ok ms, cur')) ∧
      (f.objc.IsSmall ml = false → readBigMethods f ml (seek cur off + 8) = (.ok ms, cur')) := by
  unfold GetObjCMethods at h
  split at h
  · simp at h
  · rename_i off hoff
    split at h
    · simp at h
    · rename_i ml cur1 hr
      obtain ⟨h1, h2⟩ := binaryRead_ok_inv f _ _ _ _ hr
      have h2' : cur1 = seek cur off + 8 := h2
      subst h2'
      refine ⟨off, ml, hoff, h1, hr, ?_, ?_⟩
      · intro hs; simpa [hs] using h
      · intro hs; simpa [hs] using h

theorem GetObjCMethods_ok_length (f : File) (cur vmAddr : Nat) (ms : List Method) (cur1 : Nat)
    (off : Int) (ml : MethodList) (cur2 : Nat)
    (h : GetObjCMethods f cur vmAddr = (.ok ms, cur1))
    (hoff : f.GetOffset vmAddr = some off)
    (hhdr : f.binaryRead methodListCodec (seek cur off) = (.ok ml, cur2)) :
    ms.length = ml.Count := by
  obtain ⟨off1, ml1, hoff1, _, hhdr1, hsmall, hbig⟩ := GetObjCMethods_ok_inv f cur vmAddr ms cur1 h
  rw [hoff] at hoff1
  cases hoff1
  rw [hhdr] at hhdr1
  cases hhdr1
  cases hs : f.objc.IsSmall ml with
  | true =>
    have := smallLoop_ok_length f ml _ _ _ _ _ _ (readSmallMethods_ok_inv f ml _ ms cur1 (hsmall hs))
    simpa [smallEntriesAt_length] using this
  | false =>
    have := bigLoop_ok_length f _ _ _ _ _ (readBigMethods_ok_inv f ml _ ms cur1 (hbig hs))
    simpa [bigEntriesAt_length] using this

/-! ## Small method lists: where each entry is read -/

theorem toUint64_currOffsetAt (f : File) (ml : MethodList) (c k : Int) (i : Nat) :
    toUint64 (currOffsetAt f ml c i + k) = toUint64 (c + f.objc.EntSize ml * i + k) := by
  have h1 : toUint64 (currOffsetAt f ml c i + k) = toUint64 (toInt64 (k + currOffsetAt f ml c i)) := by
    rw [toUint64_toInt64, add_comm]
  rw [h1, currOffsetAt_add, toUint64_toInt64]
  congr 1
  ring

theorem seek_currOffsetAt (f : File) (ml : MethodList) (c x : Int) (i cur : Nat)
    (h0 : 0 ≤ c + f.objc.EntSize ml * i + x)
    (h1 : c + f.objc.EntSize ml * i + x < 9223372036854775808) :
    seek cur (toInt64 (x + currOffsetAt f ml c i)) = (c + f.objc.EntSize ml * i + x).toNat := by
  rw [currOffsetAt_add]
  have h2 : x + c + (f.objc.EntSize ml : Int) * i = c + f.objc.EntSize ml * i + x := by ring
  rw [h2, toInt64_of_range _ (by omega) h1]
  unfold seek
  rw [if_neg (by omega)]

/-- Where `GetObjCMethods` reads a small list whose header is at file offset
`h`: with `E` the entry size of the header, entry `i` is decoded relative to
the positions `h + 8 + E * i`, `h + 8 + E * i + 4` and `h + 8 + E * i + 8`. -/
theorem GetObjCMethods_small_positions (f : File) (cur vmAddr h : Nat) (ml : MethodList)
    (c1 : Nat) (ms : List Method) (cur1 : Nat)
    (hoff : f.GetOffset vmAddr = some (h : Int))
    (hhdr : f.binaryRead methodListCodec h = (.ok ml, c1))
    (hs : f.objc.IsSmall ml = true)
    (hok : GetObjCMethods f cur vmAddr = (.ok ms, cur1)) :
    ∀ (i : Nat) (e : MethodSmallT), (smallEntriesAt f (h + 8) ml.Count)[i]? = some e →
      ∃ r, ms[i]? = some r ∧
        (0 ≤ (h : Int) + 8 + f.objc.EntSize ml * i + e.NameOffset →
          (h : Int) + 8 + f.objc.EntSize ml * i + e.NameOffset < 9223372036854775808 →
          r.NameVMAddr =
            u32At f ((h : Int) + 8 + f.objc.EntSize ml * i + e.NameOffset).toNat) ∧
        f.GetCString r.NameVMAddr = some r.Name ∧
        f.GetVMAddress (toUint64 ((h : Int) + 8 + f.objc.EntSize ml * i + 4 + e.TypesOffset)) =
          some r.TypesVMAddr ∧
        f.GetCString r.TypesVMAddr = some r.Types ∧
        f.GetVMAddress (toUint64 ((h : Int) + 8 + f.objc.EntSize ml * i + 8 + e.ImpOffset)) =
          some r.ImpVMAddr ∧
        r.Pointer = { VMAdder := r.ImpVMAddr, Offset := e.ImpOffset } := by
  intro i e hi
  obtain ⟨off1, ml1, hoff1, _, hhdr1, hsmall, _⟩ := GetObjCMethods_ok_inv f cur vmAddr ms cur1 hok
  rw [hoff] at hoff1
  cases hoff1
  rw [seek_natCast] at hhdr1 hsmall
  rw [hhdr] at hhdr1
  cases hhdr1
  obtain ⟨new, h1, _, h3⟩ :=
    smallLoop_ok_inv f ml _ _ _ _ _ _ (readSmallMethods_ok_inv f ml _ ms cur1 (hsmall hs))
  obtain ⟨r, ci, cj, hr, hstep⟩ := h3 i e hi
  obtain ⟨e1, e2, e3, e4, e5, e6⟩ := smallEntry_ok_inv f _ _ _ _ _ hstep
  have hc : (((h + 8 : Nat) : Int)) = (h : Int) + 8 := by push_cast; rfl
  rw [hc] at e1 e3 e5
  refine ⟨r, by simpa [h1] using hr, ?_, e2, ?_, e4, ?_, e6⟩
  · intro h0 hlt
    rw [e1, seek_currOffsetAt f ml _ _ i ci h0 hlt]
  · have := toUint64_currOffsetAt f ml ((h : Int) + 8) (4 + e.TypesOffset) i
    rw [← e3]
    congr 1
    rw [show currOffsetAt f ml ((h : Int) + 8) i + 4 + e.TypesOffset =
      currOffsetAt f ml ((h : Int) + 8) i + (4 + e.TypesOffset) by ring, this]
    congr 1
    ring
  · have := toUint64_currOffsetAt f ml ((h : Int) + 8) (8 + e.ImpOffset) i
    rw [← e5]
    congr 1
    rw [show currOffsetAt f ml ((h : Int) + 8) i + 8 + e.ImpOffset =
      currOffsetAt f ml ((h : Int) + 8) i + (8 + e.ImpOffset) by ring, this]
    congr 1
    ring

/-- What `GetObjCMethods` returns for a big list whose header is at file offset
`h`: entry `i` gives the strings at the converted name and type pointers and
keeps the three stored pointers. -/
theorem GetObjCMethods_big_entries (f : File) (cur vmAddr h : Nat) (ml : MethodList)
    (c1 : Nat) (ms : List Method) (cur1 : Nat)
    (hoff : f.GetOffset vmAddr = some (h : Int))
    (hhdr : f.binaryRead methodListCodec h = (.ok ml, c1))
    (hs : f.objc.IsSmall ml = false)
    (hok : GetObjCMethods f cur vmAddr = (.ok ms, cur1)) :
    ∀ (i : Nat) (e : MethodT), (bigEntriesAt f (h + 8) ml.Count)[i]? = some e →
      ∃ r, ms[i]? = some r ∧
        f.GetCString (f.convertToVMAddr e.NameVMAddr) = some r.Name ∧
        f.GetCString (f.convertToVMAddr e.TypesVMAddr) = some r.Types ∧
        f.GetOffset (f.convertToVMAddr e.ImpVMAddr) = some r.Pointer.Offset ∧
        r.NameVMAddr = e.NameVMAddr ∧ r.TypesVMAddr = e.TypesVMAddr ∧
        r.ImpVMAddr = e.ImpVMAddr ∧ r.Pointer.VMAdder = e.ImpVMAddr := by
  intro i e hi
  obtain ⟨off1, ml1, hoff1, _, hhdr1, _, hbig⟩ := GetObjCMethods_ok_inv f cur vmAddr ms cur1 hok
  rw [hoff] at hoff1
  cases hoff1
  rw [seek_natCast] at hhdr1 hbig
  rw [hhdr] at hhdr1
  cases hhdr1
  obtain ⟨new, h1, _, h3⟩ :=
    bigLoop_ok_inv f _ _ _ _ _ (readBigMethods_ok_inv f ml _ ms cur1 (hbig hs))
  obtain ⟨r, ci, cj, hr, hstep⟩ := h3 i e hi
  exact ⟨r, by simpa [h1] using hr, bigEntry_ok_inv f _ _ _ _ hstep⟩

theorem smallEntriesAt_int32 (f : File) (p n i : Nat) (e : MethodSmallT)
    (h : (smallEntriesAt f p n)[i]? = some e) :
    (-2147483648 ≤ e.NameOffset ∧ e.NameOffset < 2147483648) ∧
      (-2147483648 ≤ e.TypesOffset ∧ e.TypesOffset < 2147483648) ∧
      (-2147483648 ≤ e.ImpOffset ∧ e.ImpOffset < 2147483648) := by
  unfold smallEntriesAt at h
  rw [List.getElem?_map] at h
  cases hc : (chunks 12 n (List.take (n * 12) (List.drop p f.sr)))[i]? with
  | none => rw [hc] at h; cases h
  | some bs =>
    rw [hc] at h
    simp only [Option.map_some', Option.some.injEq] at h
    subst h
    exact ⟨toInt32_range _, toInt32_range _, toInt32_range _⟩

/-! ## Claims on method lists -/

/-- C5: whenever `GetObjCMethods` succeeds, the list it returns has exactly as
many methods as the entry count of the header it read, the i-th method is the
decode of the i-th entry on disk, and the entries are cut out of exactly
`count * 12` (small) or `count * 24` (big) bytes after the 8-byte header. -/
theorem GetObjCMethods_count (f : File) (cur vmAddr : Nat) (ms : List Method) (cur' : Nat)
    (h : GetObjCMethods f cur vmAddr = (.ok ms, cur')) :
    ∃ off ml, f.GetOffset vmAddr = some off ∧
      ml = methodListCodec.decode f.ByteOrder ((f.sr.drop (seek cur off)).take 8) ∧
      ms.length = ml.Count ∧
      (f.objc.IsSmall ml = true →
        ∀ (i : Nat) (e : MethodSmallT),
          ((chunks 12 ml.Count ((f.sr.drop (seek cur off + 8)).take (ml.Count * 12))).map
            (methodSmallCodec.decode f.ByteOrder))[i]? = some e →
          ∃ r ci cj, ms[i]? = some r ∧ r.Pointer.Offset = e.ImpOffset ∧
            smallEntry f (currOffsetAt f ml ((seek cur off + 8 : Nat) : Int) i) ci e =
              (.ok r, cj)) ∧
      (f.objc.IsSmall ml = false →
        ∀ (i : Nat) (e : MethodT),
          ((chunks 24 ml.Count ((f.sr.drop (seek cur off + 8)).take (ml.Count * 24))).map
            (methodBigCodec.decode f.ByteOrder))[i]? = some e →
          ∃ r ci cj, ms[i]? = some r ∧ r.NameVMAddr = e.NameVMAddr ∧
            r.TypesVMAddr = e.TypesVMAddr ∧ r.ImpVMAddr = e.ImpVMAddr ∧
            bigEntry f ci e = (.ok r, cj)) := by
  obtain ⟨off, ml, hoff, hml, hhdr, hsmall, hbig⟩ := GetObjCMethods_ok_inv f cur vmAddr ms cur' h
  refine ⟨off, ml, hoff, hml, GetObjCMethods_ok_length f cur vmAddr ms cur' off ml _ h hoff hhdr,
    ?_, ?_⟩
  · intro hs i e hi
    obtain ⟨new, h1, _, h3⟩ :=
      smallLoop_ok_inv f ml _ _ _ _ _ _ (readSmallMethods_ok_inv f ml _ ms cur' (hsmall hs))
    obtain ⟨r, ci, cj, hr, hstep⟩ := h3 i e hi
    have hp := (smallEntry_ok_inv f _ _ _ _ _ hstep).2.2.2.2.2
    exact ⟨r, ci, cj, by simpa [h1] using hr, by rw [hp], hstep⟩
  · intro hs i e hi
    obtain ⟨new, h1, _, h3⟩ :=
      bigLoop_ok_inv f _ _ _ _ _ (readBigMethods_ok_inv f ml _ ms cur' (hbig hs))
    obtain ⟨r, ci, cj, hr, hstep⟩ := h3 i e hi
    obtain ⟨_, _, _, e1, e2, e3, _⟩ := bigEntry_ok_inv f _ _ _ _ hstep
    exact ⟨r, ci, cj, by simpa [h1] using hr, e1, e2, e3, hstep⟩

/-- C6: a method list whose address translates to a file offset at which the
8-byte header can be read and whose header has entry count 0 decodes to the
empty list without error, whatever the entry-size/flags field of the header
is (small or big). -/
theorem GetObjCMethods_count_zero (f : File) (cur vmAddr off : Nat)
    (hoff : f.GetOffset vmAddr = some (off : Int))
    (hlen : off + 8 ≤ f.sr.length)
    (hcount : (methodListCodec.decode f.ByteOrder ((f.sr.drop off).take 8)).Count = 0) :
    GetObjCMethods f cur vmAddr = (.ok [], off + 8) := by
  have hread := binaryRead_ok_of_le f methodListCodec off hlen
  have hsize : methodListCodec.size = 8 := rfl
  rw [hsize] at hread
  unfold GetObjCMethods
  simp only [hoff, seek_natCast, hread]
  split
  · simp [readSmallMethods, hcount, binaryReadSlice_zero, smallLoop_nil]
  · simp [readBigMethods, hcount, binaryReadSlice_zero, bigLoop_nil]

set_option maxRecDepth 100000 in
theorem GetObjCMethods_count_zero_witness :
    GetObjCMethods exImage 0 4272 = (.ok [], 176 + 8) :=
  GetObjCMethods_count_zero exImage 0 4272 176 (by decide) (by decide) (by decide)

theorem smallEntry_error_of_fails (f : File) (c : Int) (cur : Nat) (m : MethodSmallT)
    (h : smallEntryFails f c m) : ∃ e cur1, smallEntry f c cur m = (.error e, cur1) := by
  rcases hres : smallEntry f c cur m with ⟨e | r, cur1⟩
  · exact ⟨e, cur1, rfl⟩
  · exfalso
    obtain ⟨h1, h2, h3, h4, h5, _⟩ := smallEntry_ok_inv f c cur m r cur1 hres
    rcases h with hn | ht | ⟨t, ht, hs⟩ | hi
    · rw [h1, hn cur] at h2
      cases h2
    · rw [ht] at h3
      cases h3
    · rw [ht] at h3
      cases h3
      rw [hs] at h4
      cases h4
    · rw [hi] at h5
      cases h5

theorem bigEntry_error_of_fails (f : File) (cur : Nat) (m : MethodT)
    (h : bigEntryFails f m) : ∃ e cur1, bigEntry f cur m = (.error e, cur1) := by
  rcases hres : bigEntry f cur m with ⟨e | r, cur1⟩
  · exact ⟨e, cur1, rfl⟩
  · exfalso
    obtain ⟨h1, h2, h3, _⟩ := bigEntry_ok_inv f cur m r cur1 hres
    rcases h with hn | ht | hi
    · rw [hn] at h1
      cases h1
    · rw [ht] at h2
      cases h2
    · rw [hi] at h3
      cases h3

theorem split_at_index {α : Type} (xs : List α) (i : Nat) (x : α) (h : xs[i]? = some x) :
    xs = xs.take i ++ x :: xs.drop (i + 1) ∧ (xs.take i).length = i := by
  obtain ⟨hi, hx⟩ := List.getElem?_eq_some_iff.1 h
  refine ⟨?_, by rw [List.length_take]; omega⟩
  rw [← hx, ← List.drop_eq_getElem_cons hi, List.take_append_drop]

/-- C2: fail-fast decoding of a method list, in either encoding.  For a list
whose header is read and counts `n` entries: when for some entry `i < n` (the
`i`-th record behind the header) the name string read fails, the type string
read fails, or the translation of the type address or of the implementation
address fails, `GetObjCMethods` returns an error; and whenever it returns a
list, the list has all `n` methods. -/
theorem GetObjCMethods_fail_fast (f : File) (cur vmAddr : Nat) (off : Int) (ml : MethodList)
    (cur1 : Nat) (hoff : f.GetOffset vmAddr = some off)
    (hhdr : f.binaryRead methodListCodec (seek cur off) = (.ok ml, cur1)) :
    (f.objc.IsSmall ml = true → ∀ (i : Nat) (m : MethodSmallT),
      (smallEntriesAt f cur1 ml.Count)[i]? = some m →
      smallEntryFails f (currOffsetAt f ml (cur1 : Int) i) m →
      ∃ e cur4, GetObjCMethods f cur vmAddr = (.error e, cur4)) ∧
    (f.objc.IsSmall ml = false → ∀ (i : Nat) (m : MethodT),
      (bigEntriesAt f cur1 ml.Count)[i]? = some m →
      bigEntryFails f m →
      ∃ e cur4, GetObjCMethods f cur vmAddr = (.error e, cur4)) ∧
    (∀ ms cur5, GetObjCMethods f cur vmAddr = (.ok ms, cur5) → ms.length = ml.Count) := by
  have hrun : GetObjCMethods f cur vmAddr =
      if f.objc.IsSmall ml then readSmallMethods f ml cur1 else readBigMethods f ml cur1 := by
    unfold GetObjCMethods
    rw [hoff]
    dsimp only
    rw [hhdr]
  refine ⟨?_, ?_, ?_⟩
  · intro hs i m hi hfail
    rw [hrun, if_pos hs]
    unfold readSmallMethods
    rcases hread : f.binaryReadSlice methodSmallCodec ml.Count cur1 with ⟨e | methods, cur2⟩
    · exact ⟨_, _, rfl⟩
    · dsimp only
      obtain ⟨hm, _⟩ := binaryReadSlice_ok_inv f _ _ _ _ _ hread
      have hm1 : methods = smallEntriesAt f cur1 ml.Count := hm
      rw [← hm1] at hi
      obtain ⟨hsplit, hlen⟩ := split_at_index methods i m hi
      rw [hsplit]
      apply smallLoop_error_of_entry
      intro acc cur3 _
      rw [hlen]
      exact smallEntry_error_of_fails f _ cur3 m hfail
  · intro hs i m hi hfail
    rw [hrun, if_neg (by rw [hs]; decide)]
    unfold readBigMethods
    rcases hread : f.binaryReadSlice methodBigCodec ml.Count cur1 with ⟨e | methods, cur2⟩
    · exact ⟨_, _, rfl⟩
    · dsimp only
      obtain ⟨hm, _⟩ := binaryReadSlice_ok_inv f _ _ _ _ _ hread
      have hm1 : methods = bigEntriesAt f cur1 ml.Count := hm
      rw [← hm1] at hi
      obtain ⟨hsplit, _⟩ := split_at_index methods i m hi
      rw [hsplit]
      apply bigLoop_error_of_entry
      intro acc cur3 _
      exact bigEntry_error_of_fails f cur3 m hfail
  · intro ms cur5 hok
    exact GetObjCMethods_ok_length f cur vmAddr ms cur5 off ml cur1 hok hoff hhdr

set_option maxRecDepth 100000 in
theorem GetObjCMethods_fail_fast_witness :
    GetObjCMethods exImage 0 4280 = (.error .convertOffset, 24) ∧
      ∃ e cur4, GetObjCMethods exImage 0 4280 = (.error e, cur4) :=
  ⟨rfl,
    (GetObjCMethods_fail_fast exImage 0 4280 184
      { EntSizeAndFlags := 2147483660, Count := 2 } 192 (by decide) rfl).1 (by decide)
      1 { NameOffset := -156, TypesOffset := 100000, ImpOffset := 528 } (by decide)
      (Or.inr (Or.inl (by decide)))⟩

set_option maxRecDepth 100000 in
theorem GetObjCMethods_count_witness :
    GetObjCMethods exImage 0 4152 = (.ok exMethods, 20) ∧
      ∃ off ml, exImage.GetOffset 4152 = some off ∧
        ml = methodListCodec.decode exImage.ByteOrder ((exImage.sr.drop (seek 0 off)).take 8) ∧
        exMethods.length = ml.Count :=
  ⟨rfl,
    match GetObjCMethods_count exImage 0 4152 exMethods 20 rfl with
    | ⟨off, ml, h1, h2, h3, _⟩ => ⟨off, ml, h1, h2, h3⟩⟩

/-- Slot positions of a small list with header entry size 12: for a
small-encoding method list whose header is at file offset `h` and whose
header gives entry size 12, the decode of entry `i` reads
the name pointer at file position `h + 8 + 12 * i + NameOffset` (when that is
a file position), takes the type string at the virtual address of position
`h + 8 + 12 * i + 4 + TypesOffset` and the implementation at the virtual
address of position `h + 8 + 12 * i + 8 + ImpOffset`; the three offsets are
signed 32-bit values, each relative to its own field slot. -/
theorem GetObjCMethods_small_slots (f : File) (cur vmAddr h : Nat) (ml : MethodList)
    (c1 : Nat) (ms : List Method) (cur1 : Nat)
    (hoff : f.GetOffset vmAddr = some (h : Int))
    (hhdr : f.binaryRead methodListCodec h = (.ok ml, c1))
    (hs : f.objc.IsSmall ml = true)
    (hent : f.objc.EntSize ml = 12)
    (hok : GetObjCMethods f cur vmAddr = (.ok ms, cur1)) :
    SmallSlots f h ml.Count ms := by
  intro i e hi
  obtain ⟨r, h1, h2, h3, h4, h5, h6, _⟩ :=
    GetObjCMethods_small_positions f cur vmAddr h ml c1 ms cur1 hoff hhdr hs hok i e hi
  rw [hent] at h2 h4 h6
  exact ⟨smallEntriesAt_int32 f _ _ i e hi, r, h1, h2, h3, h4, h5, h6⟩

set_option maxRecDepth 100000 in
theorem GetObjCMethods_small_slots_witness :
    GetObjCMethods exImage 0 4152 = (.ok exMethods, 20) ∧ SmallSlots exImage 56 2 exMethods :=
  ⟨rfl,
    GetObjCMethods_small_slots exImage 0 4152 56 { EntSizeAndFlags := 2147483660, Count := 2 }
      64 exMethods 20 (by decide) rfl (by decide) (by decide) rfl⟩

set_option maxRecDepth 100000 in
/-- C4, at the failing input, a header entry size other than 12: the small
list at file offset 88 of the example image has entry size 16 in its header, its
address translates, its header and its two entries are read and it decodes
to two methods, but its entry 1 is decoded relative to the positions 112, 116
and 120, not to the positions 108, 112 and 116 of its own 12-byte slot. -/
theorem GetObjCMethods_small_stride_bug :
    exImage.GetOffset 4184 = some ((88 : Nat) : Int) ∧
      exImage.binaryRead methodListCodec 88 =
        (.ok { EntSizeAndFlags := 2147483664, Count := 2 }, 96) ∧
      exImage.objc.IsSmall { EntSizeAndFlags := 2147483664, Count := 2 } = true ∧
      exImage.objc.EntSize { EntSizeAndFlags := 2147483664, Count := 2 } = 16 ∧
      GetObjCMethods exImage 0 4184 = (.ok exMethods16, 20) ∧
      ¬ SmallSlots exImage 88 2 exMethods16 := by
  refine ⟨by decide, rfl, by decide, by decide, rfl, ?_⟩
  intro H
  obtain ⟨_, r, h1, _, _, h4, _, _⟩ :=
    H 1 { NameOffset := -64, TypesOffset := -100, ImpOffset := 620 } (by decide)
  have hr : r = { NameVMAddr := 4116, TypesVMAddr := 4112, ImpVMAddr := 4836, Name := "baz"
                  Types := "v@:", Pointer := { VMAdder := 4836, Offset := 620 } } := by
    have h2 : exMethods16[1]? =
        some { NameVMAddr := 4116, TypesVMAddr := 4112, ImpVMAddr := 4836, Name := "baz"
               Types := "v@:", Pointer := { VMAdder := 4836, Offset := 620 } } := rfl
    rw [h2] at h1
    exact (Option.some.inj h1).symm
  subst hr
  revert h4
  decide

theorem getElem?_of_length_eq {α β : Type} (xs : List α) (ys : List β) (i : Nat) (x : α)
    (hlen : xs.length = ys.length) (h : xs[i]? = some x) : ∃ y, ys[i]? = some y := by
  have hi : i < xs.length := by
    by_contra hc
    rw [List.getElem?_eq_none (by omega)] at h
    cases h
  exact ⟨ys[i], List.getElem?_eq_getElem (by omega)⟩

/-- The two encodings compared as the code stands: a small and a big method
list whose entries denote the same
(name string, type string, implementation address) triples in the same order
decode to methods that are pairwise equal in `Name` and `Types`; the
`ImpVMAddr` of the small list is the absolute implementation address, the
`ImpVMAddr` of the big list is the stored pointer, so the first is the
conversion of the second (they are equal where the conversion is the
identity).  This holds for every address resolver. -/
theorem GetObjCMethods_small_big (f : File) (curS curB aS aB hS hB : Nat)
    (mlS mlB : MethodList) (c1 c2 : Nat) (msS msB : List Method) (curS1 curB1 : Nat)
    (hoffS : f.GetOffset aS = some (hS : Int))
    (hhdrS : f.binaryRead methodListCodec hS = (.ok mlS, c1))
    (hsmall : f.objc.IsSmall mlS = true)
    (hoffB : f.GetOffset aB = some (hB : Int))
    (hhdrB : f.binaryRead methodListCodec hB = (.ok mlB, c2))
    (hbig : f.objc.IsSmall mlB = false)
    (hcount : mlB.Count = mlS.Count)
    (hsame : SameTriples f hS (f.objc.EntSize mlS) hB mlS.Count)
    (hokS : GetObjCMethods f curS aS = (.ok msS, curS1))
    (hokB : GetObjCMethods f curB aB = (.ok msB, curB1)) :
    msS.length = msB.length ∧
      ∀ (i : Nat) (s b : Method), msS[i]? = some s → msB[i]? = some b →
        s.Name = b.Name ∧ s.Types = b.Types ∧ s.ImpVMAddr = f.convertToVMAddr b.ImpVMAddr := by
  have hlenS := GetObjCMethods_ok_length f curS aS msS curS1 hS mlS c1 hokS hoffS
    (by rw [seek_natCast]; exact hhdrS)
  have hlenB := GetObjCMethods_ok_length f curB aB msB curB1 hB mlB c2 hokB hoffB
    (by rw [seek_natCast]; exact hhdrB)
  refine ⟨by rw [hlenS, hlenB, hcount], ?_⟩
  intro i s b hs hb
  obtain ⟨es, hes⟩ := getElem?_of_length_eq msS (smallEntriesAt f (hS + 8) mlS.Count) i s
    (by rw [hlenS, smallEntriesAt_length]) hs
  obtain ⟨eb, heb⟩ := getElem?_of_length_eq msB (bigEntriesAt f (hB + 8) mlS.Count) i b
    (by rw [hlenB, bigEntriesAt_length, hcount]) hb
  obtain ⟨p0, p1, pn, pt, pi⟩ := hsame i es eb hes heb
  obtain ⟨r, hr, s1, s2, s3, s4, s5, _⟩ :=
    GetObjCMethods_small_positions f curS aS hS mlS c1 msS curS1 hoffS hhdrS hsmall hokS i es hes
  rw [hs] at hr
  cases hr
  obtain ⟨q, hq, b1, b2, _, _, _, b6, _⟩ :=
    GetObjCMethods_big_entries f curB aB hB mlB c2 msB curB1 hoffB hhdrB hbig hokB i eb
      (by rw [hcount]; exact heb)
  rw [hb] at hq
  cases hq
  refine ⟨?_, ?_, ?_⟩
  · rw [← s1 p0 p1, s2, b1] at pn
    exact Option.some.inj pn
  · rw [s3, Option.some_bind, s4, b2] at pt
    exact Option.some.inj pt
  · rw [s5, ← b6] at pi
    exact Option.some.inj pi

set_option maxRecDepth 100000 in
/-- In the example image read with image-relative pointers, the small list at
file offset 56 and the big list at file offset 216 denote the same triples. -/
theorem slidImage_sameTriples : SameTriples slidImage 56 12 216 2 := by
  intro i s b hs hb
  have hS : smallEntriesAt slidImage (56 + 8) 2 =
      [{ NameOffset := -24, TypesOffset := -52, ImpOffset := 664 },
        { NameOffset := -28, TypesOffset := -64, ImpOffset := 656 }] := by decide
  have hB : bigEntriesAt slidImage (216 + 8) 2 =
      [{ NameVMAddr := 12, TypesVMAddr := 16, ImpVMAddr := 736 },
        { NameVMAddr := 20, TypesVMAddr := 16, ImpVMAddr := 740 }] := by decide
  rw [hS] at hs
  rw [hB] at hb
  rcases i with _ | _ | i
  · simp only [List.getElem?_cons_zero, Option.some.injEq] at hs hb
    subst hs
    subst hb
    decide
  · simp only [List.getElem?_cons_succ, List.getElem?_cons_zero, Option.some.injEq] at hs hb
    subst hs
    subst hb
    decide
  · simp at hs

set_option maxRecDepth 100000 in
theorem GetObjCMethods_small_big_witness :
    GetObjCMethods slidImage 0 4152 = (.ok exMethods, 20) ∧
      GetObjCMethods slidImage 0 4312 = (.ok relMethods, 20) ∧
      exMethods.length = relMethods.length ∧
      ∀ (i : Nat) (s b : Method), exMethods[i]? = some s → relMethods[i]? = some b →
        s.Name = b.Name ∧ s.Types = b.Types ∧
          s.ImpVMAddr = slidImage.convertToVMAddr b.ImpVMAddr :=
  ⟨rfl, rfl,
    GetObjCMethods_small_big slidImage 0 0 4152 4312 56 216
      { EntSizeAndFlags := 2147483660, Count := 2 } { EntSizeAndFlags := 24, Count := 2 }
      64 224 exMethods relMethods 20 20 (by decide) rfl (by decide) (by decide) rfl (by decide)
      rfl slidImage_sameTriples rfl rfl⟩

set_option maxRecDepth 100000 in
/-- C3, at the failing input, a resolver whose conversion of a stored pointer
is not the identity: in the example image read with image-relative pointers, the
small list at file offset 56 and the big list at file offset 216 denote the
same triples and both decode, but the `ImpVMAddr` of their first methods are
4832 (the absolute address) and 736 (the stored pointer). -/
theorem GetObjCMethods_big_raw_pointer_bug :
    slidImage.GetOffset 4152 = some ((56 : Nat) : Int) ∧
      slidImage.binaryRead methodListCodec 56 =
        (.ok { EntSizeAndFlags := 2147483660, Count := 2 }, 64) ∧
      slidImage.objc.IsSmall { EntSizeAndFlags := 2147483660, Count := 2 } = true ∧
      slidImage.GetOffset 4312 = some ((216 : Nat) : Int) ∧
      slidImage.binaryRead methodListCodec 216 =
        (.ok { EntSizeAndFlags := 24, Count := 2 }, 224) ∧
      slidImage.objc.IsSmall { EntSizeAndFlags := 24, Count := 2 } = false ∧
      SameTriples slidImage 56 12 216 2 ∧
      GetObjCMethods slidImage 0 4152 = (.ok exMethods, 20) ∧
      GetObjCMethods slidImage 0 4312 = (.ok relMethods, 20) ∧
      ¬ SameMethods exMethods relMethods := by
  refine ⟨by decide, rfl, by decide, by decide, rfl, by decide, slidImage_sameTriples, rfl, rfl,
    ?_⟩
  intro H
  have h := (H.2 0 _ _ rfl rfl).2.2
  revert h
  decide

/-! ## Classes -/

theorem GetObjCClass_succ (f : File) (fuel cur vmaddr : Nat) :
    GetObjCClass f (fuel + 1) cur vmaddr =
      match classParts f cur vmaddr with
      | (.error e, cur1) => some (.error e, cur1)
      | (.ok p, cur1) =>
        if p.classPtr.SuperclassVMAddr > 0 then
          match GetObjCClass f fuel cur1 (f.convertToVMAddr p.classPtr.SuperclassVMAddr) with
          | none => none
          | some (.ok superClass, cur2) =>
            some (.ok (mkClass f vmaddr p (some superClass)), cur2)
          | some (.error _, cur2) => some (.ok (mkClass f vmaddr p none), cur2)
        else some (.ok (mkClass f vmaddr p none), cur1) :=
  rfl

/-- A class that `GetObjCClass` returns is built from the parts decoded at its
address and some resolution of the superclass. -/
theorem GetObjCClass_ok_inv (f : File) (fuel cur vmaddr : Nat) (c : Class) (cur1 : Nat)
    (h : GetObjCClass f fuel cur vmaddr = some (.ok c, cur1)) :
    ∃ p cur2 sc, classParts f cur vmaddr = (.ok p, cur2) ∧ c = mkClass f vmaddr p sc := by
  cases fuel with
  | zero => cases h
  | succ n =>
    rw [GetObjCClass_succ] at h
    rcases hp : classParts f cur vmaddr with ⟨_ | p, cur2⟩
    · rw [hp] at h
      cases h
    · rw [hp] at h
      dsimp only at h
      split at h
      · split at h
        · cases h
        · cases h
          exact ⟨p, _, _, rfl, rfl⟩
        · cases h
          exact ⟨p, _, _, rfl, rfl⟩
      · cases h
        exact ⟨p, _, _, rfl, rfl⟩

theorem land_two_ne_one (w : Nat) : w &&& 2 ≠ 1 := by
  intro h
  have h1 := congrArg (fun x => x.testBit 0) h
  simp [Nat.testBit_and] at h1

/-- C1: when the class record, the read-only data, the name, the method list
and the ivar list of a class decode and its superclass address is non-zero, a
failure of the recursive `GetObjCClass` call on the superclass (whatever its
error) is dropped: `GetObjCClass` on the class succeeds with `SuperClass` nil,
and its `Name`, `InstanceMethods` and `Ivars` are those it returns when the
superclass resolves. -/
theorem GetObjCClass_superclass_failure (f : File) (fuel cur vmaddr : Nat) (p : ClassParts)
    (cur1 cur2 : Nat) (e : Err)
    (hparts : classParts f cur vmaddr = (.ok p, cur1))
    (hsuper : p.classPtr.SuperclassVMAddr > 0)
    (hfail : GetObjCClass f fuel cur1 (f.convertToVMAddr p.classPtr.SuperclassVMAddr) =
      some (.error e, cur2)) :
    ∃ c, GetObjCClass f (fuel + 1) cur vmaddr = some (.ok c, cur2) ∧
      c.SuperClass = none ∧ c.Name = p.name ∧ c.InstanceMethods = p.methods ∧
      c.Ivars = p.ivars ∧
      ∀ (g : File) (fuel1 cur3 : Nat) (sc : Class),
        classParts g cur vmaddr = (.ok p, cur1) →
        GetObjCClass g fuel1 cur1 (g.convertToVMAddr p.classPtr.SuperclassVMAddr) =
          some (.ok sc, cur3) →
        ∃ d, GetObjCClass g (fuel1 + 1) cur vmaddr = some (.ok d, cur3) ∧
          d.SuperClass = some sc ∧ d.Name = c.Name ∧
          d.InstanceMethods = c.InstanceMethods ∧ d.Ivars = c.Ivars := by
  refine ⟨mkClass f vmaddr p none, ?_, rfl, rfl, rfl, rfl, ?_⟩
  · rw [GetObjCClass_succ, hparts]
    dsimp only
    rw [if_pos hsuper, hfail]
  · intro g fuel1 cur3 sc hg hsc
    refine ⟨mkClass g vmaddr p (some sc), ?_, rfl, rfl, rfl, rfl⟩
    rw [GetObjCClass_succ, hg]
    dsimp only
    rw [if_pos hsuper, hsc]

set_option maxRecDepth 100000 in
theorem GetObjCClass_superclass_failure_witness :
    ∃ c, GetObjCClass exImage 2 0 4552 = some (.ok c, 29) ∧
      c.SuperClass = none ∧ c.Name = "Foo" ∧ c.InstanceMethods = exMethods ∧
      c.Ivars = exFooParts.ivars :=
  match GetObjCClass_superclass_failure exImage 1 0 4552 exFooParts 29 29 .convertVMAddr rfl
      (by decide) rfl with
  | ⟨c, h1, h2, h3, h4, h5, _⟩ => ⟨c, h1, h2, h3, h4, h5⟩

set_option maxRecDepth 100000 in
/-- C7, at the failing input: the class Bar of the example image has the
data-and-flags word 4482, whose bit 1 (`FAST_IS_SWIFT_STABLE`) is set and whose
bit 0 is clear; `GetObjCClass` returns it with `IsSwiftStable` false. -/
theorem GetObjCClass_swift_stable_bug :
    classParts exImage 0 4624 = (.ok exBarParts, 35) ∧
      exBarParts.classPtr.DataVMAddrAndFastFlags = 4482 ∧
      4482 &&& FAST_IS_SWIFT_STABLE = 2 ∧
      GetObjCClass exImage 1 0 4624 = some (.ok (mkClass exImage 4624 exBarParts none), 35) ∧
      (mkClass exImage 4624 exBarParts none).IsSwiftStable = false ∧
      (mkClass exImage 4624 exBarParts none).IsSwiftLegacy = false := by
  refine ⟨rfl, rfl, by decide, rfl, by decide, by decide⟩

/-- C8: for every class that `GetObjCClass` returns, whatever the
data-and-flags word of its class record is, `IsSwiftLegacy` and
`IsSwiftStable` are not both true; and when neither Swift bit of the word is
set, both are false. -/
theorem GetObjCClass_swift_flags (f : File) (fuel cur vmaddr : Nat) (c : Class) (cur1 : Nat)
    (h : GetObjCClass f fuel cur vmaddr = some (.ok c, cur1)) :
    ¬ (c.IsSwiftLegacy = true ∧ c.IsSwiftStable = true) ∧
      ∀ (p : ClassParts) (cur2 : Nat), classParts f cur vmaddr = (.ok p, cur2) →
        p.classPtr.DataVMAddrAndFastFlags &&& FAST_IS_SWIFT_LEGACY = 0 →
        p.classPtr.DataVMAddrAndFastFlags &&& FAST_IS_SWIFT_STABLE = 0 →
        c.IsSwiftLegacy = false ∧ c.IsSwiftStable = false := by
  obtain ⟨p, cur2, sc, hp, hc⟩ := GetObjCClass_ok_inv f fuel cur vmaddr c cur1 h
  subst hc
  have hst : (mkClass f vmaddr p sc).IsSwiftStable = false := by
    show decide (p.classPtr.DataVMAddrAndFastFlags &&& FAST_IS_SWIFT_STABLE = 1) = false
    exact decide_eq_false (land_two_ne_one _)
  refine ⟨?_, ?_⟩
  · rintro ⟨_, h2⟩
    rw [hst] at h2
    cases h2
  · intro q cur3 hq h0 _
    rw [hp] at hq
    cases hq
    refine ⟨?_, hst⟩
    show decide (p.classPtr.DataVMAddrAndFastFlags &&& FAST_IS_SWIFT_LEGACY = 1) = false
    rw [h0]
    rfl

set_option maxRecDepth 100000 in
theorem GetObjCClass_swift_flags_witness :
    GetObjCClass exImage 2 0 4552 = some (.ok (mkClass exImage 4552 exFooParts none), 29) ∧
      ¬ ((mkClass exImage 4552 exFooParts none).IsSwiftLegacy = true ∧
        (mkClass exImage 4552 exFooParts none).IsSwiftStable = true) :=
  ⟨rfl,
    (GetObjCClass_swift_flags exImage 2 0 4552 (mkClass exImage 4552 exFooParts none) 29 rfl).1⟩

/-! ## The class list -/

theorem classesLoop_nil (f : File) (fuel cur : Nat) (acc : List Class) :
    classesLoop f fuel [] cur acc = some (.ok acc, cur) :=
  rfl

theorem classesLoop_cons (f : File) (fuel : Nat) (ptr : Nat) (rest : List Nat) (cur : Nat)
    (acc : List Class) :
    classesLoop f fuel (ptr :: rest) cur acc =
      match GetObjCClass f fuel cur (f.convertToVMAddr ptr) with
      | none => none
      | some (.error _, cur1) => some (.error .classAt, cur1)
      | some (.ok c, cur1) => classesLoop f fuel rest cur1 (acc ++ [c]) :=
  rfl

theorem ClassesDecode_nil (f : File) (fuel cur cur1 : Nat) :
    ClassesDecode f fuel cur [] [] cur1 ↔ cur1 = cur :=
  Iff.rfl

theorem ClassesDecode_cons (f : File) (fuel cur : Nat) (ptr : Nat) (ptrs : List Nat) (c : Class)
    (cs : List Class) (cur1 : Nat) :
    ClassesDecode f fuel cur (ptr :: ptrs) (c :: cs) cur1 ↔
      ∃ cur2, GetObjCClass f fuel cur (f.convertToVMAddr ptr) = some (.ok c, cur2) ∧
        ClassesDecode f fuel cur2 ptrs cs cur1 :=
  Iff.rfl

theorem ClassesDecode_length (f : File) (fuel : Nat) (ptrs : List Nat) (cur : Nat)
    (cs : List Class) (cur1 : Nat) (h : ClassesDecode f fuel cur ptrs cs cur1) :
    cs.length = ptrs.length := by
  induction ptrs generalizing cur cs with
  | nil =>
    cases cs with
    | nil => rfl
    | cons c cs => exact h.elim
  | cons ptr ptrs ih =>
    cases cs with
    | nil => exact h.elim
    | cons c cs =>
      obtain ⟨cur2, _, h2⟩ := (ClassesDecode_cons f fuel cur ptr ptrs c cs cur1).1 h
      simp [ih cur2 cs h2]

theorem classesLoop_ok_iff (f : File) (fuel : Nat) (ptrs : List Nat) (cur : Nat)
    (acc cs : List Class) (cur1 : Nat) :
    classesLoop f fuel ptrs cur acc = some (.ok cs, cur1) ↔
      ∃ new, cs = acc ++ new ∧ ClassesDecode f fuel cur ptrs new cur1 := by
  induction ptrs generalizing cur acc with
  | nil =>
    rw [classesLoop_nil]
    constructor
    · intro h
      cases h
      exact ⟨[], by simp, rfl⟩
    · rintro ⟨new, h1, h2⟩
      cases new with
      | nil =>
        have h3 : cur1 = cur := h2
        subst h3
        simp [h1]
      | cons c cs => exact h2.elim
  | cons ptr rest ih =>
    rw [classesLoop_cons]
    rcases hc : GetObjCClass f fuel cur (f.convertToVMAddr ptr) with _ | ⟨_ | c, cur2⟩
    · constructor
      · intro h
        cases h
      · rintro ⟨new, _, h2⟩
        cases new with
        | nil => exact h2.elim
        | cons d ds =>
          obtain ⟨cur3, h3, _⟩ := (ClassesDecode_cons f fuel cur ptr rest d ds cur1).1 h2
          rw [hc] at h3
          cases h3
    · constructor
      · intro h
        cases h
      · rintro ⟨new, _, h2⟩
        cases new with
        | nil => exact h2.elim
        | cons d ds =>
          obtain ⟨cur3, h3, _⟩ := (ClassesDecode_cons f fuel cur ptr rest d ds cur1).1 h2
          rw [hc] at h3
          cases h3
    · dsimp only
      rw [ih]
      constructor
      · rintro ⟨new, h1, h2⟩
        refine ⟨c :: new, by simp [h1], ?_⟩
        exact (ClassesDecode_cons f fuel cur ptr rest c new cur1).2 ⟨cur2, hc, h2⟩
      · rintro ⟨new, h1, h2⟩
        cases new with
        | nil => exact h2.elim
        | cons d ds =>
          obtain ⟨cur3, h3, h4⟩ := (ClassesDecode_cons f fuel cur ptr rest d ds cur1).1 h2
          rw [hc] at h3
          cases h3
          exact ⟨ds, by simp [h1], h4⟩

theorem classesLoop_error_of_entry (f : File) (fuel : Nat) (pre : List Nat) (p : Nat)
    (post : List Nat) (cur : Nat) (acc cs : List Class) (cur1 : Nat) (e : Err) (cur2 : Nat)
    (hpre : ClassesDecode f fuel cur pre cs cur1)
    (hfail : GetObjCClass f fuel cur1 (f.convertToVMAddr p) = some (.error e, cur2)) :
    classesLoop f fuel (pre ++ p :: post) cur acc = some (.error .classAt, cur2) := by
  induction pre generalizing cur acc cs with
  | nil =>
    cases cs with
    | nil =>
      have h3 : cur1 = cur := hpre
      subst h3
      rw [List.nil_append, classesLoop_cons, hfail]
    | cons c cs => exact hpre.elim
  | cons x rest ih =>
    cases cs with
    | nil => exact hpre.elim
    | cons c cs =>
      obtain ⟨cur3, h3, h4⟩ := (ClassesDecode_cons f fuel cur x rest c cs cur1).1 hpre
      rw [List.cons_append, classesLoop_cons, h3]
      exact ih cur3 _ cs h4

theorem Section.Data_ok_length (f : File) (sec : Section) (dat : List Nat)
    (h : sec.Data f = .ok dat) : dat.length = sec.Size := by
  unfold Section.Data at h
  split at h
  · rename_i hl
    cases h
    exact hl
  · cases h

theorem readPointers_ok (o : ByteOrder) (dat : List Nat) (n : Nat) (h : n * 8 ≤ dat.length) :
    readPointers o dat n = .ok ((chunks 8 n (dat.take (n * 8))).map (decodeUint o)) := by
  unfold readPointers
  rw [if_pos (by rw [List.length_take]; omega)]

/-- C10: for an image whose `__objc_classlist` section (the one the search
over the `__DATA` segments finds) has size `S` and readable data, the section
holds `S / 8` pointers; `GetObjCClasses` returns an error when the decode of
one of them fails after the ones before it decoded, and it returns a list
exactly when every pointer decodes, the list being the `S / 8` decodes in
section order. -/
theorem GetObjCClasses_all_or_error (f : File) (fuel cur : Nat) (sec : Section)
    (dat : List Nat)
    (hsec : dataSection f "__objc_classlist" f.Segs = some sec)
    (hdat : sec.Data f = .ok dat) :
    ∃ ptrs, ptrs = (chunks 8 (sec.Size / 8) (dat.take (sec.Size / 8 * 8))).map
        (decodeUint f.ByteOrder) ∧
      ptrs.length = sec.Size / 8 ∧
      (∀ pre p post cs cur1 e cur2, ptrs = pre ++ p :: post →
        ClassesDecode f fuel cur pre cs cur1 →
        GetObjCClass f fuel cur1 (f.convertToVMAddr p) = some (.error e, cur2) →
        GetObjCClasses f fuel cur = some (.error .classAt, cur2)) ∧
      (∀ cs cur1, GetObjCClasses f fuel cur = some (.ok cs, cur1) ↔
        ClassesDecode f fuel cur ptrs cs cur1) ∧
      (∀ cs cur1, GetObjCClasses f fuel cur = some (.ok cs, cur1) →
        cs.length = sec.Size / 8) := by
  have hlen := Section.Data_ok_length f sec dat hdat
  have hptrs := readPointers_ok f.ByteOrder dat (sec.Size / 8) (by omega)
  have hrun : GetObjCClasses f fuel cur =
      classesLoop f fuel ((chunks 8 (sec.Size / 8) (dat.take (sec.Size / 8 * 8))).map
        (decodeUint f.ByteOrder)) cur [] := by
    unfold GetObjCClasses
    rw [hsec]
    dsimp only
    rw [hdat]
    dsimp only
    rw [hptrs]
  have hiff : ∀ cs cur1, GetObjCClasses f fuel cur = some (.ok cs, cur1) ↔
      ClassesDecode f fuel cur ((chunks 8 (sec.Size / 8) (dat.take (sec.Size / 8 * 8))).map
        (decodeUint f.ByteOrder)) cs cur1 := by
    intro cs cur1
    rw [hrun, classesLoop_ok_iff]
    constructor
    · rintro ⟨new, h1, h2⟩
      rw [List.nil_append] at h1
      subst h1
      exact h2
    · intro h
      exact ⟨cs, by simp, h⟩
  refine ⟨_, rfl, by simp [chunks_length], ?_, hiff, ?_⟩
  · intro pre p post cs cur1 e cur2 hsplit hpre hfail
    rw [hrun, hsplit]
    exact classesLoop_error_of_entry f fuel pre p post cur [] cs cur1 e cur2 hpre hfail
  · intro cs cur1 h
    have := ClassesDecode_length f fuel _ cur cs cur1 ((hiff cs cur1).1 h)
    simpa [chunks_length] using this

set_option maxRecDepth 100000 in
theorem GetObjCClasses_all_or_error_witness :
    GetObjCClasses exImage 2 0 =
        some (.ok [mkClass exImage 4552 exFooParts none, mkClass exImage 4624 exBarParts none],
          35) ∧
      [mkClass exImage 4552 exFooParts none, mkClass exImage 4624 exBarParts none].length =
        exClasslist.Size / 8 :=
  ⟨rfl,
    match GetObjCClasses_all_or_error exImage 2 0 exClasslist ((exStore.drop 696).take 20)
        rfl rfl with
    | ⟨_, _, _, _, _, h⟩ => h _ 35 rfl⟩

/-! ## Protocols -/

theorem protocolsLoop_cons (f : File) (ptr : Nat) (rest : List Nat) (cur : Nat)
    (protocols : List Protocol) :
    protocolsLoop f (ptr :: rest) cur protocols =
      match protocolEntry f cur ptr with
      | (.error e, cur1) => (.error e, cur1)
      | (.ok proto, cur1) => protocolsLoop f rest cur1 (protocols ++ [proto]) :=
  rfl

theorem protocolMethods_zero (f : File) (cur : Nat) : protocolMethods f cur 0 = (.ok [], cur) :=
  rfl

theorem protocolProperties_zero (f : File) (cur : Nat) :
    protocolProperties f cur 0 = (.ok [], cur) :=
  rfl

theorem protocolString_zero (f : File) (e : Err) (cur : Nat) :
    protocolString f e cur 0 = (.ok "", cur) :=
  rfl

/-- C9: a protocol record whose name string is readable and whose five list
addresses and two string addresses are all zero decodes to a protocol with
the five lists empty and the two strings empty.  The decode uses the resolver
and the reader only for the record and the name (the reader is left where the
name read left it), so it cannot fail on account of the seven fields, and the
loop of `GetObjCProtocols` goes on with this protocol appended. -/
theorem protocolEntry_all_absent (f : File) (cur ptr : Nat) (off : Int) (protoPtr : ProtocolT)
    (cur1 : Nat) (name : String)
    (hoff : f.GetOffset (f.convertToVMAddr ptr) = some off)
    (hrec : f.binaryRead f.objc.protocolCodec (seek cur off) = (.ok protoPtr, cur1))
    (hname : f.GetCString (f.convertToVMAddr protoPtr.NameVMAddr) = some name)
    (h1 : protoPtr.InstanceMethodsVMAddr = 0)
    (h2 : protoPtr.ClassMethodsVMAddr = 0)
    (h3 : protoPtr.OptionalInstanceMethodsVMAddr = 0)
    (h4 : protoPtr.OptionalClassMethodsVMAddr = 0)
    (h5 : protoPtr.InstancePropertiesVMAddr = 0)
    (h6 : protoPtr.ExtendedMethodTypesVMAddr = 0)
    (h7 : protoPtr.DemangledNameVMAddr = 0) :
    protocolEntry f cur ptr =
        (.ok
          { Name := name, InstanceMethods := [], ClassMethods := []
            OptionalInstanceMethods := [], OptionalClassMethods := []
            InstanceProperties := [], ExtendedMethodTypes := "", DemangledName := ""
            ProtocolT := protoPtr },
          f.GetCStringCursor (f.convertToVMAddr protoPtr.NameVMAddr) cur1) ∧
      ∀ (rest : List Nat) (protocols : List Protocol),
        protocolsLoop f (ptr :: rest) cur protocols =
          protocolsLoop f rest (f.GetCStringCursor (f.convertToVMAddr protoPtr.NameVMAddr) cur1)
            (protocols ++
              [{ Name := name, InstanceMethods := [], ClassMethods := []
                 OptionalInstanceMethods := [], OptionalClassMethods := []
                 InstanceProperties := [], ExtendedMethodTypes := "", DemangledName := ""
                 ProtocolT := protoPtr }]) := by
  have hentry : protocolEntry f cur ptr =
      (.ok
        { Name := name, InstanceMethods := [], ClassMethods := []
          OptionalInstanceMethods := [], OptionalClassMethods := []
          InstanceProperties := [], ExtendedMethodTypes := "", DemangledName := ""
          ProtocolT := protoPtr },
        f.GetCStringCursor (f.convertToVMAddr protoPtr.NameVMAddr) cur1) := by
    unfold protocolEntry
    rw [hoff]
    dsimp only
    rw [hrec]
    dsimp only
    rw [hname]
    dsimp only
    rw [h1, h2, h3, h4, h5, h6, h7]
    simp only [protocolMethods_zero, protocolProperties_zero, protocolString_zero, Out.andThen]
  refine ⟨hentry, ?_⟩
  intro rest protocols
  rw [protocolsLoop_cons, hentry]

set_option maxRecDepth 100000 in
theorem protocolEntry_all_absent_witness :
    exImage.GetOffset (exImage.convertToVMAddr 0) = none ∧
      protocolEntry exImage 0 4696 = (.ok exProtocol, 31) ∧
      GetObjCProtocols exImage 0 = (.ok [exProtocol], 31) :=
  ⟨by decide,
    (protocolEntry_all_absent exImage 0 4696 600 exProtocol.ProtocolT 696 "P" (by decide) rfl
      rfl rfl rfl rfl rfl rfl rfl rfl).1,
    rfl⟩

/-! ## Image survey -/

theorem EqualFold_iff (s t : String) :
    EqualFold s t = true ↔ s.data.map foldRune = t.data.map foldRune := by
  simp [EqualFold]

theorem EqualFold_excl (s a b : String) (hab : EqualFold a b = false)
    (h : EqualFold s a = true) : EqualFold s b = false := by
  cases hb : EqualFold s b with
  | false => rfl
  | true =>
    rw [EqualFold_iff] at h hb
    have : EqualFold a b = true := by rw [EqualFold_iff, ← h, hb]
    rw [hab] at this
    cases this

theorem infoStep_eq (f : File) (o : Info) (sec : Section)
    (h1 : o.SelRefCount < 18446744073709551616) (h2 : o.ClassDefCount < 18446744073709551616)
    (h3 : o.ProtocolDefCount < 18446744073709551616) :
    infoStep f o sec =
      { SelRefCount :=
          (o.SelRefCount + dataEntries f "__objc_selrefs" sec) % 18446744073709551616
        ClassDefCount :=
          (o.ClassDefCount + dataEntries f "__objc_classlist" sec) % 18446744073709551616
        ProtocolDefCount :=
          (o.ProtocolDefCount + dataEntries f "__objc_protolist" sec) %
            18446744073709551616 } := by
  unfold infoStep dataEntries isDataSection
  by_cases hp : HasPrefix sec.Seg "__DATA" = true
  · rw [if_pos hp]
    by_cases hs : EqualFold sec.Name "__objc_selrefs" = true
    · have e1 := EqualFold_excl sec.Name "__objc_selrefs" "__objc_classlist" (by decide) hs
      have e2 := EqualFold_excl sec.Name "__objc_selrefs" "__objc_protolist" (by decide) hs
      simp [hp, hs, e1, e2, Nat.mod_eq_of_lt h2, Nat.mod_eq_of_lt h3]
    · by_cases hc : EqualFold sec.Name "__objc_classlist" = true
      · have e2 := EqualFold_excl sec.Name "__objc_classlist" "__objc_protolist" (by decide) hc
        simp [hp, hs, hc, e2, Nat.mod_eq_of_lt h1, Nat.mod_eq_of_lt h3]
      · by_cases hq : EqualFold sec.Name "__objc_protolist" = true
        · simp [hp, hs, hc, hq, Nat.mod_eq_of_lt h1, Nat.mod_eq_of_lt h2]
        · simp [hp, hs, hc, hq, Nat.mod_eq_of_lt h1, Nat.mod_eq_of_lt h2,
            Nat.mod_eq_of_lt h3]
  · rw [if_neg hp]
    have hp1 : HasPrefix sec.Seg "__DATA" = false := by simpa using hp
    by_cases hl : f.CPU = CPU386 ∧ EqualFold sec.Name "__OBJC" = true
    · have e1 := EqualFold_excl sec.Name "__OBJC" "__message_refs" (by decide) hl.2
      have e2 := EqualFold_excl sec.Name "__OBJC" "__class" (by decide) hl.2
      have e3 := EqualFold_excl sec.Name "__OBJC" "__protocol" (by decide) hl.2
      simp [hp1, hl, e1, e2, e3, Nat.mod_eq_of_lt h1, Nat.mod_eq_of_lt h2,
        Nat.mod_eq_of_lt h3]
    · rw [if_neg hl]
      simp [hp1, Nat.mod_eq_of_lt h1, Nat.mod_eq_of_lt h2, Nat.mod_eq_of_lt h3]

theorem foldl_infoStep (f : File) (secs : List Section) (o : Info)
    (h1 : o.SelRefCount < 18446744073709551616) (h2 : o.ClassDefCount < 18446744073709551616)
    (h3 : o.ProtocolDefCount < 18446744073709551616) :
    secs.foldl (infoStep f) o =
      { SelRefCount :=
          (o.SelRefCount + (secs.map (dataEntries f "__objc_selrefs")).sum) %
            18446744073709551616
        ClassDefCount :=
          (o.ClassDefCount + (secs.map (dataEntries f "__objc_classlist")).sum) %
            18446744073709551616
        ProtocolDefCount :=
          (o.ProtocolDefCount + (secs.map (dataEntries f "__objc_protolist")).sum) %
            18446744073709551616 } := by
  induction secs generalizing o with
  | nil => simp [Nat.mod_eq_of_lt h1, Nat.mod_eq_of_lt h2, Nat.mod_eq_of_lt h3]
  | cons sec rest ih =>
    rw [List.foldl_cons, infoStep_eq f o sec h1 h2 h3]
    rw [ih _ (Nat.mod_lt _ (by decide)) (Nat.mod_lt _ (by decide)) (Nat.mod_lt _ (by decide))]
    simp only [List.map_cons, List.sum_cons, Nat.mod_add_mod, Nat.add_assoc]

theorem GetObjCInfo_eq (f : File) :
    GetObjCInfo f =
      { SelRefCount :=
          (f.Sections.map (dataEntries f "__objc_selrefs")).sum % 18446744073709551616
        ClassDefCount :=
          (f.Sections.map (dataEntries f "__objc_classlist")).sum % 18446744073709551616
        ProtocolDefCount :=
          (f.Sections.map (dataEntries f "__objc_protolist")).sum % 18446744073709551616 } := by
  unfold GetObjCInfo
  rw [foldl_infoStep f f.Sections _ (by decide) (by decide) (by decide)]
  simp

theorem sum_dataEntries (f : File) (name : String) (secs : List Section) :
    (secs.map (dataEntries f name)).sum =
      ((secs.filter (isDataSection name)).map (fun sec => sec.Size / f.pointerSize)).sum := by
  induction secs with
  | nil => rfl
  | cons sec rest ih =>
    by_cases h : isDataSection name sec = true
    · simp [List.filter_cons, h, dataEntries, ih]
    · simp [List.filter_cons, h, dataEntries, ih]

theorem count_of_single (f : File) (name : String) (sec : Section)
    (h : dataSections f name = [sec]) :
    (f.Sections.map (dataEntries f name)).sum = sec.Size / f.pointerSize := by
  rw [sum_dataEntries]
  unfold dataSections at h
  rw [h]
  simp

theorem count_of_none (f : File) (name : String) (h : dataSections f name = []) :
    (f.Sections.map (dataEntries f name)).sum = 0 := by
  rw [sum_dataEntries]
  unfold dataSections at h
  rw [h]
  rfl

/-- C13 (amended): in a 64-bit image (pointer size 8), when exactly one section of the
table is counted as `__objc_classlist` (a section of a segment whose name
starts with `__DATA`, named `__objc_classlist` up to letter case) and its size
is `S`, `GetObjCInfo` returns `ClassDefCount = S / 8`, the truncating
division; likewise `SelRefCount` for `__objc_selrefs` and `ProtocolDefCount`
for `__objc_protolist`; a count whose section is absent is 0. -/
theorem GetObjCInfo_counts (f : File) (hps : f.pointerSize = 8) :
    (∀ sec, dataSections f "__objc_classlist" = [sec] → sec.Size < 18446744073709551616 →
        (GetObjCInfo f).ClassDefCount = sec.Size / 8) ∧
      (∀ sec, dataSections f "__objc_selrefs" = [sec] → sec.Size < 18446744073709551616 →
        (GetObjCInfo f).SelRefCount = sec.Size / 8) ∧
      (∀ sec, dataSections f "__objc_protolist" = [sec] → sec.Size < 18446744073709551616 →
        (GetObjCInfo f).ProtocolDefCount = sec.Size / 8) ∧
      (dataSections f "__objc_classlist" = [] → (GetObjCInfo f).ClassDefCount = 0) ∧
      (dataSections f "__objc_selrefs" = [] → (GetObjCInfo f).SelRefCount = 0) ∧
      (dataSections f "__objc_protolist" = [] → (GetObjCInfo f).ProtocolDefCount = 0) := by
  rw [GetObjCInfo_eq]
  refine ⟨?_, ?_, ?_, ?_, ?_, ?_⟩
  · intro sec h hS
    show (f.Sections.map (dataEntries f "__objc_classlist")).sum % 18446744073709551616 = _
    rw [count_of_single f _ sec h, hps]
    omega
  · intro sec h hS
    show (f.Sections.map (dataEntries f "__objc_selrefs")).sum % 18446744073709551616 = _
    rw [count_of_single f _ sec h, hps]
    omega
  · intro sec h hS
    show (f.Sections.map (dataEntries f "__objc_protolist")).sum % 18446744073709551616 = _
    rw [count_of_single f _ sec h, hps]
    omega
  · intro h
    show (f.Sections.map (dataEntries f "__objc_classlist")).sum % 18446744073709551616 = _
    rw [count_of_none f _ h]
  · intro h
    show (f.Sections.map (dataEntries f "__objc_selrefs")).sum % 18446744073709551616 = _
    rw [count_of_none f _ h]
  · intro h
    show (f.Sections.map (dataEntries f "__objc_protolist")).sum % 18446744073709551616 = _
    rw [count_of_none f _ h]

set_option maxRecDepth 100000 in
theorem GetObjCInfo_counts_witness :
    exImage.pointerSize = 8 ∧ dataSections exImage "__objc_classlist" = [exClasslist] ∧
      (GetObjCInfo exImage).ClassDefCount = 20 / 8 :=
  ⟨rfl, rfl, (GetObjCInfo_counts exImage rfl).1 exClasslist rfl (by decide)⟩

set_option maxRecDepth 100000 in
/-- C13 fails as stated, for an image with a second section whose name differs
in letter case only: this 64-bit image has one section named
`__objc_classlist`, of 20 bytes, in the segment `__DATA_CONST`, and a section
`__DATA.__OBJC_CLASSLIST` of 8 bytes; `GetObjCInfo` counts both and returns
`ClassDefCount = 3`, not `20 / 8 = 2`. -/
theorem GetObjCInfo_counts_counterexample :
    caseImage.pointerSize = 8 ∧
      caseImage.Sections.filter (fun s => s.Name == "__objc_classlist") = [exClasslist] ∧
      HasPrefix exClasslist.Seg "__DATA" = true ∧ exClasslist.Size = 20 ∧
      (GetObjCInfo caseImage).ClassDefCount = 3 ∧
      (GetObjCInfo caseImage).ClassDefCount ≠ exClasslist.Size / 8 := by
  refine ⟨rfl, by decide, by decide, rfl, by decide, by decide⟩

set_option maxRecDepth 100000 in
/-- C14, at the failing input: an image of the historical 32-bit layout (CPU
386) whose segment `__OBJC` holds a `__class` section of 96 bytes, a
`__protocol` section of 40 bytes and a `__message_refs` section of 12 bytes,
and no `__DATA` segment: `GetObjCInfo` returns the counts 0, 0, 0, not
`96 / 48`, `40 / 20` and `12 / 4`. -/
theorem GetObjCInfo_legacy_bug :
    legacyImage.CPU = CPU386 ∧
      legacyImage.Sections.map (fun sec => (sec.Seg, sec.Name, sec.Size)) =
        [("__OBJC", "__class", 96), ("__OBJC", "__protocol", 40),
          ("__OBJC", "__message_refs", 12)] ∧
      GetObjCInfo legacyImage =
        { SelRefCount := 0, ClassDefCount := 0, ProtocolDefCount := 0 } := by
  refine ⟨rfl, by decide, by decide⟩

theorem dataSection_none_of_absent (f : File) (name : String) (segs : List Segment)
    (h : ∀ s ∈ segs, HasPrefix s.Name "__DATA" = true → f.Section s.Name name = none) :
    dataSection f name segs = none := by
  induction segs with
  | nil => rfl
  | cons s rest ih =>
    have ih1 := ih (fun t ht => h t (List.mem_cons_of_mem _ ht))
    unfold dataSection
    by_cases hp : HasPrefix s.Name "__DATA" = true
    · rw [if_pos hp, h s (List.mem_cons_self _ _) hp]
      exact ih1
    · rw [if_neg hp]
      exact ih1

theorem plusLoadIn_false_of_absent (f : File) (segs : List Segment)
    (h : ∀ s ∈ segs, HasPrefix s.Name "__DATA" = true →
      f.Section s.Name "__objc_nlclslist" = none ∧ f.Section s.Name "__objc_nlcatlist" = none) :
    plusLoadIn f segs = false := by
  induction segs with
  | nil => rfl
  | cons s rest ih =>
    have ih1 := ih (fun t ht => h t (List.mem_cons_of_mem _ ht))
    unfold plusLoadIn
    by_cases hp : HasPrefix s.Name "__DATA" = true
    · obtain ⟨h1, h2⟩ := h s (List.mem_cons_self _ _) hp
      rw [if_pos hp, h1, h2]
      simpa using ih1
    · rw [if_neg hp]
      exact ih1

theorem msgrefsIn_some (f : File) (s : Segment) (n j : Nat)
    (h : j + s.Firstsect + n ≤ f.Sections.length) :
    ∃ b, msgrefsIn f s n j = some b ∧
      ((∀ c ∈ f.Sections, EqualFold "__objc_msgrefs" c.Name = false) → b = false) := by
  induction n generalizing j with
  | zero => exact ⟨false, rfl, fun _ => rfl⟩
  | succ k ih =>
    have hlt : j + s.Firstsect < f.Sections.length := by omega
    have hmod : (j + s.Firstsect) % 4294967296 < f.Sections.length :=
      Nat.lt_of_le_of_lt (Nat.mod_le _ _) hlt
    obtain ⟨b, hb, habs⟩ := ih (j + 1) (by omega)
    unfold msgrefsIn
    rw [List.getElem?_eq_getElem hmod]
    dsimp only
    by_cases he : EqualFold "__objc_msgrefs"
        (f.Sections[(j + s.Firstsect) % 4294967296]).Name = true
    · rw [if_pos he]
      refine ⟨true, rfl, ?_⟩
      intro hall
      rw [hall _ (List.getElem_mem hmod)] at he
      cases he
    · rw [if_neg he]
      exact ⟨b, hb, habs⟩

theorem msgrefsLoop_some (f : File) (segs : List Segment)
    (h : ∀ s ∈ segs, HasPrefix s.Name "__DATA" = true →
      s.Firstsect + s.Nsect ≤ f.Sections.length) :
    ∃ b, msgrefsLoop f segs = some b ∧
      ((∀ c ∈ f.Sections, EqualFold "__objc_msgrefs" c.Name = false) → b = false) := by
  induction segs with
  | nil => exact ⟨false, rfl, fun _ => rfl⟩
  | cons s rest ih =>
    obtain ⟨b, hb, habs⟩ := ih (fun t ht => h t (List.mem_cons_of_mem _ ht))
    unfold msgrefsLoop
    by_cases hp : HasPrefix s.Name "__DATA" = true
    · rw [if_pos hp]
      obtain ⟨b1, hb1, habs1⟩ := msgrefsIn_some f s s.Nsect 0
        (by have := h s (List.mem_cons_self _ _) hp; omega)
      rw [hb1]
      cases b1 with
      | true =>
        refine ⟨true, rfl, ?_⟩
        intro hall
        exact habs1 hall
      | false => exact ⟨b, hb, habs⟩
    · rw [if_neg hp]
      exact ⟨b, hb, habs⟩

/-- C16 (amended): `HasObjC` and `HasPlusLoadMethod` return a boolean for
every image, and `HasObjCMessageReferences` returns one for every image whose
`__DATA` segments name section-index ranges inside the section table; each
returns false when the probed section is absent. -/
theorem probes_return (f : File) :
    (dataSection f "__objc_imageinfo" f.Segs = none →
        (f.CPU = CPU386 → f.Section "__OBJC" "__image_info" = none) → HasObjC f = false) ∧
      ((∀ s ∈ f.Segs, HasPrefix s.Name "__DATA" = true →
          f.Section s.Name "__objc_nlclslist" = none ∧
            f.Section s.Name "__objc_nlcatlist" = none) →
        HasPlusLoadMethod f = false) ∧
      ((∀ s ∈ f.Segs, HasPrefix s.Name "__DATA" = true →
          s.Firstsect + s.Nsect ≤ f.Sections.length) →
        ∃ b, HasObjCMessageReferences f = some b ∧
          ((∀ c ∈ f.Sections, EqualFold "__objc_msgrefs" c.Name = false) → b = false)) := by
  refine ⟨?_, ?_, ?_⟩
  · intro h1 h2
    unfold HasObjC
    rw [h1]
    by_cases hc : f.CPU = CPU386
    · simp [hc, h2 hc]
    · simp [hc]
  · intro h
    exact plusLoadIn_false_of_absent f f.Segs h
  · intro h
    exact msgrefsLoop_some f f.Segs h

set_option maxRecDepth 100000 in
theorem probes_return_witness :
    HasObjC exImage = false ∧ HasPlusLoadMethod exImage = false ∧
      HasObjCMessageReferences exImage = some false :=
  ⟨(probes_return exImage).1 (by decide) (by decide),
    (probes_return exImage).2.1 (by decide),
    match (probes_return exImage).2.2 (by decide) with
    | ⟨b, h1, h2⟩ => by rw [h1, h2 (by decide)]⟩

set_option maxRecDepth 100000 in
/-- C16 fails as stated, for a segment range that reaches outside the section
table: the segment `__DATA` of this image names two sections from index 0 and
the section table holds one, which is not `__objc_msgrefs`;
`HasObjCMessageReferences` indexes the table at 1 and does not return. -/
theorem probes_return_counterexample :
    rangeImage.Segs.map (fun s => (s.Name, s.Firstsect, s.Nsect)) = [("__DATA", 0, 2)] ∧
      rangeImage.Sections.length = 1 ∧
      HasObjCMessageReferences rangeImage = none := by
  refine ⟨by decide, by decide, by decide⟩

/-- C17: an image whose only segment is `__DATA` and whose only section is
`__DATA.__objc_imageinfo`, whatever its size, its CPU kind and its pointer
size, has `HasObjC` true, `HasPlusLoadMethod` false and the three counts of
`GetObjCInfo` equal to 0. -/
theorem only_imageinfo (f : File) (s : Segment) (sec : Section)
    (hsegs : f.Segs = [s]) (hs : s.Name = "__DATA")
    (hsecs : f.Sections = [sec]) (hseg : sec.Seg = "__DATA")
    (hname : sec.Name = "__objc_imageinfo") :
    HasObjC f = true ∧ HasPlusLoadMethod f = false ∧
      GetObjCInfo f = { SelRefCount := 0, ClassDefCount := 0, ProtocolDefCount := 0 } := by
  have hp : HasPrefix "__DATA" "__DATA" = true := by decide
  have hfind : f.Section "__DATA" "__objc_imageinfo" = some sec := by
    simp [File.Section, hsecs, hseg, hname]
  have hno1 : f.Section "__DATA" "__objc_nlclslist" = none := by
    simp [File.Section, hsecs, hseg, hname]
  have hno2 : f.Section "__DATA" "__objc_nlcatlist" = none := by
    simp [File.Section, hsecs, hseg, hname]
  refine ⟨?_, ?_, ?_⟩
  · unfold HasObjC
    rw [hsegs]
    simp [dataSection, hs, hp, hfind]
  · unfold HasPlusLoadMethod
    rw [hsegs]
    simp [plusLoadIn, hs, hp, hno1, hno2]
  · rw [GetObjCInfo_eq, hsecs]
    have e1 : dataEntries f "__objc_selrefs" sec = 0 := by
      simp [dataEntries, isDataSection, hname, show EqualFold "__objc_imageinfo" "__objc_selrefs" = false by decide]
    have e2 : dataEntries f "__objc_classlist" sec = 0 := by
      simp [dataEntries, isDataSection, hname, show EqualFold "__objc_imageinfo" "__objc_classlist" = false by decide]
    have e3 : dataEntries f "__objc_protolist" sec = 0 := by
      simp [dataEntries, isDataSection, hname, show EqualFold "__objc_imageinfo" "__objc_protolist" = false by decide]
    simp [e1, e2, e3]

set_option maxRecDepth 100000 in
theorem only_imageinfo_witness :
    HasObjC { rangeImage with Segs := [{ Name := "__DATA", Firstsect := 0, Nsect := 1 }] } =
        true ∧
      HasPlusLoadMethod
          { rangeImage with Segs := [{ Name := "__DATA", Firstsect := 0, Nsect := 1 }] } =
        false ∧
      GetObjCInfo { rangeImage with Segs := [{ Name := "__DATA", Firstsect := 0, Nsect := 1 }] } =
        { SelRefCount := 0, ClassDefCount := 0, ProtocolDefCount := 0 } :=
  only_imageinfo { rangeImage with Segs := [{ Name := "__DATA", Firstsect := 0, Nsect := 1 }] }
    { Name := "__DATA", Firstsect := 0, Nsect := 1 }
    { Name := "__objc_imageinfo", Seg := "__DATA", Addr := 4096, Size := 8, Offset := 0 }
    rfl rfl rfl rfl rfl

/-! ## Go maps and selector references -/

theorem mapGet_mapSet {κ ν : Type} [DecidableEq κ] (m : List (κ × ν)) (k : κ) (v : ν) (x : κ) :
    mapGet (mapSet m k v) x = if k = x then some v else mapGet m x := by
  induction m with
  | nil => simp [mapSet, mapGet]
  | cons e rest ih =>
    obtain ⟨k1, v1⟩ := e
    unfold mapSet
    by_cases h1 : k1 = k
    · subst h1
      by_cases h2 : k1 = x
      · simp [mapGet, h2]
      · simp [mapGet, h2]
    · rw [if_neg h1]
      by_cases h2 : k1 = x
      · have h3 : ¬ k = x := fun h => h1 (h2.trans h.symm)
        simp [mapGet, h2, h3]
      · simp only [mapGet, if_neg h2, ih]

theorem mem_keys_mapSet {κ ν : Type} [DecidableEq κ] (m : List (κ × ν)) (k : κ) (v : ν) (x : κ) :
    x ∈ (mapSet m k v).map Prod.fst ↔ x = k ∨ x ∈ m.map Prod.fst := by
  induction m with
  | nil => simp [mapSet]
  | cons e rest ih =>
    obtain ⟨k1, v1⟩ := e
    unfold mapSet
    by_cases h1 : k1 = k
    · subst h1
      simp
    · rw [if_neg h1]
      simp only [List.map_cons, List.mem_cons, ih]
      constructor
      · rintro (h | h | h)
        · exact Or.inr (Or.inl h)
        · exact Or.inl h
        · exact Or.inr (Or.inr h)
      · rintro (h | h | h)
        · exact Or.inr (Or.inl h)
        · exact Or.inl h
        · exact Or.inr (Or.inr h)

theorem nodup_keys_mapSet {κ ν : Type} [DecidableEq κ] (m : List (κ × ν)) (k : κ) (v : ν)
    (h : (m.map Prod.fst).Nodup) : ((mapSet m k v).map Prod.fst).Nodup := by
  induction m with
  | nil => simp [mapSet]
  | cons e rest ih =>
    obtain ⟨k1, v1⟩ := e
    simp only [List.map_cons, List.nodup_cons] at h
    unfold mapSet
    by_cases h1 : k1 = k
    · subst h1
      simp only [if_true, List.map_cons, List.nodup_cons]
      exact h
    · rw [if_neg h1]
      simp only [List.map_cons, List.nodup_cons, mem_keys_mapSet]
      refine ⟨?_, ih h.2⟩
      rintro (h2 | h2)
      · exact h1 h2
      · exact h.1 h2

theorem selRefsLoop_nil (f : File) (cur : Nat) (m : List (Nat × String)) :
    selRefsLoop f [] cur m = (.ok m, cur) :=
  rfl

theorem selRefsLoop_cons (f : File) (sel : Nat) (rest : List Nat) (cur : Nat)
    (m : List (Nat × String)) :
    selRefsLoop f (sel :: rest) cur m =
      match f.GetCString (f.convertToVMAddr sel) with
      | none => (.error .cstring, f.GetCStringCursor (f.convertToVMAddr sel) cur)
      | some selName =>
        selRefsLoop f rest (f.GetCStringCursor (f.convertToVMAddr sel) cur)
          (mapSet m (f.convertToVMAddr sel) selName) :=
  rfl

/-- When every pointer resolves to a string, the loop of
`GetObjCSelectorReferences` returns a map: its keys are the keys it had
before and the converted pointers, each converted pointer being mapped to the
string at that address. -/
theorem selRefsLoop_ok (f : File) (ptrs : List Nat) (cur : Nat) (m0 : List (Nat × String))
    (hres : ∀ sel ∈ ptrs, ∃ s, f.GetCString (f.convertToVMAddr sel) = some s)
    (hnd : (m0.map Prod.fst).Nodup) :
    ∃ m cur1, selRefsLoop f ptrs cur m0 = (.ok m, cur1) ∧
      (∀ k, mapGet m k =
        if k ∈ ptrs.map f.convertToVMAddr then f.GetCString k else mapGet m0 k) ∧
      (m.map Prod.fst).Nodup ∧
      (∀ k, k ∈ m.map Prod.fst ↔ k ∈ m0.map Prod.fst ∨ k ∈ ptrs.map f.convertToVMAddr) := by
  induction ptrs generalizing cur m0 with
  | nil => exact ⟨m0, cur, rfl, by simp, hnd, by simp⟩
  | cons sel rest ih =>
    obtain ⟨s, hs⟩ := hres sel (List.mem_cons_self _ _)
    obtain ⟨m, cur1, hrun, hget, hnd1, hkeys⟩ :=
      ih (f.GetCStringCursor (f.convertToVMAddr sel) cur)
        (mapSet m0 (f.convertToVMAddr sel) s)
        (fun x hx => hres x (List.mem_cons_of_mem _ hx)) (nodup_keys_mapSet m0 _ s hnd)
    refine ⟨m, cur1, ?_, ?_, hnd1, ?_⟩
    · rw [selRefsLoop_cons, hs]
      exact hrun
    · intro k
      rw [hget k, mapGet_mapSet]
      by_cases h1 : k ∈ rest.map f.convertToVMAddr
      · simp [h1]
      · by_cases h2 : f.convertToVMAddr sel = k
        · subst h2
          simp [h1, hs]
        · have h3 : ¬ k = f.convertToVMAddr sel := fun h => h2 h.symm
          simp [h1, h2, h3]
    · intro k
      rw [hkeys k, mem_keys_mapSet]
      simp only [List.map_cons, List.mem_cons]
      constructor
      · rintro ((h | h) | h)
        · exact Or.inr (Or.inl h)
        · exact Or.inl h
        · exact Or.inr (Or.inr h)
      · rintro (h | h | h)
        · exact Or.inl (Or.inr h)
        · exact Or.inl (Or.inl h)
        · exact Or.inr h

/-- The run of `GetObjCSelectorReferences` on a section of `8 * N + r` bytes
with `r < 8` whose data is readable: the loop over the `N` full slots. -/
theorem GetObjCSelectorReferences_run (f : File) (cur : Nat) (sec : Section) (dat : List Nat)
    (N r : Nat) (hsec : dataSection f "__objc_selrefs" f.Segs = some sec)
    (hdat : sec.Data f = .ok dat) (hsize : sec.Size = 8 * N + r) (hr : r < 8) :
    GetObjCSelectorReferences f cur =
      selRefsLoop f ((chunks 8 N (dat.take (N * 8))).map (decodeUint f.ByteOrder)) cur [] := by
  have hlen := Section.Data_ok_length f sec dat hdat
  have hN : sec.Size / 8 = N := by omega
  have hptrs := readPointers_ok f.ByteOrder dat (sec.Size / 8) (by omega)
  unfold GetObjCSelectorReferences
  rw [hsec]
  dsimp only
  rw [hdat]
  dsimp only
  rw [hptrs, hN]

theorem length_of_nodup_of_mem_iff (ks l : List Nat) (hnd : ks.Nodup)
    (hmem : ∀ k, k ∈ ks ↔ k ∈ l) : ks.length = l.dedup.length := by
  rw [← List.toFinset_card_of_nodup hnd, ← List.card_toFinset]
  congr 1
  ext k
  simp [hmem k]

/-- C11 (amended): for an image whose `__objc_selrefs` section has size
exactly `8 * N` and readable data and all of whose selector pointers resolve
to readable strings, `GetObjCSelectorReferences` returns a map with one entry
for each distinct absolute address among the `N` slots: at most `N` entries,
and exactly `N` when the `N` addresses are pairwise distinct. -/
theorem GetObjCSelectorReferences_count (f : File) (cur : Nat) (sec : Section)
    (dat : List Nat) (N : Nat)
    (hsec : dataSection f "__objc_selrefs" f.Segs = some sec)
    (hdat : sec.Data f = .ok dat) (hsize : sec.Size = 8 * N)
    (hres : ∀ sel ∈ (chunks 8 N (dat.take (N * 8))).map (decodeUint f.ByteOrder),
      f.GetCString (f.convertToVMAddr sel) ≠ none) :
    ∃ m cur1, GetObjCSelectorReferences f cur = (.ok m, cur1) ∧
      m.length =
        (((chunks 8 N (dat.take (N * 8))).map (decodeUint f.ByteOrder)).map
          f.convertToVMAddr).dedup.length ∧
      m.length ≤ N ∧
      ((((chunks 8 N (dat.take (N * 8))).map (decodeUint f.ByteOrder)).map
          f.convertToVMAddr).Nodup → m.length = N) := by
  obtain ⟨m, cur1, hrun, _, hnd, hkeys⟩ := selRefsLoop_ok f _ cur []
    (fun sel hsel => Option.ne_none_iff_exists'.1 (hres sel hsel)) (by simp)
  have hlen : m.length =
      (((chunks 8 N (dat.take (N * 8))).map (decodeUint f.ByteOrder)).map
        f.convertToVMAddr).dedup.length := by
    have := length_of_nodup_of_mem_iff (m.map Prod.fst)
      (((chunks 8 N (dat.take (N * 8))).map (decodeUint f.ByteOrder)).map f.convertToVMAddr)
      hnd (fun k => by rw [hkeys k]; simp)
    rw [List.length_map] at this
    exact this
  have hN : (((chunks 8 N (dat.take (N * 8))).map (decodeUint f.ByteOrder)).map
      f.convertToVMAddr).length = N := by simp [chunks_length]
  refine ⟨m, cur1, ?_, hlen, ?_, ?_⟩
  · rw [GetObjCSelectorReferences_run f cur sec dat N 0 hsec hdat (by omega) (by omega)]
    exact hrun
  · have hle := (List.dedup_sublist (((chunks 8 N (dat.take (N * 8))).map
      (decodeUint f.ByteOrder)).map f.convertToVMAddr)).length_le
    rw [hN] at hle
    rw [hlen]
    exact hle
  · intro hnd1
    rw [hlen, List.Nodup.dedup hnd1, hN]

set_option maxRecDepth 100000 in
theorem GetObjCSelectorReferences_count_witness :
    GetObjCSelectorReferences exImage 0 = (.ok [(4108, "bar"), (4116, "baz")], 24) ∧
      ∃ m cur1, GetObjCSelectorReferences exImage 0 = (.ok m, cur1) ∧ m.length ≤ 2 :=
  ⟨rfl,
    match GetObjCSelectorReferences_count exImage 0
        { Name := "__objc_selrefs", Seg := "__DATA", Addr := 4136, Size := 16, Offset := 40 }
        ((exStore.drop 40).take 16) 2 rfl rfl rfl (by decide) with
    | ⟨m, cur1, h1, _, h3, _⟩ => ⟨m, cur1, h1, h3⟩⟩

set_option maxRecDepth 100000 in
/-- C11 fails as stated, for a section that holds the same pointer twice: the
`__objc_selrefs` section of this image has size `8 * 2`, its data is readable
and both slots hold the address 4096 of a readable string; the map that
`GetObjCSelectorReferences` returns has one entry, not two. -/
theorem GetObjCSelectorReferences_count_counterexample :
    dataSection dupSelImage "__objc_selrefs" dupSelImage.Segs = some dupSelrefs ∧
      dupSelrefs.Size = 8 * 2 ∧
      dupSelrefs.Data dupSelImage = .ok ((dupSelStore.drop 8).take 16) ∧
      (chunks 8 2 (((dupSelStore.drop 8).take 16).take (2 * 8))).map
          (decodeUint dupSelImage.ByteOrder) = [4096, 4096] ∧
      dupSelImage.GetCString (dupSelImage.convertToVMAddr 4096) = some "bar" ∧
      GetObjCSelectorReferences dupSelImage 0 = (.ok [(4096, "bar")], 0) ∧
      [((4096 : Nat), "bar")].length ≠ 2 := by
  refine ⟨rfl, rfl, rfl, by decide, by decide, rfl, by decide⟩

/-- C12: for an image whose `__objc_selrefs` section has size `8 * N + r` with
`0 < r < 8` and readable data, and whose first `N` slot values resolve to
readable strings, `GetObjCSelectorReferences` succeeds; the keys of the map
it returns are exactly the absolute addresses of the first `N` full slots,
each mapped to the C string at that address.  The `r` trailing bytes give no
entry and no error. -/
theorem GetObjCSelectorReferences_partial_slot (f : File) (cur : Nat) (sec : Section)
    (dat : List Nat) (N r : Nat)
    (hsec : dataSection f "__objc_selrefs" f.Segs = some sec)
    (hdat : sec.Data f = .ok dat) (hsize : sec.Size = 8 * N + r) (_hr0 : 0 < r) (hr8 : r < 8)
    (hres : ∀ sel ∈ (chunks 8 N (dat.take (N * 8))).map (decodeUint f.ByteOrder),
      f.GetCString (f.convertToVMAddr sel) ≠ none) :
    ((chunks 8 N (dat.take (N * 8))).map (decodeUint f.ByteOrder)).length = N ∧
      ∃ m cur1, GetObjCSelectorReferences f cur = (.ok m, cur1) ∧
        ∀ k v, mapGet m k = some v ↔
          ((∃ sel ∈ (chunks 8 N (dat.take (N * 8))).map (decodeUint f.ByteOrder),
              k = f.convertToVMAddr sel) ∧
            f.GetCString k = some v) := by
  obtain ⟨m, cur1, hrun, hget, _, _⟩ := selRefsLoop_ok f _ cur []
    (fun sel hsel => Option.ne_none_iff_exists'.1 (hres sel hsel)) (by simp)
  refine ⟨by simp [chunks_length], m, cur1, ?_, ?_⟩
  · rw [GetObjCSelectorReferences_run f cur sec dat N r hsec hdat hsize hr8]
    exact hrun
  · intro k v
    rw [hget k]
    by_cases hk : k ∈ ((chunks 8 N (dat.take (N * 8))).map (decodeUint f.ByteOrder)).map
        f.convertToVMAddr
    · rw [if_pos hk]
      constructor
      · intro h
        obtain ⟨sel, hsel, rfl⟩ := List.mem_map.1 hk
        exact ⟨⟨sel, hsel, rfl⟩, h⟩
      · intro h
        exact h.2
    · rw [if_neg hk]
      constructor
      · intro h
        cases h
      · rintro ⟨⟨sel, hsel, rfl⟩, _⟩
        exact absurd (List.mem_map.2 ⟨sel, hsel, rfl⟩) hk

set_option maxRecDepth 100000 in
theorem GetObjCSelectorReferences_partial_slot_witness :
    GetObjCSelectorReferences { exImage with Sections := [{ exClasslist with
        Name := "__objc_selrefs", Seg := "__DATA", Size := 20, Offset := 40 }] } 0 =
      (.ok [(4108, "bar"), (4116, "baz")], 24) ∧
    ∃ m cur1, GetObjCSelectorReferences { exImage with Sections := [{ exClasslist with
        Name := "__objc_selrefs", Seg := "__DATA", Size := 20, Offset := 40 }] } 0 =
      (.ok m, cur1) ∧ mapGet m 4116 = some "baz" :=
  ⟨rfl,
    match (GetObjCSelectorReferences_partial_slot
        { exImage with Sections := [{ exClasslist with
            Name := "__objc_selrefs", Seg := "__DATA", Size := 20, Offset := 40 }] } 0
        { exClasslist with Name := "__objc_selrefs", Seg := "__DATA", Size := 20, Offset := 40 }
        ((exStore.drop 40).take 20) 2 4 rfl rfl rfl (by decide) (by decide) (by decide)).2 with
    | ⟨m, cur1, h1, h2⟩ => ⟨m, cur1, h1, (h2 4116 "baz").2 ⟨⟨4116, by decide, rfl⟩, rfl⟩⟩⟩

/-! ## Superclass chains and method pointers -/

/-- C18: in a well-formed image, where the class at `vmaddr` and its ancestors
all decode, each has a non-empty name and the superclass chain reaches a zero
superclass address after `n` links, `GetObjCClass` returns with every fuel
above `n` (the recursion descends along the chain, one unit of fuel per
link), always the same class, and the name of that class is non-empty. -/
theorem GetObjCClass_terminates (f : File) (n cur vmaddr : Nat)
    (h : SuperChain f n cur vmaddr) :
    ∃ c cur1, (∀ fuel, n < fuel → GetObjCClass f fuel cur vmaddr = some (.ok c, cur1)) ∧
      c.Name ≠ "" := by
  induction n generalizing cur vmaddr with
  | zero =>
    obtain ⟨p, cur1, hp, hname, hsuper⟩ := h
    refine ⟨mkClass f vmaddr p none, cur1, ?_, hname⟩
    intro fuel hfuel
    obtain ⟨k, rfl⟩ : ∃ k, fuel = k + 1 := ⟨fuel - 1, by omega⟩
    rw [GetObjCClass_succ, hp]
    dsimp only
    rw [if_neg (by omega)]
  | succ m ih =>
    obtain ⟨p, cur1, hp, hname, hsuper, hrest⟩ := h
    obtain ⟨sc, cur2, hsc, _⟩ := ih cur1 _ hrest
    refine ⟨mkClass f vmaddr p (some sc), cur2, ?_, hname⟩
    intro fuel hfuel
    obtain ⟨k, rfl⟩ : ∃ k, fuel = k + 1 := ⟨fuel - 1, by omega⟩
    rw [GetObjCClass_succ, hp]
    dsimp only
    rw [if_pos hsuper, hsc k (by omega)]

set_option maxRecDepth 100000 in
theorem GetObjCClass_terminates_witness :
    SuperChain chainImage 1 0 4840 ∧
      ∃ c cur1, (∀ fuel, 1 < fuel → GetObjCClass chainImage fuel 0 4840 = some (.ok c, cur1)) ∧
        c.Name ≠ "" :=
  have hchain : SuperChain chainImage 1 0 4840 :=
    ⟨{ exFooParts with
        off := 744
        classPtr := { exFooParts.classPtr with SuperclassVMAddr := 4624 } },
      29, rfl, by decide, by decide, exBarParts, 35, rfl, by decide, rfl⟩
  ⟨hchain, GetObjCClass_terminates chainImage 1 0 4840 hchain⟩

theorem chunks_getElem (size n : Nat) (bs : List Nat) (i : Nat) (h : i < n) :
    (chunks size n bs)[i]? = some ((bs.drop (size * i)).take size) := by
  induction n generalizing bs i with
  | zero => omega
  | succ k ih =>
    cases i with
    | zero => simp [chunks]
    | succ j =>
      simp only [chunks, List.getElem?_cons_succ]
      rw [ih (bs.drop size) j (by omega), List.drop_drop]
      congr 3
      ring

theorem bigEntriesAt_imp (f : File) (p n i : Nat) (e : MethodT)
    (h : (bigEntriesAt f p n)[i]? = some e) :
    e.ImpVMAddr = u64At f (p + 24 * i + 16) := by
  have hi : i < n := by
    by_contra hc
    rw [List.getElem?_eq_none (by rw [bigEntriesAt_length]; omega)] at h
    cases h
  unfold bigEntriesAt at h
  rw [List.getElem?_map, chunks_getElem 24 n _ i hi] at h
  simp only [Option.map_some', Option.some.injEq] at h
  subst h
  show decodeUint f.ByteOrder _ = decodeUint f.ByteOrder _
  congr 1
  apply List.ext_getElem?
  intro j
  simp only [List.getElem?_take, List.getElem?_drop]
  by_cases hj : j < 8
  · have h1 : 16 + j < 24 := by omega
    have h2 : 24 * i + (16 + j) < n * 24 := by omega
    simp only [hj, h1, h2, if_true]
    congr 1
    omega
  · simp [hj]

/-- C19 (amended): for every method returned by `GetObjCMethods` from a big
list whose header is at file offset `h`, `Pointer.Offset` is the file offset
of the implementation itself: the translation of the converted pointer that
the slot at `h + 8 + 24 * i + 16` stores, and `Pointer.VMAdder` is that stored
pointer. -/
theorem GetObjCMethods_big_pointer (f : File) (cur vmAddr h : Nat) (ml : MethodList)
    (c1 : Nat) (ms : List Method) (cur1 : Nat)
    (hoff : f.GetOffset vmAddr = some (h : Int))
    (hhdr : f.binaryRead methodListCodec h = (.ok ml, c1))
    (hs : f.objc.IsSmall ml = false)
    (hok : GetObjCMethods f cur vmAddr = (.ok ms, cur1)) :
    ms.length = ml.Count ∧
      ∀ (i : Nat) (r : Method), ms[i]? = some r →
        r.Pointer.VMAdder = u64At f (h + 8 + 24 * i + 16) ∧
        f.GetOffset (f.convertToVMAddr (u64At f (h + 8 + 24 * i + 16))) =
          some r.Pointer.Offset := by
  have hlength := GetObjCMethods_ok_length f cur vmAddr ms cur1 h ml c1 hok hoff
    (by rw [seek_natCast]; exact hhdr)
  refine ⟨hlength, ?_⟩
  intro i r hr
  obtain ⟨e, he⟩ := getElem?_of_length_eq ms (bigEntriesAt f (h + 8) ml.Count) i r
    (by rw [hlength, bigEntriesAt_length]) hr
  obtain ⟨q, hq, _, _, b3, _, _, _, b7⟩ :=
    GetObjCMethods_big_entries f cur vmAddr h ml c1 ms cur1 hoff hhdr hs hok i e he
  rw [hr] at hq
  cases hq
  have himp := bigEntriesAt_imp f (h + 8) ml.Count i e he
  rw [himp] at b3 b7
  exact ⟨b7, b3⟩

set_option maxRecDepth 100000 in
theorem GetObjCMethods_big_pointer_witness :
    GetObjCMethods exImage 0 4216 = (.ok exBigMethods, 20) ∧
      ∀ (i : Nat) (r : Method), exBigMethods[i]? = some r →
        r.Pointer.VMAdder = u64At exImage (120 + 8 + 24 * i + 16) ∧
        exImage.GetOffset (exImage.convertToVMAddr (u64At exImage (120 + 8 + 24 * i + 16))) =
          some r.Pointer.Offset :=
  ⟨rfl,
    (GetObjCMethods_big_pointer exImage 0 4216 120 { EntSizeAndFlags := 24, Count := 2 } 128
      exBigMethods 20 (by decide) rfl (by decide) rfl).2⟩

set_option maxRecDepth 100000 in
/-- C19 fails as stated, in both encodings: in the example image the small
list at file offset 56 decodes to methods whose `Pointer.Offset` are the
stored relative offsets 664 and 656, not the slot offsets 72 and 84, and the
big list at file offset 120 decodes to methods whose `Pointer.Offset` are the
file offsets 736 and 740 of the implementations, not the slot offsets 144 and
168. -/
theorem GetObjCMethods_pointer_counterexample :
    exImage.GetOffset 4152 = some ((56 : Nat) : Int) ∧
      exImage.objc.IsSmall { EntSizeAndFlags := 2147483660, Count := 2 } = true ∧
      GetObjCMethods exImage 0 4152 = (.ok exMethods, 20) ∧
      ¬ SlotOffsets 56 12 8 exMethods ∧
      exImage.GetOffset 4216 = some ((120 : Nat) : Int) ∧
      exImage.objc.IsSmall { EntSizeAndFlags := 24, Count := 2 } = false ∧
      GetObjCMethods exImage 0 4216 = (.ok exBigMethods, 20) ∧
      ¬ SlotOffsets 120 24 16 exBigMethods := by
  refine ⟨by decide, by decide, rfl, ?_, by decide, by decide, rfl, ?_⟩
  · intro H
    have h := H 0 _ rfl
    revert h
    decide
  · intro H
    have h := H 0 _ rfl
    revert h
    decide

/-! ## The method-name pool -/

theorem readString_some (r s r1 : List Nat) (h : readString r = some (s, r1)) :
    ∃ body, s = body ++ [0] ∧ 0 ∉ body ∧ r = body ++ 0 :: r1 := by
  induction r generalizing s r1 with
  | nil => cases h
  | cons b bs ih =>
    unfold readString at h
    by_cases hb : b = 0
    · rw [if_pos hb] at h
      cases h
      exact ⟨[], rfl, by simp, by simp [hb]⟩
    · rw [if_neg hb] at h
      cases hrs : readString bs with
      | none =>
        rw [hrs] at h
        cases h
      | some sr =>
        obtain ⟨s1, r2⟩ := sr
        rw [hrs] at h
        cases h
        obtain ⟨body, h1, h2, h3⟩ := ih s1 r1 hrs
        refine ⟨b :: body, by simp [h1], ?_, by simp [h3]⟩
        simp only [List.mem_cons, not_or]
        exact ⟨fun h0 => hb h0.symm, h2⟩

theorem readString_none (r : List Nat) (h : readString r = none) : 0 ∉ r := by
  induction r with
  | nil => simp
  | cons b bs ih =>
    unfold readString at h
    by_cases hb : b = 0
    · rw [if_pos hb] at h
      cases h
    · rw [if_neg hb] at h
      cases hrs : readString bs with
      | none =>
        simp only [List.mem_cons, not_or]
        exact ⟨fun h0 => hb h0.symm, ih hrs⟩
      | some sr =>
        rw [hrs] at h
        cases h

theorem splitNul_cons (b : Nat) (bs acc : List Nat) :
    splitNul (b :: bs) acc =
      if b = 0 then acc.reverse :: splitNul bs [] else splitNul bs (b :: acc) :=
  rfl

theorem splitNul_no_nul (r acc : List Nat) (h : 0 ∉ r) : splitNul r acc = [] := by
  induction r generalizing acc with
  | nil => rfl
  | cons b bs ih =>
    simp only [List.mem_cons, not_or] at h
    rw [splitNul_cons, if_neg (fun hb => h.1 hb.symm)]
    exact ih _ h.2

theorem splitNul_body (body r1 acc : List Nat) (h : 0 ∉ body) :
    splitNul (body ++ 0 :: r1) acc = (acc.reverse ++ body) :: splitNul r1 [] := by
  induction body generalizing acc with
  | nil => simp [splitNul]
  | cons b bs ih =>
    simp only [List.mem_cons, not_or] at h
    simp only [List.cons_append]
    rw [splitNul_cons, if_neg (fun hb => h.1 hb.symm), ih _ h.2]
    simp

theorem splitNul_append_no_nul (p t acc : List Nat) (h : 0 ∉ t) :
    splitNul (p ++ t) acc = splitNul p acc := by
  induction p generalizing acc with
  | nil =>
    rw [List.nil_append, splitNul_no_nul t acc h]
    rfl
  | cons b bs ih =>
    simp only [List.cons_append]
    rw [splitNul_cons, splitNul_cons]
    by_cases hb : b = 0
    · rw [if_pos hb, if_pos hb, ih]
    · rw [if_neg hb, if_neg hb, ih]

theorem dropWhile_head {p : Nat → Bool} (x : Nat) (xs : List Nat) (h : p x = false) :
    (x :: xs).dropWhile p = x :: xs := by
  simp [List.dropWhile, h]

theorem trimNul_body (body : List Nat) (h : 0 ∉ body) : trimNul (body ++ [0]) = body := by
  unfold trimNul
  cases body with
  | nil => simp [List.dropWhile]
  | cons b t =>
    have hb : b ≠ 0 := fun hb => h (by simp [hb])
    rw [List.cons_append, dropWhile_head b _ (by simpa using hb)]
    rw [← List.cons_append, List.reverse_append]
    simp only [List.reverse_cons, List.reverse_nil, List.nil_append, List.singleton_append]
    rw [List.dropWhile_cons_of_pos (by simp)]
    have hne : t.reverse ++ [b] ≠ [] := by simp
    obtain ⟨x, xs, hx⟩ := List.exists_cons_of_ne_nil hne
    have hxmem : x ∈ b :: t := by
      have : x ∈ t.reverse ++ [b] := by rw [hx]; simp
      simpa [or_comm] using this
    have hx0 : x ≠ 0 := fun h0 => h (h0 ▸ hxmem)
    rw [hx, dropWhile_head x _ (by simpa using hx0), ← hx]
    simp

theorem methodNamesLoop_succ (sec : Section) (fuel : Nat) (r : List Nat)
    (m : List (List Nat × Nat)) :
    methodNamesLoop sec (fuel + 1) r m =
      match readString r with
      | none => some m
      | some (s, r1) =>
        methodNamesLoop sec fuel r1
          (mapSet m (trimNul s)
            ((sec.Addr + (sec.Size - (r1.length + s.length))) % 18446744073709551616)) :=
  rfl

/-- The loop of `GetObjCMethodNames` returns when its fuel exceeds the length
of the unread buffer; it keeps the map a map of pool strings and their
addresses, and adds exactly the NUL-terminated strings of the buffer. -/
theorem methodNamesLoop_spec (sec : Section) (pool : List Nat) (hsize : sec.Size = pool.length)
    (fuel : Nat) (pre r : List Nat) (m : List (List Nat × Nat)) (hpool : pool = pre ++ r)
    (hfuel : r.length < fuel) (hinv : PoolEntries sec pool m) :
    ∃ m1, methodNamesLoop sec fuel r m = some m1 ∧ PoolEntries sec pool m1 ∧
      ∀ k, (mapGet m1 k).isSome = true ↔ ((mapGet m k).isSome = true ∨ k ∈ splitNul r []) := by
  induction fuel generalizing pre r m with
  | zero => omega
  | succ n ih =>
    rw [methodNamesLoop_succ]
    cases hrs : readString r with
    | none =>
      refine ⟨m, rfl, hinv, ?_⟩
      intro k
      rw [splitNul_no_nul r [] (readString_none r hrs)]
      simp
    | some sr =>
      obtain ⟨s, r1⟩ := sr
      obtain ⟨body, h1, h2, h3⟩ := readString_some r s r1 hrs
      subst h1
      dsimp only
      rw [trimNul_body body h2]
      have hlen : pool.length = pre.length + (body.length + 1 + r1.length) := by
        rw [hpool, h3]
        simp
        omega
      have hval : sec.Size - (r1.length + (body ++ [0]).length) = pre.length := by
        rw [hsize, hlen]
        simp
        omega
      rw [hval]
      have hinv1 : PoolEntries sec pool
          (mapSet m body ((sec.Addr + pre.length) % 18446744073709551616)) := by
        intro k v hk
        rw [mapGet_mapSet] at hk
        by_cases hkb : body = k
        · subst hkb
          rw [if_pos rfl] at hk
          cases hk
          refine ⟨pre.length, by omega, rfl, ?_⟩
          rw [hpool, h3, List.drop_left, List.take_append_eq_append_take]
          simp
        · rw [if_neg hkb] at hk
          exact hinv k v hk
      obtain ⟨m1, hrun, hinv2, hkeys⟩ := ih (pre ++ body ++ [0]) r1
        (mapSet m body ((sec.Addr + pre.length) % 18446744073709551616))
        (by rw [hpool, h3]; simp) (by rw [h3] at hfuel; simp at hfuel; omega) hinv1
      refine ⟨m1, hrun, hinv2, ?_⟩
      intro k
      rw [hkeys k, mapGet_mapSet, h3, splitNul_body body r1 [] h2]
      by_cases hkb : body = k
      · simp [hkb]
      · have hkb1 : ¬ k = body := fun h => hkb h.symm
        simp [hkb, hkb1]

theorem File.readAt_ok_length (f : File) (size : Nat) (off : Int) (p : List Nat)
    (h : f.readAt size off = .ok p) : p.length = size := by
  unfold File.readAt at h
  by_cases h0 : off < 0
  · rw [if_pos h0] at h
    cases h
  · rw [if_neg h0] at h
    by_cases h1 : ((f.sr.drop off.toNat).take size).length = size
    · rw [if_pos h1] at h
      cases h
      exact h1
    · rw [if_neg h1] at h
      cases h

theorem isSome_iff_exists {α : Type} (o : Option α) : o.isSome = true ↔ ∃ v, o = some v := by
  cases o <;> simp

/-- C15 (amended): when the section `__TEXT.__objc_methname` (address `sec.Addr`, size
`sec.Size`) is readable, its bytes being `pool`, `GetObjCMethodNames` returns a
map whose keys are exactly the NUL-terminated strings of the pool; every key
`k` has a value `v = sec.Addr + o` (as a `uint64`) for an offset `o` of the
pool at which the bytes of `k` followed by a NUL stand, so that
`sec.Addr ≤ v < sec.Addr + sec.Size` when the section lies in the 64-bit
address space; and bytes after the last NUL of the pool give no key. -/
theorem GetObjCMethodNames_pool (f : File) (sec : Section) (off : Int) (pool : List Nat)
    (hsec : f.Section "__TEXT" "__objc_methname" = some sec)
    (hoff : f.GetOffset sec.Addr = some off)
    (hread : f.readAt sec.Size off = .ok pool) :
    ∃ m, GetObjCMethodNames f = some (.ok m) ∧
      (∀ k, k ∈ poolStrings pool → ∃ v, mapGet m k = some v) ∧
      (∀ k v, mapGet m k = some v →
        k ∈ poolStrings pool ∧
        ∃ o, o < sec.Size ∧ v = (sec.Addr + o) % 18446744073709551616 ∧
          (pool.drop o).take (k.length + 1) = k ++ [0]) ∧
      (sec.Addr + sec.Size ≤ 18446744073709551616 → ∀ k v, mapGet m k = some v →
        sec.Addr ≤ v ∧ v < sec.Addr + sec.Size ∧
          (pool.drop (v - sec.Addr)).take (k.length + 1) = k ++ [0]) ∧
      (∀ p t, pool = p ++ t → 0 ∉ t →
        ∀ k, (∃ v, mapGet m k = some v) ↔ k ∈ poolStrings p) := by
  have hlen : pool.length = sec.Size := File.readAt_ok_length f sec.Size off pool hread
  obtain ⟨m, hrun, hinv, hkeys⟩ := methodNamesLoop_spec sec pool hlen.symm (sec.Size + 1) [] pool []
    rfl (by omega) (by intro k v hk; cases hk)
  have hkeys1 : ∀ k, (∃ v, mapGet m k = some v) ↔ k ∈ poolStrings pool := by
    intro k
    rw [← isSome_iff_exists, hkeys k]
    simp [mapGet, poolStrings]
  refine ⟨m, ?_, fun k hk => (hkeys1 k).2 hk, ?_, ?_, ?_⟩
  · unfold GetObjCMethodNames
    rw [hsec]
    dsimp only
    rw [hoff]
    dsimp only
    rw [hread]
    dsimp only
    rw [hrun]
    rfl
  · intro k v hk
    refine ⟨(hkeys1 k).1 ⟨v, hk⟩, ?_⟩
    obtain ⟨o, ho, hv, hb⟩ := hinv k v hk
    exact ⟨o, by omega, hv, hb⟩
  · intro hno k v hk
    obtain ⟨o, ho, hv, hb⟩ := hinv k v hk
    have hv1 : v = sec.Addr + o := by
      rw [hv]
      exact Nat.mod_eq_of_lt (by omega)
    subst hv1
    refine ⟨by omega, by omega, ?_⟩
    rw [Nat.add_sub_cancel_left]
    exact hb
  · intro p t hp ht k
    rw [hkeys1 k, hp]
    unfold poolStrings
    rw [splitNul_append_no_nul p t [] ht]

set_option maxRecDepth 100000 in
theorem GetObjCMethodNames_pool_witness :
    GetObjCMethodNames poolImage =
      some (.ok [([70, 111, 111], 4104), ([98, 97, 114], 4108), ([118, 64, 58], 4112),
        ([98, 97, 122], 4116), ([95, 120], 4120), ([105], 4123), ([80], 4125)]) ∧
    ∃ m, GetObjCMethodNames poolImage = some (.ok m) ∧
      mapGet m [98, 97, 122] = some 4116 ∧ mapGet m [66, 97, 114] = none :=
  ⟨rfl,
    match GetObjCMethodNames_pool poolImage exMethname 8 ((exStore.drop 8).take 26)
        rfl rfl rfl with
    | ⟨m, h1, _, _, _, _⟩ => ⟨m, h1, by cases h1; rfl, by cases h1; rfl⟩⟩

set_option maxRecDepth 100000 in
/-- C15 fails as stated, for a pool at the top of the address space: the
section `__TEXT.__objc_methname` of this image has address `2^64 - 16` and
size 26 and is readable; the sum of line 147 wraps, the keys `_x`, `i` and `P`
get the values 0, 3 and 5, and 0 is not at or above the address of the
section. -/
theorem GetObjCMethodNames_pool_counterexample :
    wrapImage.Section "__TEXT" "__objc_methname" = some wrapMethname ∧
      wrapMethname.Addr = 18446744073709551600 ∧ wrapMethname.Size = 26 ∧
      wrapImage.GetOffset wrapMethname.Addr = some 8 ∧
      wrapImage.readAt wrapMethname.Size 8 = .ok ((exStore.drop 8).take 26) ∧
      GetObjCMethodNames wrapImage =
        some (.ok [([70, 111, 111], 18446744073709551600), ([98, 97, 114], 18446744073709551604),
          ([118, 64, 58], 18446744073709551608), ([98, 97, 122], 18446744073709551612),
          ([95, 120], 0), ([105], 3), ([80], 5)]) ∧
      mapGet [(([70, 111, 111] : List Nat), 18446744073709551600),
          ([98, 97, 114], 18446744073709551604), ([118, 64, 58], 18446744073709551608),
          ([98, 97, 122], 18446744073709551612), ([95, 120], 0), ([105], 3), ([80], 5)]
        [95, 120] = some 0 ∧
      ¬ wrapMethname.Addr ≤ 0 := by
  refine ⟨rfl, rfl, rfl, rfl, rfl, rfl, by decide, by decide⟩

/-! ## The method-list section read as a stream -/

theorem RoundUp_mod (x : Nat) : RoundUp x 8 % 8 = 0 := by
  unfold RoundUp
  exact Nat.mul_mod_left _ _

theorem mlrRead_ok (f : File) (sec : Section) (size q : Nat)
    (h : q + size ≤ (secBytes f sec).length) :
    mlrRead f sec size q = (.ok (((secBytes f sec).drop q).take size), q + size) := by
  have hl : ((((f.sr.drop sec.Offset).take sec.Size).drop q).take size).length = size := by
    unfold secBytes at h
    rw [List.length_take, List.length_drop]
    omega
  unfold mlrRead
  rw [if_pos hl]
  rfl

theorem mlrRead_eof (f : File) (sec : Section) (q : Nat)
    (h : (secBytes f sec).length ≤ q) :
    mlrRead f sec 8 q = (.error .eof, q) := by
  have hl : ((((f.sr.drop sec.Offset).take sec.Size).drop q).take 8).length = 0 := by
    unfold secBytes at h
    rw [List.length_take, List.length_drop]
    omega
  unfold mlrRead
  rw [hl, if_neg (by decide), if_pos rfl]

theorem mlrRead_short (f : File) (sec : Section) (size q : Nat)
    (h : ¬ q + size ≤ (secBytes f sec).length) (hs : 0 < size ∨ q ≤ (secBytes f sec).length) :
    ∃ e q1, mlrRead f sec size q = (.error e, q1) ∧
      (e = .eof → (secBytes f sec).length ≤ q) := by
  have hl : ((((f.sr.drop sec.Offset).take sec.Size).drop q).take size).length =
      (secBytes f sec).length - q := by
    unfold secBytes at h ⊢
    rw [List.length_take, List.length_drop]
    omega
  unfold mlrRead
  rw [hl, if_neg (by omega)]
  by_cases h0 : (secBytes f sec).length - q = 0
  · rw [if_pos h0]
    exact ⟨_, _, rfl, fun _ => by omega⟩
  · rw [if_neg h0]
    exact ⟨_, _, rfl, fun he => by cases he⟩

theorem methListLoop_succ (f : File) (sec : Section) (fuel q cur : Nat) (acc : List Method) :
    methListLoop f sec (fuel + 1) q cur acc =
      match mlrRead f sec 8 q with
      | (.error .eof, _) => some (.ok acc, cur)
      | (.error _, _) => some (.error .readMethodList, cur)
      | (.ok hdr, q1) =>
        match mlrRead f sec ((methodListCodec.decode f.ByteOrder hdr).Count * 12) q1 with
        | (.error _, _) => some (.error .readMethodSmall, cur)
        | (.ok bs, q2) =>
          match smallLoop f (methodListCodec.decode f.ByteOrder hdr)
              ((chunks 12 (methodListCodec.decode f.ByteOrder hdr).Count bs).map
                (methodSmallCodec.decode f.ByteOrder))
              (toInt64 ((q1 : Int) + (sec.Offset : Int))) cur acc with
          | (.error e, cur1) => some (.error e, cur1)
          | (.ok ms, cur1) => methListLoop f sec fuel (RoundUp q2 8) cur1 ms :=
  rfl

theorem methListLoop_stop (f : File) (sec : Section) (fuel q cur : Nat) (acc : List Method)
    (h : (secBytes f sec).length ≤ q) :
    methListLoop f sec (fuel + 1) q cur acc = some (.ok acc, cur) := by
  rw [methListLoop_succ, mlrRead_eof f sec q h]

/-- One iteration of the loop of `GetObjCMethodList` over a list that lies in
the section. -/
theorem methListLoop_list (f : File) (sec : Section) (fuel q cur : Nat) (acc : List Method)
    (h : q + 8 + 12 * (hdrAt f sec q).Count ≤ (secBytes f sec).length) :
    methListLoop f sec (fuel + 1) q cur acc =
      match smallLoop f (hdrAt f sec q) (entriesAtSec f sec q)
          (toInt64 (((q + 8 : Nat) : Int) + (sec.Offset : Int))) cur acc with
      | (.error e, cur1) => some (.error e, cur1)
      | (.ok ms, cur1) =>
        methListLoop f sec fuel (RoundUp (q + 8 + 12 * (hdrAt f sec q).Count) 8) cur1 ms := by
  rw [methListLoop_succ, mlrRead_ok f sec 8 q (by omega)]
  dsimp only
  have h2 : q + 8 + (hdrAt f sec q).Count * 12 ≤ (secBytes f sec).length := by omega
  have h3 : q + 8 + (hdrAt f sec q).Count * 12 = q + 8 + 12 * (hdrAt f sec q).Count := by omega
  unfold hdrAt at h2 h3
  rw [mlrRead_ok f sec _ (q + 8) h2]
  dsimp only
  rw [h3]
  rfl

theorem smallLoop_acc_ok (f : File) (ml : MethodList) (methods : List MethodSmallT)
    (c : Int) (cur : Nat) (acc0 acc r : List Method) (cur1 : Nat)
    (h : smallLoop f ml methods c cur acc0 = (.ok r, cur1)) :
    smallLoop f ml methods c cur (acc ++ acc0) = (.ok (acc ++ r), cur1) := by
  induction methods generalizing c cur acc0 with
  | nil =>
    rw [smallLoop_nil] at h
    cases h
    rfl
  | cons m rest ih =>
    rw [smallLoop_cons] at h ⊢
    rcases hent : smallEntry f c cur m with ⟨_ | x, cur2⟩
    · rw [hent] at h
      cases h
    · rw [hent] at h
      dsimp only at h ⊢
      rw [List.append_assoc]
      exact ih _ _ _ h

theorem smallLoop_acc_error (f : File) (ml : MethodList) (methods : List MethodSmallT)
    (c : Int) (cur : Nat) (acc0 acc : List Method) (e : Err) (cur1 : Nat)
    (h : smallLoop f ml methods c cur acc0 = (.error e, cur1)) :
    smallLoop f ml methods c cur acc = (.error e, cur1) := by
  induction methods generalizing c cur acc0 acc with
  | nil =>
    rw [smallLoop_nil] at h
    cases h
  | cons m rest ih =>
    rw [smallLoop_cons] at h ⊢
    rcases hent : smallEntry f c cur m with ⟨_ | x, cur2⟩
    · rw [hent] at h
      exact h
    · rw [hent] at h
      dsimp only at h ⊢
      exact ih _ _ _ _ h

theorem smallLoop_acc_inv (f : File) (ml : MethodList) (methods : List MethodSmallT)
    (c : Int) (cur : Nat) (acc ms : List Method) (cur1 : Nat)
    (h : smallLoop f ml methods c cur acc = (.ok ms, cur1)) :
    ∃ new, smallLoop f ml methods c cur [] = (.ok new, cur1) ∧ ms = acc ++ new := by
  rcases hnil : smallLoop f ml methods c cur [] with ⟨e | new, cur2⟩
  · rw [smallLoop_acc_error f ml methods c cur [] acc e cur2 hnil] at h
    cases h
  · have h1 := smallLoop_acc_ok f ml methods c cur [] acc new cur2 hnil
    rw [List.append_nil, h] at h1
    cases h1
    exact ⟨new, rfl, rfl⟩

theorem MethListStream_nil (f : File) (sec : Section) (q cur cur1 : Nat) :
    MethListStream f sec q cur [] cur1 ↔ (cur1 = cur ∧ (secBytes f sec).length ≤ q) :=
  Iff.rfl

theorem MethListStream_cons (f : File) (sec : Section) (q cur cur1 p : Nat) (ms : List Method)
    (rest : List (Nat × List Method)) :
    MethListStream f sec q cur ((p, ms) :: rest) cur1 ↔
      (p = q ∧ p + 8 + 12 * (hdrAt f sec p).Count ≤ (secBytes f sec).length ∧
      ∃ cur2, smallLoop f (hdrAt f sec p) (entriesAtSec f sec p)
          (toInt64 (((p + 8 : Nat) : Int) + (sec.Offset : Int))) cur [] = (.ok ms, cur2) ∧
        MethListStream f sec (RoundUp (p + 8 + 12 * (hdrAt f sec p).Count) 8) cur2 rest cur1) :=
  Iff.rfl

/-- The loop of `GetObjCMethodList` over a stream of lists: it returns as soon
as its fuel exceeds the number of lists, with the methods of the lists behind
those it started with. -/
theorem methListLoop_stream (f : File) (sec : Section) (stream : List (Nat × List Method))
    (q cur cur1 : Nat) (acc : List Method) (fuel : Nat)
    (h : MethListStream f sec q cur stream cur1) (hfuel : stream.length < fuel) :
    methListLoop f sec fuel q cur acc =
      some (.ok (acc ++ (stream.map Prod.snd).flatten), cur1) := by
  induction stream generalizing q cur acc fuel with
  | nil =>
    obtain ⟨h1, h2⟩ := (MethListStream_nil f sec q cur cur1).1 h
    obtain ⟨n, rfl⟩ : ∃ n, fuel = n + 1 := ⟨fuel - 1, by simp at hfuel; omega⟩
    rw [methListLoop_stop f sec n q cur acc h2, h1]
    simp
  | cons e rest ih =>
    obtain ⟨p, ms⟩ := e
    obtain ⟨hp, hfit, cur2, hrun, hrest⟩ := (MethListStream_cons f sec q cur cur1 p ms rest).1 h
    subst hp
    obtain ⟨n, rfl⟩ : ∃ n, fuel = n + 1 := ⟨fuel - 1, by simp at hfuel; omega⟩
    rw [methListLoop_list f sec n p cur acc hfit]
    have hacc := smallLoop_acc_ok f (hdrAt f sec p) (entriesAtSec f sec p)
      (toInt64 (((p + 8 : Nat) : Int) + (sec.Offset : Int))) cur [] acc ms cur2 hrun
    rw [List.append_nil] at hacc
    rw [hacc]
    dsimp only
    rw [ih _ cur2 (acc ++ ms) n hrest (by simp at hfuel; omega)]
    simp

/-- Every successful run of the loop of `GetObjCMethodList` has read a stream
of lists. -/
theorem methListLoop_ok_inv (f : File) (sec : Section) (fuel : Nat) (q cur : Nat)
    (acc ms : List Method) (cur1 : Nat)
    (h : methListLoop f sec fuel q cur acc = some (.ok ms, cur1)) :
    ∃ stream, MethListStream f sec q cur stream cur1 ∧
      ms = acc ++ (stream.map Prod.snd).flatten := by
  induction fuel generalizing q cur acc with
  | zero => cases h
  | succ n ih =>
    by_cases h8 : q + 8 ≤ (secBytes f sec).length
    · by_cases hfit : q + 8 + 12 * (hdrAt f sec q).Count ≤ (secBytes f sec).length
      · rw [methListLoop_list f sec n q cur acc hfit] at h
        rcases hrun : smallLoop f (hdrAt f sec q) (entriesAtSec f sec q)
            (toInt64 (((q + 8 : Nat) : Int) + (sec.Offset : Int))) cur acc with ⟨e | r, cur2⟩
        · rw [hrun] at h
          cases h
        · rw [hrun] at h
          dsimp only at h
          obtain ⟨new, hnew, hr⟩ := smallLoop_acc_inv f _ _ _ cur acc r cur2 hrun
          obtain ⟨stream, hs, hms⟩ := ih _ cur2 r h
          refine ⟨(q, new) :: stream, ?_, ?_⟩
          · exact (MethListStream_cons f sec q cur cur1 q new stream).2
              ⟨rfl, hfit, cur2, hnew, hs⟩
          · rw [hms, hr]
            simp
      · rw [methListLoop_succ, mlrRead_ok f sec 8 q h8] at h
        dsimp only at h
        have hfit2 : ¬ q + 8 + (hdrAt f sec q).Count * 12 ≤ (secBytes f sec).length := by omega
        unfold hdrAt at hfit2
        obtain ⟨e, q1, hrd, _⟩ := mlrRead_short f sec _ (q + 8) hfit2 (Or.inr h8)
        rw [hrd] at h
        cases h
    · obtain ⟨e, q1, hrd, he⟩ := mlrRead_short f sec 8 q h8 (Or.inl (by decide))
      rw [methListLoop_succ, hrd] at h
      cases e with
      | eof =>
        dsimp only at h
        cases h
        exact ⟨[], (MethListStream_nil f sec q _ _).2 ⟨rfl, he rfl⟩, by simp⟩
      | _ =>
        dsimp only at h
        cases h

/-- The lists of a stream have the lengths their headers count, each header
stands at a multiple of 8 when the stream starts at one, and each list is
followed by the next at `RoundUp (p + 8 + 12 * n) 8`, where the stream ends
when it is the last. -/
theorem MethListStream_chain (f : File) (sec : Section) (stream : List (Nat × List Method))
    (q cur cur1 : Nat) (h : MethListStream f sec q cur stream cur1) (hq : q % 8 = 0) :
    (stream.head?.map Prod.fst = none ∨ stream.head?.map Prod.fst = some q) ∧
    ∀ (i p : Nat) (ms : List Method), stream[i]? = some (p, ms) →
      p % 8 = 0 ∧ ms.length = (hdrAt f sec p).Count ∧
      RoundUp (p + 8 + 12 * (hdrAt f sec p).Count) 8 % 8 = 0 ∧
      (∀ e, stream[i + 1]? = some e →
        e.1 = RoundUp (p + 8 + 12 * (hdrAt f sec p).Count) 8) ∧
      (stream[i + 1]? = none →
        (secBytes f sec).length ≤ RoundUp (p + 8 + 12 * (hdrAt f sec p).Count) 8) := by
  induction stream generalizing q cur with
  | nil => exact ⟨Or.inl rfl, fun i p ms hi => by simp at hi⟩
  | cons e rest ih =>
    obtain ⟨p0, ms0⟩ := e
    obtain ⟨hp, hfit, cur2, hrun, hrest⟩ := (MethListStream_cons f sec q cur cur1 p0 ms0 rest).1 h
    subst hp
    obtain ⟨hhead, hall⟩ := ih _ cur2 hrest (RoundUp_mod _)
    refine ⟨Or.inr rfl, ?_⟩
    intro i p ms hi
    cases i with
    | zero =>
      simp only [List.getElem?_cons_zero, Option.some.injEq, Prod.mk.injEq] at hi
      obtain ⟨rfl, rfl⟩ := hi
      have hlen := smallLoop_ok_length f _ _ _ cur [] ms0 cur2 hrun
      refine ⟨hq, ?_, RoundUp_mod _, ?_, ?_⟩
      · rw [hlen]
        unfold entriesAtSec
        rw [List.length_map, chunks_length]
        simp
      · intro e he
        simp only [zero_add, List.getElem?_cons_succ] at he
        cases rest with
        | nil => simp at he
        | cons e1 rest1 =>
          simp only [List.getElem?_cons_zero, Option.some.injEq] at he
          subst he
          rcases hhead with h0 | h0
          · simp at h0
          · simpa using h0
      · intro hnone
        simp only [zero_add, List.getElem?_cons_succ] at hnone
        cases rest with
        | nil => exact ((MethListStream_nil f sec _ cur2 cur1).1 hrest).2
        | cons e1 rest1 => simp at hnone
    | succ j =>
      simp only [List.getElem?_cons_succ] at hi ⊢
      exact hall j p ms hi

/-- C20: `GetObjCMethodList` reads the section `__TEXT.__objc_methlist` as a
contiguous stream of small method lists.  For every stream of lists that
starts at position 0 of the section (each list inside the section and
decodable, the next list at `RoundUp (p + 8 + 12 * n) 8` behind a list of
count `n` whose header is at `p`, no bytes left behind the last), the function
returns, with enough iterations, the concatenation of the methods of the
lists in stream order and no error; its length is the sum of the counts; every
header position is a multiple of 8, the list at `p` has as many methods as its
header counts, the next header is at `RoundUp (p + 8 + 12 * n) 8`, and behind
the last list no bytes remain at that position.  Every successful run of the
function is the reading of such a stream. -/
theorem GetObjCMethodList_stream (f : File) (sec : Section) (cur : Nat)
    (hsec : f.Section "__TEXT" "__objc_methlist" = some sec) :
    (∀ stream cur1, MethListStream f sec 0 cur stream cur1 →
      (∀ fuel, stream.length < fuel →
        GetObjCMethodList f fuel cur = some (.ok (stream.map Prod.snd).flatten, cur1)) ∧
      (stream.map Prod.snd).flatten.length =
        (stream.map (fun e => (hdrAt f sec e.1).Count)).sum ∧
      ∀ (i p : Nat) (ms : List Method), stream[i]? = some (p, ms) →
        p % 8 = 0 ∧ ms.length = (hdrAt f sec p).Count ∧
        RoundUp (p + 8 + 12 * (hdrAt f sec p).Count) 8 % 8 = 0 ∧
        (∀ e, stream[i + 1]? = some e →
          e.1 = RoundUp (p + 8 + 12 * (hdrAt f sec p).Count) 8) ∧
        (stream[i + 1]? = none →
          (secBytes f sec).length ≤ RoundUp (p + 8 + 12 * (hdrAt f sec p).Count) 8)) ∧
    (∀ fuel ms cur1, GetObjCMethodList f fuel cur = some (.ok ms, cur1) →
      ∃ stream, MethListStream f sec 0 cur stream cur1 ∧
        ms = (stream.map Prod.snd).flatten) := by
  have hrun : ∀ fuel, GetObjCMethodList f fuel cur = methListLoop f sec fuel 0 cur [] := by
    intro fuel
    unfold GetObjCMethodList
    rw [hsec]
  constructor
  · intro stream cur1 hs
    obtain ⟨_, hall⟩ := MethListStream_chain f sec stream 0 cur cur1 hs rfl
    refine ⟨?_, ?_, hall⟩
    · intro fuel hfuel
      rw [hrun fuel, methListLoop_stream f sec stream 0 cur cur1 [] fuel hs hfuel]
      rfl
    · rw [List.length_flatten, List.map_map]
      congr 1
      apply List.map_congr_left
      intro e he
      obtain ⟨i, hi⟩ := List.mem_iff_getElem?.1 he
      exact (hall i e.1 e.2 hi).2.1
  · intro fuel ms cur1 h
    rw [hrun fuel] at h
    obtain ⟨stream, hs, hms⟩ := methListLoop_ok_inv f sec fuel 0 cur [] ms cur1 h
    exact ⟨stream, hs, by simpa using hms⟩

set_option maxRecDepth 100000 in
theorem GetObjCMethodList_stream_witness :
    GetObjCMethodList methlistImage 3 0 = some (.ok (exStream.map Prod.snd).flatten, 20) ∧
    (exStream.map Prod.snd).flatten.length = 1 + 2 ∧
    RoundUp (0 + 8 + 12 * 1) 8 = 24 ∧ RoundUp (24 + 8 + 12 * 2) 8 = 56 :=
  ⟨((GetObjCMethodList_stream methlistImage exMethlist 0 rfl).1 exStream 20
      ⟨rfl, by decide, 20, rfl, rfl, by decide, 20, rfl, rfl, by decide⟩).1 3 (by decide),
    by decide, by decide, by decide⟩

/-! ## Classes returned and classes counted -/

theorem dataSection_some (f : File) (name : String) (segs : List Segment) (sec : Section)
    (h : dataSection f name segs = some sec) :
    sec ∈ f.Sections ∧ HasPrefix sec.Seg "__DATA" = true ∧ sec.Name = name := by
  induction segs with
  | nil => cases h
  | cons s rest ih =>
    unfold dataSection at h
    by_cases hp : HasPrefix s.Name "__DATA" = true
    · rw [if_pos hp] at h
      cases hfind : f.Section s.Name name with
      | none =>
        rw [hfind] at h
        exact ih h
      | some sec1 =>
        rw [hfind] at h
        cases h
        unfold File.Section at hfind
        have hmem := List.mem_of_find?_eq_some hfind
        have hprop := List.find?_some hfind
        simp only [Bool.and_eq_true, beq_iff_eq] at hprop
        refine ⟨hmem, ?_, hprop.2⟩
        rw [hprop.1]
        exact hp
    · rw [if_neg hp] at h
      exact ih h

/-- A successful `GetObjCClasses` has found its section, read its data and
returned one class for each of the `Size / 8` pointers. -/
theorem GetObjCClasses_ok_inv (f : File) (fuel cur : Nat) (cs : List Class) (cur1 : Nat)
    (h : GetObjCClasses f fuel cur = some (.ok cs, cur1)) :
    ∃ sec dat, dataSection f "__objc_classlist" f.Segs = some sec ∧ sec.Data f = .ok dat ∧
      cs.length = sec.Size / 8 := by
  unfold GetObjCClasses at h
  cases hsec : dataSection f "__objc_classlist" f.Segs with
  | none =>
    rw [hsec] at h
    cases h
  | some sec =>
    rw [hsec] at h
    dsimp only at h
    cases hdat : sec.Data f with
    | error e =>
      rw [hdat] at h
      cases h
    | ok dat =>
      rw [hdat] at h
      dsimp only at h
      have hlen := Section.Data_ok_length f sec dat hdat
      rw [readPointers_ok f.ByteOrder dat (sec.Size / 8) (by omega)] at h
      dsimp only at h
      obtain ⟨new, hnew, hdec⟩ := (classesLoop_ok_iff f fuel _ cur [] cs cur1).1 h
      rw [List.nil_append] at hnew
      subst hnew
      have := ClassesDecode_length f fuel _ cur cs cur1 hdec
      refine ⟨sec, dat, rfl, hdat, ?_⟩
      simpa [chunks_length] using this

/-- C21 (amended): in a 64-bit image (pointer size 8) with exactly one section counted
as `__objc_classlist` (a section of a segment whose name starts with `__DATA`,
named `__objc_classlist` up to letter case), whenever `GetObjCClasses`
succeeds the number of classes it returns equals the `ClassDefCount` that
`GetObjCInfo` returns; both are the size of that section divided by 8. -/
theorem GetObjCClasses_length_eq_count (f : File) (fuel cur : Nat) (sec : Section)
    (cs : List Class) (cur1 : Nat)
    (hps : f.pointerSize = 8)
    (hone : dataSections f "__objc_classlist" = [sec])
    (hsize : sec.Size < 18446744073709551616)
    (hok : GetObjCClasses f fuel cur = some (.ok cs, cur1)) :
    cs.length = (GetObjCInfo f).ClassDefCount ∧ cs.length = sec.Size / 8 := by
  obtain ⟨sec1, dat, hsec, _, hlen⟩ := GetObjCClasses_ok_inv f fuel cur cs cur1 hok
  obtain ⟨hmem, hpre, hname⟩ := dataSection_some f "__objc_classlist" f.Segs sec1 hsec
  have hcounted : isDataSection "__objc_classlist" sec1 = true := by
    unfold isDataSection
    rw [hpre, hname, Bool.true_and, EqualFold_iff]
  have hin : sec1 ∈ dataSections f "__objc_classlist" := by
    unfold dataSections
    exact List.mem_filter.2 ⟨hmem, hcounted⟩
  rw [hone, List.mem_singleton] at hin
  subst hin
  have hcount : (GetObjCInfo f).ClassDefCount = sec1.Size / 8 := by
    rw [GetObjCInfo_eq]
    dsimp only
    rw [count_of_single f "__objc_classlist" sec1 hone, hps]
    exact Nat.mod_eq_of_lt (by omega)
  exact ⟨by rw [hcount, hlen], hlen⟩

set_option maxRecDepth 100000 in
theorem GetObjCClasses_length_eq_count_witness :
    GetObjCClasses exImage 2 0 =
        some (.ok [mkClass exImage 4552 exFooParts none, mkClass exImage 4624 exBarParts none],
          35) ∧
      (GetObjCInfo exImage).ClassDefCount = 2 ∧
      [mkClass exImage 4552 exFooParts none, mkClass exImage 4624 exBarParts none].length =
        (GetObjCInfo exImage).ClassDefCount :=
  ⟨rfl, by decide,
    (GetObjCClasses_length_eq_count exImage 2 0 exClasslist
      [mkClass exImage 4552 exFooParts none, mkClass exImage 4624 exBarParts none] 35
      rfl rfl (by decide) rfl).1⟩

set_option maxRecDepth 100000 in
/-- C21 fails as stated, for an image with a second section whose name differs
in letter case only: this 64-bit image has one section named
`__objc_classlist`, in the segment `__DATA_CONST`, and a section
`__DATA.__OBJC_CLASSLIST`; `GetObjCClasses` looks the name up exactly and
returns the two classes of the first, `GetObjCInfo` counts both sections and
returns `ClassDefCount = 3`. -/
theorem GetObjCClasses_length_eq_count_counterexample :
    caseImage.pointerSize = 8 ∧
      caseImage.Sections.filter (fun s => s.Name == "__objc_classlist") = [exClasslist] ∧
      HasPrefix exClasslist.Seg "__DATA" = true ∧
      GetObjCClasses caseImage 2 0 =
        some (.ok [mkClass caseImage 4552 exFooParts none, mkClass caseImage 4624 exBarParts none],
          35) ∧
      (GetObjCInfo caseImage).ClassDefCount = 3 ∧
      [mkClass caseImage 4552 exFooParts none, mkClass caseImage 4624 exBarParts none].length ≠
        (GetObjCInfo caseImage).ClassDefCount := by
  refine ⟨rfl, by decide, by decide, rfl, by decide, by decide⟩

end Macho
